import Mathlib

/-!
# A verification development for the pthread ring buffer (`src/src/ringBuffer.c`)

The C program is embedded shallowly:

* `unsigned long int` is a natural number below `2 ^ 64`; every C operation that
  can leave that range is followed by an explicit reduction (`wrap`, `usub`).
* Memory blocks (the ring storage, the caller's source and destination buffers)
  are total maps from a byte offset to a byte, `Mem`; `memcpy` copies a range.
* A handle is modelled by the structure it points to, so the `NULL` handle guard
  of the public functions has no counterpart; a data pointer is an `Option Mem`
  with `none` for `NULL`.
* The C library allocator is an explicit argument `heap : Option Mem`: `none` is
  a failed `realloc`, `some fresh` a successful one whose bytes beyond the old
  block are those of `fresh`.
* Loops carry fuel and return `none` when the fuel runs out; for the raw
  transfers and for the allocation loop the theorems show that the fuel supplied
  is enough on every well-formed buffer, and for the chunk loops of the blocking
  calls that it is enough whenever the loop comes to an end at all.
-/

namespace RingBuffer

/-! ## Machine arithmetic and memory -/

/-- Reduction of a natural number to the range of `unsigned long int`. -/
def wrap (x : Nat) : Nat := x % 2 ^ 64

/-- Subtraction `a - b` of two `unsigned long int` values. -/
def usub (a b : Nat) : Nat := (a % 2 ^ 64 + 2 ^ 64 - b % 2 ^ 64) % 2 ^ 64

/-- A block of bytes addressed by offset. -/
abbrev Mem := Nat → Nat

/-- The call `memcpy(dst + dOff, src + sOff, n)`. -/
def memcpy (dst : Mem) (dOff : Nat) (src : Mem) (sOff : Nat) (n : Nat) : Mem :=
  fun p => if dOff ≤ p ∧ p < dOff + n then src (sOff + (p - dOff)) else dst p

/-- The bytes `m[0], ..., m[n-1]` of a block. -/
def bytesOf (m : Mem) (n : Nat) : List Nat := (List.range n).map m

/-! ## The buffer object -/

/-- The `struct s_ringBuffer` of `ringBuffer.h` (the mutex and the condition
variable carry no data). -/
structure s_ringBuffer where
  buffSize : Nat
  elementSize : Nat
  indexMask : Nat
  b_blocking : Nat
  headIndex : Nat
  tailIndex : Nat
  p_buffer : Mem

def ERROR_NULL : Nat := 0
def CONT_BLOCKING : Nat := 1
def STOP_BLOCKING : Nat := 0
def PROC_SUCC : Nat := 1
def PROC_FAIL : Nat := 0

/-! ## Private helpers -/

/-- The helper `writeSize`: free bytes. -/
def writeSize (rb : s_ringBuffer) : Nat :=
  let writeSize := usub rb.tailIndex rb.headIndex &&& rb.indexMask
  let writeSize := if writeSize ≠ 0 then writeSize else rb.buffSize
  usub writeSize 1

/-- The helper `readSize`: occupied bytes. -/
def readSize (rb : s_ringBuffer) : Nat :=
  usub rb.headIndex rb.tailIndex &&& rb.indexMask

/-- The `do ... while(len > 0)` loop of `rawWrite`; one unit of fuel per pass. -/
def rawWriteLoop : Nat → s_ringBuffer → Mem → Nat → Nat → Option (Nat × s_ringBuffer)
  | 0, _, _, _, _ => none
  | fuel + 1, rb, ip_buffer, len, totalWrote =>
    let availLen := usub rb.buffSize rb.headIndex
    let writeLen := if len < availLen then len else availLen
    let rb1 : s_ringBuffer := { rb with
      p_buffer := memcpy rb.p_buffer rb.headIndex ip_buffer totalWrote writeLen
      headIndex := wrap (rb.headIndex + writeLen) &&& rb.indexMask }
    let len1 := usub len writeLen
    let totalWrote1 := wrap (totalWrote + writeLen)
    if len1 > 0 then rawWriteLoop fuel rb1 ip_buffer len1 totalWrote1
    else some (totalWrote1, rb1)

/-- The helper `rawWrite`. -/
def rawWrite (rb : s_ringBuffer) (ip_buffer : Mem) (len : Nat) : Option (Nat × s_ringBuffer) :=
  rawWriteLoop (len + 2) rb ip_buffer len 0

/-- The `do ... while(len > 0)` loop of `rawRead`; one unit of fuel per pass. -/
def rawReadLoop : Nat → s_ringBuffer → Mem → Nat → Nat → Option (Nat × s_ringBuffer × Mem)
  | 0, _, _, _, _ => none
  | fuel + 1, rb, op_buffer, len, totalRead =>
    let availLen := usub rb.buffSize rb.tailIndex
    let readLen := if len < availLen then len else availLen
    let op_buffer1 := memcpy op_buffer totalRead rb.p_buffer rb.tailIndex readLen
    let len1 := usub len readLen
    let totalRead1 := wrap (totalRead + readLen)
    let rb1 : s_ringBuffer := { rb with
      tailIndex := wrap (rb.tailIndex + readLen) &&& rb.indexMask }
    if len1 > 0 then rawReadLoop fuel rb1 op_buffer1 len1 totalRead1
    else some (totalRead1, rb1, op_buffer1)

/-- The helper `rawRead`. -/
def rawRead (rb : s_ringBuffer) (op_buffer : Mem) (len : Nat) :
    Option (Nat × s_ringBuffer × Mem) :=
  rawReadLoop (len + 2) rb op_buffer len 0

/-- The loop `while((buffSize <<= 1) < target);` of `allocateBuffer`. -/
def growLoop : Nat → Nat → Nat → Option Nat
  | 0, _, _ => none
  | fuel + 1, buffSize, target =>
    let buffSize1 := wrap (buffSize <<< 1)
    if buffSize1 < target then growLoop fuel buffSize1 target else some buffSize1

/-- The C library call `realloc(p, size)` on a block of `oldSize` bytes. -/
def realloc (p : Mem) (oldSize size : Nat) (heap : Option Mem) : Option Mem :=
  heap.map fun fresh => fun i => if i < min oldSize size then p i else fresh i

/-- The helper `allocateBuffer`; the result pairs the return code with the
buffer object after the call. -/
def allocateBuffer (rb : s_ringBuffer) (buffSize elementSize : Nat) (heap : Option Mem) :
    Option (Nat × s_ringBuffer) :=
  let maxBuffSize := (2 ^ 64 - 1) >>> 1
  if elementSize ≤ 0 then some (PROC_FAIL, rb)
  else if buffSize ≤ 0 then some (PROC_FAIL, rb)
  else if wrap (buffSize * elementSize) > maxBuffSize then some (PROC_FAIL, rb)
  else
    let backupBuffer := rb
    let back_buffersize := rb.buffSize
    let back_elementSize := elementSize
    match growLoop 64 1 (wrap (buffSize * elementSize)) with
    | none => none
    | some grown =>
      let rb1 : s_ringBuffer := { rb with
        buffSize := grown
        indexMask := usub grown 1
        elementSize := elementSize
        b_blocking := 1 }
      match realloc rb1.p_buffer back_buffersize rb1.buffSize heap with
      | none =>
        some (PROC_FAIL, { backupBuffer with
          buffSize := back_buffersize
          indexMask := usub back_buffersize 1
          elementSize := back_elementSize
          b_blocking := 1 })
      | some p_temp => some (PROC_SUCC, { rb1 with p_buffer := p_temp })

/-! ## Public functions -/

/-- The object right after `memset(p_tempBuffer, 0, sizeof(*p_tempBuffer))`. -/
def zeroed : s_ringBuffer :=
  { buffSize := 0, elementSize := 0, indexMask := 0, b_blocking := 0,
    headIndex := 0, tailIndex := 0, p_buffer := fun _ => 0 }

/-- The function `initRingBuffer`; `objAlloc` tells whether the `malloc` of the
object succeeds. The inner `none` is the `NULL` result. -/
def initRingBuffer (buffSize elementSize : Nat) (objAlloc : Bool) (heap : Option Mem) :
    Option (Option s_ringBuffer) :=
  if !objAlloc then some none
  else
    match allocateBuffer zeroed buffSize elementSize heap with
    | none => none
    | some (r, rb) => if r = 0 then some none else some (some rb)

def getRingBufferElementSize (rb : s_ringBuffer) : Nat := rb.elementSize

def getRingBufferByteSize (rb : s_ringBuffer) : Nat := rb.buffSize

def getRingBufferSize (rb : s_ringBuffer) : Nat := rb.buffSize / rb.elementSize

def getRingBufferWriteSize (rb : s_ringBuffer) : Nat := writeSize rb / rb.elementSize

def getRingBufferWriteByteSize (rb : s_ringBuffer) : Nat := writeSize rb

def getRingBufferReadSize (rb : s_ringBuffer) : Nat := readSize rb / rb.elementSize

def getRingBufferReadByteSize (rb : s_ringBuffer) : Nat := readSize rb

def ringBufferIsEmpty (rb : s_ringBuffer) : Nat :=
  if getRingBufferReadSize rb = 0 then 1 else 0

def ringBufferIsFull (rb : s_ringBuffer) : Nat :=
  if getRingBufferWriteSize rb = 0 then 1 else 0

def ringBufferStillBlocking (rb : s_ringBuffer) : Nat :=
  if rb.b_blocking = 1 then 1 else 0

def ringBufferIsAlive (rb : s_ringBuffer) : Nat :=
  if rb.b_blocking = 1 ∨ readSize rb > 0 then 1 else 0

/-- The function `ringBufferResize`. -/
def ringBufferResize (rb : s_ringBuffer) (bufferSize elementSize : Nat) (heap : Option Mem) :
    Option (Nat × s_ringBuffer) :=
  match allocateBuffer rb bufferSize elementSize heap with
  | none => none
  | some (r, rb1) =>
    if r = 0 then some (ERROR_NULL, rb1)
    else
      let rb2 : s_ringBuffer :=
        if rb1.headIndex ≥ rb1.buffSize then { rb1 with headIndex := usub rb1.buffSize 1 }
        else rb1
      let rb3 : s_ringBuffer :=
        if rb2.tailIndex > rb2.buffSize then { rb2 with tailIndex := rb2.buffSize }
        else rb2
      some (getRingBufferSize rb3, rb3)

/-- The function `ringBufferWrite` (non-blocking write). -/
def ringBufferWrite (rb : s_ringBuffer) (ip_buffer : Option Mem) (len : Nat) :
    Option (Nat × s_ringBuffer) :=
  match ip_buffer with
  | none => some (0, rb)
  | some src =>
    if len ≤ 0 then some (0, rb)
    else
      match rawWrite rb src (wrap (len * rb.elementSize)) with
      | none => none
      | some (totalWrote, rb1) => some (totalWrote / rb1.elementSize, rb1)

/-- The function `ringBufferRead` (non-blocking read); the result carries the
return value, the buffer object and the caller's destination block. -/
def ringBufferRead (rb : s_ringBuffer) (op_buffer : Option Mem) (len : Nat) :
    Option (Nat × s_ringBuffer × Option Mem) :=
  match op_buffer with
  | none => some (0, rb, none)
  | some dst =>
    if len ≤ 0 then some (0, rb, some dst)
    else
      let len1 := wrap (len * rb.elementSize)
      let len2 := if len1 > readSize rb then readSize rb else len1
      match rawRead rb dst len2 with
      | none => none
      | some (totalRead, rb1, dst1) => some (totalRead / rb1.elementSize, rb1, some dst1)

/-- The function `ringBufferReset`. -/
def ringBufferReset (rb : s_ringBuffer) : s_ringBuffer :=
  { rb with headIndex := 0, tailIndex := 0, b_blocking := 1 }

/-- The function `ringBufferEndBlocking`. -/
def ringBufferEndBlocking (rb : s_ringBuffer) : s_ringBuffer :=
  { rb with b_blocking := 0 }

/-! ## Blocking calls

A blocking call runs under `rwMutex` and is suspended only inside
`pthread_cond_wait` / `pthread_cond_timedwait`, which release the mutex. The
model is therefore sequential: a blocking call is a function of the list of its
waits, each wait recording the clock reading, the critical sections that other
threads complete while the caller is suspended, and whether the wait returns 0.
A call whose list of waits ends while it still has to wait has no result. -/

/-- The `struct timespec` of the caller's relative timeout. -/
structure timespec where
  tv_sec : Nat
  tv_nsec : Nat
deriving DecidableEq, Repr

/-- The `struct timeval` filled in by `gettimeofday`. -/
structure timeval where
  tv_sec : Nat
  tv_usec : Nat
deriving DecidableEq, Repr

/-- The pointer `p + k`. -/
def ptrAdd (p : Mem) (k : Nat) : Mem := fun i => p (k + i)

/-- The block `m` after the bytes from offset `k` on were replaced by `view`. -/
def ptrStore (m : Mem) (k : Nat) (view : Mem) : Mem :=
  fun p => if p < k then m p else view (p - k)

/-- The calling thread's view of `rwMutex`: whether it holds the mutex, and
whether it has locked it while holding it, or unlocked or waited on it while
not holding it. -/
structure Lock where
  held : Bool
  misuse : Bool
deriving DecidableEq, Repr

def pthread_mutex_lock (l : Lock) : Lock :=
  if l.held then { l with misuse := true } else { l with held := true }

def pthread_mutex_unlock (l : Lock) : Lock :=
  if l.held then { l with held := false } else { l with misuse := true }

/-- A critical section that another thread completes while the caller is
suspended in a wait: a non-blocking public call, or one chunk transfer of that
thread's own blocking call. -/
inductive EnvOp where
  | write (src : Option Mem) (len : Nat)
  | read (dst : Option Mem) (len : Nat)
  | reset
  | endBlocking
  | resize (bufferSize elementSize : Nat) (heap : Option Mem)
  | chunkWrite (src : Mem) (n : Nat)
  | chunkRead (dst : Mem) (n : Nat)

/-- The effect of one critical section of another thread on the buffer object. -/
def envStep (rb : s_ringBuffer) : EnvOp → Option s_ringBuffer
  | .write src len => (ringBufferWrite rb src len).map fun r => r.2
  | .read dst len => (ringBufferRead rb dst len).map fun r => r.2.1
  | .reset => some (ringBufferReset rb)
  | .endBlocking => some (ringBufferEndBlocking rb)
  | .resize n e heap => (ringBufferResize rb n e heap).map fun r => r.2
  | .chunkWrite src n => (rawWrite rb src n).map fun r => r.2
  | .chunkRead dst n => (rawRead rb dst n).map fun r => r.2.1

/-- The effect of a sequence of critical sections of other threads. -/
def envRun : s_ringBuffer → List EnvOp → Option s_ringBuffer
  | rb, [] => some rb
  | rb, op :: ops =>
    match envStep rb op with
    | none => none
    | some rb1 => envRun rb1 ops

/-- One call of `checkContinueBlocking` as seen from outside. -/
structure WaitEvent where
  clock : Option timeval
  env : List EnvOp
  woken : Bool

/-- What a blocking call carries from one statement to the next. -/
structure CallState where
  rb : s_ringBuffer
  buf : Mem
  timeToWait : Option timespec
  lock : Lock
  deadlines : List timespec

/-- The wait itself: the mutex is released, the other threads run, the mutex is
taken again. -/
def condWait (cs : CallState) (ev : WaitEvent) : Option CallState :=
  match envRun cs.rb ev.env with
  | none => none
  | some rb1 =>
    some { cs with rb := rb1, lock := if cs.lock.held then cs.lock else { cs.lock with misuse := true } }

/-- The helper `checkContinueBlocking`. -/
def checkContinueBlocking (cs : CallState) (ev : WaitEvent) : Option (Nat × CallState) :=
  match cs.timeToWait with
  | some t =>
    match ev.clock with
    | none => some (STOP_BLOCKING, { cs with lock := pthread_mutex_unlock cs.lock })
    | some timeNow =>
      let t1 : timespec :=
        { tv_sec := t.tv_sec + timeNow.tv_sec, tv_nsec := t.tv_nsec + timeNow.tv_usec * 1000 }
      let cs1 := { cs with timeToWait := some t1, deadlines := cs.deadlines ++ [t1] }
      match condWait cs1 ev with
      | none => none
      | some cs2 =>
        if !ev.woken then some (STOP_BLOCKING, cs2)
        else if cs2.rb.b_blocking = 0 then
          some (STOP_BLOCKING, { cs2 with lock := pthread_mutex_unlock cs2.lock })
        else some (CONT_BLOCKING, cs2)
  | none =>
    match condWait cs ev with
    | none => none
    | some cs2 =>
      if !ev.woken then some (STOP_BLOCKING, cs2)
      else if cs2.rb.b_blocking = 0 then
        some (STOP_BLOCKING, { cs2 with lock := pthread_mutex_unlock cs2.lock })
      else some (CONT_BLOCKING, cs2)

/-- The result of a blocking call: return value and final call state. -/
structure BlockingOut where
  ret : Nat
  st : CallState

/-- How the inner `while` of a blocking call ends: the chunk is transferred, or
the call returns from inside the loop. -/
inductive Waited where
  | proceed (cs : CallState) (rest : List WaitEvent)
  | done (out : BlockingOut)

/-- The buffer object at the end of an inner wait loop. -/
def Waited.rb : Waited → s_ringBuffer
  | .proceed cs _ => cs.rb
  | .done out => out.st.rb

/-- The non-blocking write called from inside a blocking write. -/
def fallbackWrite (cs : CallState) (len : Nat) : Option BlockingOut :=
  match ringBufferWrite cs.rb (some cs.buf) len with
  | none => none
  | some (r, rb1) =>
    some ⟨r, { cs with rb := rb1, lock := pthread_mutex_unlock (pthread_mutex_lock cs.lock) }⟩

/-- The non-blocking read called from inside a blocking read. -/
def fallbackRead (cs : CallState) (len : Nat) : Option BlockingOut :=
  match ringBufferRead cs.rb (some cs.buf) len with
  | none => none
  | some (r, rb1, dst1) =>
    some ⟨r, { cs with rb := rb1, buf := dst1.getD cs.buf,
                       lock := pthread_mutex_unlock (pthread_mutex_lock cs.lock) }⟩

/-- The loop `while(writeLen > writeSize(...))` of `ringBufferBlockingWrite`. -/
def writeWait (len totalWrote writeLen : Nat) : List WaitEvent → CallState → Option Waited
  | [], cs => if writeLen > writeSize cs.rb then none else some (.proceed cs [])
  | ev :: rest, cs =>
    if writeLen > writeSize cs.rb then
      match checkContinueBlocking cs ev with
      | none => none
      | some (code, cs1) =>
        if code = 0 then
          if cs1.rb.b_blocking = 0 then
            (fallbackWrite cs1 (len / cs1.rb.elementSize)).map Waited.done
          else if writeLen ≤ writeSize cs1.rb then some (.proceed cs1 rest)
          else some (.done ⟨totalWrote / cs1.rb.elementSize, cs1⟩)
        else writeWait len totalWrote writeLen rest cs1
    else some (.proceed cs (ev :: rest))

/-- The `do ... while(len > 0)` loop of `ringBufferBlockingWrite`. -/
def blockingWriteLoop : Nat → Nat → Nat → CallState → List WaitEvent → Option BlockingOut
  | 0, _, _, _, _ => none
  | fuel + 1, len, totalWrote, cs, waits =>
    let writeLen :=
      if len ≥ getRingBufferByteSize cs.rb then usub (getRingBufferByteSize cs.rb) 1 else len
    match writeWait len totalWrote writeLen waits cs with
    | none => none
    | some (.done out) => some out
    | some (.proceed cs1 rest) =>
      match rawWrite cs1.rb (ptrAdd cs1.buf totalWrote) writeLen with
      | none => none
      | some (wrote, rb2) =>
        let totalWrote1 := wrap (totalWrote + wrote)
        let len1 := usub len wrote
        let cs2 := { cs1 with rb := rb2 }
        if len1 > 0 then blockingWriteLoop fuel len1 totalWrote1 cs2 rest
        else
          some ⟨totalWrote1 / rb2.elementSize, { cs2 with lock := pthread_mutex_unlock cs2.lock }⟩

/-- The call state of a thread that has not taken the mutex. -/
def enter (rb : s_ringBuffer) (buf : Mem) (p_timeToWait : Option timespec) : CallState :=
  { rb := rb, buf := buf, timeToWait := p_timeToWait, lock := ⟨false, false⟩, deadlines := [] }

/-- The function `ringBufferBlockingWrite`; when the data pointer is `NULL` the
data block of the result is a placeholder. -/
def ringBufferBlockingWrite (rb : s_ringBuffer) (ip_buffer : Option Mem) (len : Nat)
    (p_timeToWait : Option timespec) (waits : List WaitEvent) : Option BlockingOut :=
  match ip_buffer with
  | none => some ⟨0, enter rb (fun _ => 0) p_timeToWait⟩
  | some src =>
    if len ≤ 0 then some ⟨0, enter rb src p_timeToWait⟩
    else if rb.b_blocking = 0 then fallbackWrite (enter rb src p_timeToWait) len
    else
      let cs := enter rb src p_timeToWait
      let cs := { cs with lock := pthread_mutex_lock cs.lock }
      let len1 := wrap (len * rb.elementSize)
      blockingWriteLoop (len1 + 1) len1 0 cs waits

/-- The loop `while(readLen > readSize(...))` of `ringBufferBlockingRead`. -/
def readWait (len totalRead readLen : Nat) : List WaitEvent → CallState → Option Waited
  | [], cs => if readLen > readSize cs.rb then none else some (.proceed cs [])
  | ev :: rest, cs =>
    if readLen > readSize cs.rb then
      match checkContinueBlocking cs ev with
      | none => none
      | some (code, cs1) =>
        if code = 0 then
          if cs1.rb.b_blocking = 0 then
            (fallbackRead cs1 (len / cs1.rb.elementSize)).map Waited.done
          else if readLen ≤ readSize cs1.rb then some (.proceed cs1 rest)
          else some (.done ⟨totalRead / cs1.rb.elementSize, cs1⟩)
        else readWait len totalRead readLen rest cs1
    else some (.proceed cs (ev :: rest))

/-- The `do ... while(len > 0)` loop of `ringBufferBlockingRead`. -/
def blockingReadLoop : Nat → Nat → Nat → CallState → List WaitEvent → Option BlockingOut
  | 0, _, _, _, _ => none
  | fuel + 1, len, totalRead, cs, waits =>
    let readLen :=
      if len ≥ getRingBufferByteSize cs.rb then usub (getRingBufferByteSize cs.rb) 1 else len
    match readWait len totalRead readLen waits cs with
    | none => none
    | some (.done out) => some out
    | some (.proceed cs1 rest) =>
      match rawRead cs1.rb (ptrAdd cs1.buf totalRead) readLen with
      | none => none
      | some (read, rb2, view) =>
        let totalRead1 := wrap (totalRead + read)
        let len1 := usub len read
        let cs2 := { cs1 with rb := rb2, buf := ptrStore cs1.buf totalRead view }
        if len1 > 0 then blockingReadLoop fuel len1 totalRead1 cs2 rest
        else
          some ⟨totalRead1 / rb2.elementSize, { cs2 with lock := pthread_mutex_unlock cs2.lock }⟩

/-- The function `ringBufferBlockingRead`. -/
def ringBufferBlockingRead (rb : s_ringBuffer) (op_buffer : Option Mem) (len : Nat)
    (p_timeToWait : Option timespec) (waits : List WaitEvent) : Option BlockingOut :=
  match op_buffer with
  | none => some ⟨0, enter rb (fun _ => 0) p_timeToWait⟩
  | some dst =>
    if len ≤ 0 then some ⟨0, enter rb dst p_timeToWait⟩
    else if rb.b_blocking = 0 then fallbackRead (enter rb dst p_timeToWait) len
    else
      let cs := enter rb dst p_timeToWait
      let cs := { cs with lock := pthread_mutex_lock cs.lock }
      let len1 := wrap (len * rb.elementSize)
      blockingReadLoop (len1 + 1) len1 0 cs waits

/-! ## The chunks of a blocking call -/

/-- One chunk that a blocking call hands to `rawWrite` or `rawRead`: the length
still requested and the capacity when the chunk length was computed, the chunk
length, the offset in the caller's block, and the buffer object at the moment of
the transfer. -/
structure Chunk where
  remaining : Nat
  capacity : Nat
  size : Nat
  offset : Nat
  rb : s_ringBuffer

/-- The loop of `ringBufferBlockingWrite` (`blockingWriteLoop`) together with the
list of the chunks it hands to `rawWrite`, in order. -/
def blockingWriteTraced :
    Nat → Nat → Nat → CallState → List WaitEvent → Option BlockingOut × List Chunk
  | 0, _, _, _, _ => (none, [])
  | fuel + 1, len, totalWrote, cs, waits =>
    let writeLen :=
      if len ≥ getRingBufferByteSize cs.rb then usub (getRingBufferByteSize cs.rb) 1 else len
    match writeWait len totalWrote writeLen waits cs with
    | none => (none, [])
    | some (.done out) => (some out, [])
    | some (.proceed cs1 rest) =>
      let chunk : Chunk := ⟨len, getRingBufferByteSize cs.rb, writeLen, totalWrote, cs1.rb⟩
      match rawWrite cs1.rb (ptrAdd cs1.buf totalWrote) writeLen with
      | none => (none, [chunk])
      | some (wrote, rb2) =>
        let totalWrote1 := wrap (totalWrote + wrote)
        let len1 := usub len wrote
        let cs2 := { cs1 with rb := rb2 }
        if len1 > 0 then
          ((blockingWriteTraced fuel len1 totalWrote1 cs2 rest).1,
            chunk :: (blockingWriteTraced fuel len1 totalWrote1 cs2 rest).2)
        else
          (some ⟨totalWrote1 / rb2.elementSize,
            { cs2 with lock := pthread_mutex_unlock cs2.lock }⟩, [chunk])

/-- The loop of `ringBufferBlockingRead` (`blockingReadLoop`) together with the
list of the chunks it hands to `rawRead`, in order. -/
def blockingReadTraced :
    Nat → Nat → Nat → CallState → List WaitEvent → Option BlockingOut × List Chunk
  | 0, _, _, _, _ => (none, [])
  | fuel + 1, len, totalRead, cs, waits =>
    let readLen :=
      if len ≥ getRingBufferByteSize cs.rb then usub (getRingBufferByteSize cs.rb) 1 else len
    match readWait len totalRead readLen waits cs with
    | none => (none, [])
    | some (.done out) => (some out, [])
    | some (.proceed cs1 rest) =>
      let chunk : Chunk := ⟨len, getRingBufferByteSize cs.rb, readLen, totalRead, cs1.rb⟩
      match rawRead cs1.rb (ptrAdd cs1.buf totalRead) readLen with
      | none => (none, [chunk])
      | some (read, rb2, view) =>
        let totalRead1 := wrap (totalRead + read)
        let len1 := usub len read
        let cs2 := { cs1 with rb := rb2, buf := ptrStore cs1.buf totalRead view }
        if len1 > 0 then
          ((blockingReadTraced fuel len1 totalRead1 cs2 rest).1,
            chunk :: (blockingReadTraced fuel len1 totalRead1 cs2 rest).2)
        else
          (some ⟨totalRead1 / rb2.elementSize,
            { cs2 with lock := pthread_mutex_unlock cs2.lock }⟩, [chunk])

/-- The call state with which a blocking call enters its loop: the mutex taken. -/
def enterLocked (rb : s_ringBuffer) (buf : Mem) (p_timeToWait : Option timespec) : CallState :=
  { enter rb buf p_timeToWait with
    lock := pthread_mutex_lock (enter rb buf p_timeToWait).lock }

/-- The chunks handed to `rawWrite` by the loop of a blocking write entered with
a source block, `len > 0` and blocking enabled. -/
def writeChunks (rb : s_ringBuffer) (src : Mem) (len : Nat) (p_timeToWait : Option timespec)
    (waits : List WaitEvent) : List Chunk :=
  (blockingWriteTraced (wrap (len * rb.elementSize) + 1) (wrap (len * rb.elementSize)) 0
    (enterLocked rb src p_timeToWait) waits).2

/-- The chunks handed to `rawRead` by the loop of a blocking read entered with a
destination block, `len > 0` and blocking enabled. -/
def readChunks (rb : s_ringBuffer) (dst : Mem) (len : Nat) (p_timeToWait : Option timespec)
    (waits : List WaitEvent) : List Chunk :=
  (blockingReadTraced (wrap (len * rb.elementSize) + 1) (wrap (len * rb.elementSize)) 0
    (enterLocked rb dst p_timeToWait) waits).2

/-! ## Sequences of public calls -/

/-- A public call that can change the buffer object. -/
inductive Op where
  | write (src : Option Mem) (len : Nat)
  | read (dst : Option Mem) (len : Nat)
  | blockingWrite (src : Option Mem) (len : Nat) (t : Option timespec) (waits : List WaitEvent)
  | blockingRead (dst : Option Mem) (len : Nat) (t : Option timespec) (waits : List WaitEvent)
  | reset
  | endBlocking
  | resize (bufferSize elementSize : Nat) (heap : Option Mem)

/-- The buffer object after a public call, when the call returns. -/
def applyOp (rb : s_ringBuffer) : Op → Option s_ringBuffer
  | .write src len => (ringBufferWrite rb src len).map fun r => r.2
  | .read dst len => (ringBufferRead rb dst len).map fun r => r.2.1
  | .blockingWrite src len t waits =>
    (ringBufferBlockingWrite rb src len t waits).map fun r => r.st.rb
  | .blockingRead dst len t waits =>
    (ringBufferBlockingRead rb dst len t waits).map fun r => r.st.rb
  | .reset => some (ringBufferReset rb)
  | .endBlocking => some (ringBufferEndBlocking rb)
  | .resize n e heap => (ringBufferResize rb n e heap).map fun r => r.2

/-- The states a buffer object goes through: the result of a successful
`initRingBuffer`, followed by public calls that return. -/
inductive Reachable : s_ringBuffer → Prop where
  | init (n e : Nat) (heap : Option Mem) (rb : s_ringBuffer) :
      initRingBuffer n e true heap = some (some rb) → Reachable rb
  | step (rb rb1 : s_ringBuffer) (op : Op) :
      Reachable rb → applyOp rb op = some rb1 → Reachable rb1

/-- A sequence of public calls, each applied to the buffer object left by the one
before; there is a result when every call returns. -/
def applyOps : s_ringBuffer → List Op → Option s_ringBuffer
  | rb, [] => some rb
  | rb, op :: ops =>
    match applyOp rb op with
    | none => none
    | some rb1 => applyOps rb1 ops

/-! ## Notions used in the statements -/

/-- The shape of a buffer object that `allocateBuffer` has set up: a power-of-two
capacity between `2` and `2 ^ 63`, the matching mask, a head index inside the
storage, a tail index inside the storage or one past its end, and a positive
element size. -/
structure WF (rb : s_ringBuffer) : Prop where
  cap : ∃ k, 1 ≤ k ∧ k ≤ 63 ∧ rb.buffSize = 2 ^ k
  mask : rb.indexMask = rb.buffSize - 1
  head : rb.headIndex < rb.buffSize
  tail : rb.tailIndex ≤ rb.buffSize
  elem : 1 ≤ rb.elementSize

/-- The unread bytes of the buffer, oldest first. -/
def contents (rb : s_ringBuffer) : List Nat :=
  bytesOf (fun i => rb.p_buffer ((rb.tailIndex + i) % rb.buffSize)) (readSize rb)

/-- The storage after the bytes `src[0], ..., src[n-1]` were stored one at a
time at the positions `h, h+1, ...` taken modulo `bs`. -/
def putBytes (bs h : Nat) (src : Mem) : Nat → Mem → Mem
  | 0, m => m
  | n + 1, m => Function.update (putBytes bs h src n m) ((h + n) % bs) (src n)

/-- The destination block after `len` bytes were fetched from the storage
positions `tail, tail+1, ...` taken modulo `bs` and stored from offset `t` on. -/
def getBytes (bs tail : Nat) (storage dst : Mem) (t len : Nat) : Mem :=
  fun p => if t ≤ p ∧ p < t + len then storage ((tail + (p - t)) % bs) else dst p

/-- A non-blocking call of a session with one producer and one consumer. -/
inductive Cmd where
  | write (src : Mem) (len : Nat)
  | read (dst : Mem) (len : Nat)

/-- One non-blocking call on the ring buffer: the new buffer object, the return
value and the bytes delivered to the caller (for a read, as many elements of
the destination block as the return value announces). -/
def ringStep (rb : s_ringBuffer) : Cmd → Option (s_ringBuffer × Nat × List Nat)
  | .write src len => (ringBufferWrite rb (some src) len).map fun r => (r.2, r.1, [])
  | .read dst len =>
    (ringBufferRead rb (some dst) len).map fun r =>
      (r.2.1, r.1, bytesOf (r.2.2.getD dst) (r.1 * rb.elementSize))

/-- A sequence of non-blocking calls on the ring buffer. -/
def ringRun : s_ringBuffer → List Cmd → Option (s_ringBuffer × List (Nat × List Nat))
  | rb, [] => some (rb, [])
  | rb, c :: cs =>
    match ringStep rb c with
    | none => none
    | some (rb1, o) => (ringRun rb1 cs).map fun r => (r.1, o :: r.2)

/-- One call on the abstract byte queue of the specification, for elements of
`e` bytes: a write appends its source bytes, a read of `len` elements takes the
first `min (len * e) (length)` bytes. -/
def queueStep (e : Nat) (q : List Nat) : Cmd → List Nat × Nat × List Nat
  | .write src len => (q ++ bytesOf src (len * e), len, [])
  | .read _ len =>
    (q.drop (min (len * e) q.length), min (len * e) q.length / e,
      q.take (min (len * e) q.length))

/-- A sequence of calls on the abstract byte queue. -/
def queueRun (e : Nat) : List Nat → List Cmd → List Nat × List (Nat × List Nat)
  | q, [] => (q, [])
  | q, c :: cs =>
    ((queueRun e (queueStep e q c).1 cs).1, (queueStep e q c).2 :: (queueRun e (queueStep e q c).1 cs).2)

/-- Every write of the sequence asks for at most `writeSize` bytes at the time of
its call, and every read asks for a byte count that fits `unsigned long int`. -/
def fits : s_ringBuffer → List Cmd → Bool
  | _, [] => true
  | rb, c :: cs =>
    (match c with
      | .write _ len => decide (len * rb.elementSize ≤ writeSize rb)
      | .read _ len => decide (len * rb.elementSize < 2 ^ 64)) &&
    (match ringStep rb c with
      | none => true
      | some r => fits r.1 cs)

/-- Every write of the sequence asks for at most `buffSize - 1` bytes, and every
read asks for a byte count that fits `unsigned long int`. -/
def fitsCapacity (rb : s_ringBuffer) : List Cmd → Bool
  | [] => true
  | .write _ len :: cs => decide (len * rb.elementSize ≤ rb.buffSize - 1) && fitsCapacity rb cs
  | .read _ len :: cs => decide (len * rb.elementSize < 2 ^ 64) && fitsCapacity rb cs

/-- All bytes handed to the writes of a sequence, in call order. -/
def written (e : Nat) : List Cmd → List Nat
  | [] => []
  | .write src len :: cs => bytesOf src (len * e) ++ written e cs
  | .read _ _ :: cs => written e cs

/-- All bytes delivered by the calls of a run, in call order. -/
def delivered (obs : List (Nat × List Nat)) : List Nat := (obs.map fun o => o.2).flatten

/-- What a successful `allocateBuffer(requestedElements, elementSize)` has to
leave in the buffer object. -/
def AllocShape (requestedElements elementSize : Nat) (rb : s_ringBuffer) : Prop :=
  (∃ k, rb.buffSize = 2 ^ k) ∧ requestedElements * elementSize ≤ rb.buffSize ∧
    rb.indexMask = rb.buffSize - 1 ∧ rb.elementSize = elementSize ∧ rb.b_blocking = 1

/-- What the specification asks of a chunk of a blocking write: its length is
`min (remaining bytes) (buffSize - 1)`, it is at most `writeSize` at the moment
of the transfer, and the transfer (of any source bytes) adds the chunk length to
the occupied byte count and appends the chunk to the unread contents, which are
otherwise untouched. -/
def WriteChunkOk (c : Chunk) : Prop :=
  c.size = min c.remaining (c.capacity - 1) ∧ c.size ≤ writeSize c.rb ∧
    ∀ s : Mem, ∃ rb2, rawWrite c.rb s c.size = some (c.size, rb2) ∧
      readSize rb2 = readSize c.rb + c.size ∧
      contents rb2 = contents c.rb ++ bytesOf s c.size

/-- What the specification asks of a chunk of a blocking read: its length is
`min (remaining bytes) (buffSize - 1)` and at most `readSize` at the moment of
the transfer. -/
def ReadChunkOk (c : Chunk) : Prop :=
  c.size = min c.remaining (c.capacity - 1) ∧ c.size ≤ readSize c.rb

/-- The critical sections of other threads that leave the element size alone and
blocking enabled: all but the end of blocking and a resize. -/
def EnvOp.quiet : EnvOp → Bool
  | .endBlocking => false
  | .resize _ _ _ => false
  | _ => true

/-- A wait that returns normally: the clock is read, the other threads transfer
data or reset, and the wait returns 0. -/
def WaitEvent.normal (ev : WaitEvent) : Bool :=
  ev.clock.isSome && ev.env.all EnvOp.quiet && ev.woken

/-- The element size is kept, and blocking stays enabled if it was. -/
def Keeps (rb rb1 : s_ringBuffer) : Prop :=
  rb1.elementSize = rb.elementSize ∧ (rb.b_blocking ≠ 0 → rb1.b_blocking ≠ 0)

/-- The public calls that never reach an assignment `b_blocking = 1`: all but
`ringBufferReset` and a `ringBufferResize` whose sizes pass the three guards of
`allocateBuffer`. -/
def Op.leavesFlag : Op → Bool
  | .reset => false
  | .resize n e _ => decide (e ≤ 0 ∨ n ≤ 0 ∨ wrap (n * e) > (2 ^ 64 - 1) >>> 1)
  | _ => true

/-! ## The condition variable

Every public call that changes the buffer ends its critical section with
`pthread_cond_signal(&condition)`, except `ringBufferResize`; the transfer calls
do so only past their entry checks, and a blocking call signals after each chunk.
The library side is the contract of `pthread_cond_wait`: a signal unblocks a
thread that is blocked on the condition, so the only thread blocked on it is the
one that a signal wakes. -/

/-- Whether a critical section of another thread calls
`pthread_cond_signal(&condition)`. -/
def EnvOp.signals : EnvOp → Bool
  | .write src len => src.isSome && decide (0 < len)
  | .read dst len => dst.isSome && decide (0 < len)
  | .reset => true
  | .endBlocking => true
  | .resize _ _ _ => false
  | .chunkWrite _ _ => true
  | .chunkRead _ _ => true

/-- The return of `pthread_cond_wait`, or of `pthread_cond_timedwait` whose
deadline has not passed when the first signal is sent, for the only thread
blocked on the condition, the other threads completing the critical sections
`env` meanwhile: the wait returns 0 (`true`) when one of them signals the
condition; when none does, a timed wait runs into its deadline (`false`) and an
untimed wait does not return. -/
def soleWaiterReturn (timed : Bool) (env : List EnvOp) : Option Bool :=
  if env.any EnvOp.signals then some true
  else if timed then some false
  else none

/-- A block of zero bytes. -/
def zeros : Mem := fun _ => 0

/-- The source block `1, 2, 3, ...`. -/
def counting : Mem := fun i => i + 1

/-- The buffer object returned by `initRingBuffer(n, e)` when both allocations
succeed (the zeroed object when the call yields `NULL`). -/
def fresh (n e : Nat) : s_ringBuffer :=
  ((initRingBuffer n e true (some zeros)).getD none).getD zeroed

/-- The buffer object after a public call (unchanged when the call has no
result). -/
def after (rb : s_ringBuffer) (op : Op) : s_ringBuffer := (applyOp rb op).getD rb

/-- Eight bytes of capacity, five bytes written and read back, then a resize to
two elements of one byte. -/
def shrunk : s_ringBuffer :=
  after (after (after (fresh 8 1) (.write (some counting) 5)) (.read (some zeros) 5))
    (.resize 2 1 (some zeros))

/-- Ten bytes requested, five bytes written. -/
def halfFull : s_ringBuffer := after (fresh 10 1) (.write (some counting) 5)

/-- Four elements of two bytes, blocking ended. -/
def ended : s_ringBuffer := after (fresh 4 2) .endBlocking

/-- Four bytes of capacity, two bytes written and read back, two more written,
then a resize to one element of one byte: no unread byte is left and the tail
index equals the new capacity. -/
def shrunkEmpty : s_ringBuffer :=
  after (after (after (after (fresh 4 1) (.write (some counting) 2)) (.read (some zeros) 2))
    (.write (some counting) 2)) (.resize 1 1 (some zeros))

/-- Two writes of three bytes each, `1, 2, 3` and `4, 5, 6`, then a read of four
bytes. -/
def twoWrites : List Cmd :=
  [.write counting 3, .write (ptrAdd counting 3) 3, .read zeros 4]

/-- One write of three bytes, a read of two, a write of two, a read of four. -/
def mixedCalls : List Cmd :=
  [.write counting 3, .read zeros 2, .write (ptrAdd counting 3) 2, .read zeros 4]

/-- Four elements of two bytes (eight bytes of capacity), three elements
written: six bytes are occupied and one byte is free. -/
def nearlyFull : s_ringBuffer := after (fresh 4 2) (.write (some counting) 3)

/-- Eight bytes of capacity, one byte written, then a resize to four elements of
two bytes: one byte is occupied, less than an element. -/
def oddByte : s_ringBuffer :=
  after (after (fresh 8 1) (.write (some counting) 1)) (.resize 4 2 (some zeros))

/-- A wait during which another thread ends blocking and which then returns 0. -/
def wokenByEnd : WaitEvent := { clock := some ⟨1000, 0⟩, env := [.endBlocking], woken := true }

/-- A wait during which no other thread touches the buffer and which times out. -/
def timedOut : WaitEvent := { clock := some ⟨1000, 0⟩, env := [], woken := false }

/-- Four bytes of capacity holding the three bytes `1, 2, 3`. -/
def threeIn : s_ringBuffer := after (fresh 4 1) (.write (some counting) 3)

/-- A wait during which another thread reads three bytes and which then
returns 0. -/
def readerWakes : WaitEvent :=
  { clock := some ⟨1000, 0⟩, env := [.read (some zeros) 3], woken := true }

/-- A wait during which another thread writes two bytes and which then
returns 0. -/
def writerWakes : WaitEvent :=
  { clock := some ⟨1000, 0⟩, env := [.write (some (ptrAdd counting 3)) 2], woken := true }

/-- A wait at clock reading 1000 s that returns 0 although no other thread has
touched the buffer (a spurious wake-up). -/
def spuriousWake : WaitEvent := { clock := some ⟨1000, 0⟩, env := [], woken := true }

/-- A wait at clock reading 1001 s during which another thread writes one byte
and which then returns 0. -/
def lateWriter : WaitEvent :=
  { clock := some ⟨1001, 0⟩, env := [.write (some counting) 1], woken := true }

/-- A wait during which another thread ends blocking and which then times out. -/
def timedOutAfterEnd : WaitEvent :=
  { clock := some ⟨1000, 0⟩, env := [.endBlocking], woken := false }

/-- A wait that does not take place because `gettimeofday` fails. -/
def clockError : WaitEvent := { clock := none, env := [], woken := false }

/-- Four elements of two bytes (eight bytes of capacity) after a blocking write
of four elements whose wait timed out with no other thread active. -/
def sevenIn : s_ringBuffer :=
  after (fresh 4 2) (.blockingWrite (some counting) 4 (some ⟨0, 100000000⟩) [timedOut])

/-- A wait during which another thread reads three bytes and then ends blocking,
and which then returns 0. -/
def drainedThenEnded : WaitEvent :=
  { clock := some ⟨1000, 0⟩, env := [.read (some zeros) 3, .endBlocking], woken := true }

/-- A wait during which another thread writes the two bytes `4, 5` and then ends
blocking, and which then returns 0. -/
def filledThenEnded : WaitEvent :=
  { clock := some ⟨1000, 0⟩, env := [.write (some (ptrAdd counting 3)) 2, .endBlocking],
    woken := true }

/-! # Theorems -/

/-! ## Machine arithmetic -/

theorem wrap_of_lt {x : Nat} (h : x < 2 ^ 64) : wrap x = x := Nat.mod_eq_of_lt h

theorem usub_of_le {a b : Nat} (hb : b ≤ a) (ha : a < 2 ^ 64) : usub a b = a - b := by
  unfold usub
  rw [Nat.mod_eq_of_lt ha, Nat.mod_eq_of_lt (lt_of_le_of_lt hb ha)]
  have h1 : a + 2 ^ 64 - b = (a - b) + 2 ^ 64 := by omega
  rw [h1, Nat.add_mod_right]
  exact Nat.mod_eq_of_lt (by omega)

theorem mod_sub_of_range {x b : Nat} (h1 : b ≤ x) (h2 : x < 2 * b) : x % b = x - b := by
  rw [Nat.mod_eq_sub_mod h1]
  exact Nat.mod_eq_of_lt (by omega)

/-- Masked unsigned subtraction of two indices is subtraction modulo the capacity. -/
theorem usub_land_mask {a b k : Nat} (hk : k ≤ 63) (ha : a ≤ 2 ^ k) (hb : b ≤ 2 ^ k) :
    usub a b &&& (2 ^ k - 1) = (a + 2 ^ k - b) % 2 ^ k := by
  have hpow : (2 : Nat) ^ k ≤ 2 ^ 63 := Nat.pow_le_pow_right (by decide) hk
  have h64 : (2 : Nat) ^ 64 = 2 ^ k * 2 ^ (64 - k) := by
    rw [← Nat.pow_add]; congr 1; omega
  have hM : 1 ≤ 2 ^ (64 - k) := Nat.one_le_two_pow
  rw [Nat.and_pow_two_sub_one_eq_mod]
  unfold usub
  rw [Nat.mod_eq_of_lt (by omega : a < 2 ^ 64), Nat.mod_eq_of_lt (by omega : b < 2 ^ 64)]
  rw [Nat.mod_mod_of_dvd _ (Dvd.intro _ h64.symm)]
  have h2 : a + 2 ^ 64 - b = (a + 2 ^ k - b) + 2 ^ k * (2 ^ (64 - k) - 1) := by
    rw [h64, Nat.mul_sub, Nat.mul_one]
    have : 2 ^ k ≤ 2 ^ k * 2 ^ (64 - k) := Nat.le_mul_of_pos_right _ hM
    omega
  rw [h2, Nat.add_mul_mod_self_left]

theorem WF.lt_pow {rb : s_ringBuffer} (h : WF rb) : rb.buffSize ≤ 2 ^ 63 ∧ 2 ≤ rb.buffSize := by
  obtain ⟨k, h1, h2, h3⟩ := h.cap
  rw [h3]
  constructor
  · exact Nat.pow_le_pow_right (by decide) h2
  · calc 2 = 2 ^ 1 := rfl
      _ ≤ 2 ^ k := Nat.pow_le_pow_right (by decide) h1

theorem readSize_eq {rb : s_ringBuffer} (h : WF rb) :
    readSize rb = (rb.headIndex + rb.buffSize - rb.tailIndex) % rb.buffSize := by
  obtain ⟨k, h1, h2, h3⟩ := h.cap
  have hh := h.head
  have ht := h.tail
  unfold readSize
  rw [h.mask, h3]
  rw [h3] at hh ht
  exact usub_land_mask h2 (le_of_lt hh) ht

theorem readSize_lt {rb : s_ringBuffer} (h : WF rb) : readSize rb < rb.buffSize := by
  rw [readSize_eq h]
  exact Nat.mod_lt _ (by have := h.lt_pow; omega)

theorem writeSize_eq {rb : s_ringBuffer} (h : WF rb) :
    writeSize rb = rb.buffSize - 1 - readSize rb := by
  obtain ⟨k, h1, h2, h3⟩ := h.cap
  have hh := h.head
  have ht := h.tail
  have hb := h.lt_pow
  have hrs := readSize_eq h
  have hws : usub rb.tailIndex rb.headIndex &&& rb.indexMask
      = (rb.tailIndex + rb.buffSize - rb.headIndex) % rb.buffSize := by
    rw [h.mask, h3]
    rw [h3] at hh ht
    exact usub_land_mask h2 ht (le_of_lt hh)
  unfold writeSize
  simp only [hws]
  rcases Nat.lt_or_ge rb.headIndex rb.tailIndex with hlt | hge
  · -- head < tail
    have e1 : (rb.headIndex + rb.buffSize - rb.tailIndex) % rb.buffSize
        = rb.headIndex + rb.buffSize - rb.tailIndex := Nat.mod_eq_of_lt (by omega)
    by_cases hfull : rb.tailIndex + rb.buffSize - rb.headIndex = 2 * rb.buffSize
    · have e2 : (rb.tailIndex + rb.buffSize - rb.headIndex) % rb.buffSize = 0 := by
        rw [hfull]; exact Nat.mul_mod_left _ _
      rw [e2, hrs, e1]
      simp only [ne_eq, not_true_eq_false, if_false]
      rw [usub_of_le (by omega) (by omega)]
      omega
    · have e2 : (rb.tailIndex + rb.buffSize - rb.headIndex) % rb.buffSize
          = rb.tailIndex - rb.headIndex := by
        rw [mod_sub_of_range (by omega) (by omega)]; omega
      rw [e2, hrs, e1]
      rw [if_pos (by omega)]
      rw [usub_of_le (by omega) (by omega)]
      omega
  · -- tail ≤ head
    have e1 : (rb.headIndex + rb.buffSize - rb.tailIndex) % rb.buffSize
        = rb.headIndex - rb.tailIndex := by
      rw [mod_sub_of_range (by omega) (by omega)]; omega
    by_cases heq : rb.headIndex = rb.tailIndex
    · have e2 : (rb.tailIndex + rb.buffSize - rb.headIndex) % rb.buffSize = 0 := by
        have : rb.tailIndex + rb.buffSize - rb.headIndex = rb.buffSize := by omega
        rw [this]; exact Nat.mod_self _
      rw [e2, hrs, e1]
      simp only [ne_eq, not_true_eq_false, if_false]
      rw [usub_of_le (by omega) (by omega)]
      omega
    · have e2 : (rb.tailIndex + rb.buffSize - rb.headIndex) % rb.buffSize
          = rb.tailIndex + rb.buffSize - rb.headIndex := Nat.mod_eq_of_lt (by omega)
      rw [e2, hrs, e1]
      rw [if_pos (by omega)]
      rw [usub_of_le (by omega) (by omega)]
      omega

/-! ## Raw transfers -/

theorem land_mask {rb : s_ringBuffer} (h : WF rb) (x : Nat) :
    x &&& rb.indexMask = x % rb.buffSize := by
  obtain ⟨k, _, _, h3⟩ := h.cap
  rw [h.mask, h3]
  exact Nat.and_pow_two_sub_one_eq_mod x k

theorem ptrAdd_ptrAdd (src : Mem) (a b : Nat) : ptrAdd (ptrAdd src a) b = ptrAdd src (a + b) := by
  funext i
  simp [ptrAdd, Nat.add_assoc]

theorem ptrAdd_zero (src : Mem) : ptrAdd src 0 = src := by
  funext i
  simp [ptrAdd]

theorem putBytes_chunk (bs h : Nat) (src : Mem) (t : Nat) (m : Mem) :
    ∀ w, h + w ≤ bs → memcpy m h src t w = putBytes bs h (ptrAdd src t) w m := by
  intro w
  induction w with
  | zero =>
    intro _
    funext p
    simp [memcpy, putBytes]
  | succ w ih =>
    intro hw
    have ih1 := ih (by omega)
    simp only [putBytes]
    rw [← ih1, Nat.mod_eq_of_lt (by omega : h + w < bs)]
    funext p
    by_cases hp : p = h + w
    · subst hp
      simp [memcpy, ptrAdd]
    · rw [Function.update_noteq hp]
      simp only [memcpy]
      by_cases h1 : h ≤ p ∧ p < h + w
      · rw [if_pos h1, if_pos (by omega)]
      · rw [if_neg h1, if_neg (by omega)]

theorem putBytes_add (bs h : Nat) (src : Mem) (a : Nat) (m : Mem) :
    ∀ b, putBytes bs h src (a + b) m
      = putBytes bs ((h + a) % bs) (ptrAdd src a) b (putBytes bs h src a m) := by
  intro b
  induction b with
  | zero => rfl
  | succ b ih =>
    rw [← Nat.add_assoc]
    simp only [putBytes]
    rw [ih, Nat.mod_add_mod, Nat.add_assoc]
    rfl

theorem rawWriteLoop_spec (src : Mem) :
    ∀ (fuel len t : Nat) (rb : s_ringBuffer), WF rb → len < fuel → t + len < 2 ^ 64 →
      rawWriteLoop fuel rb src len t = some (t + len, { rb with
        headIndex := (rb.headIndex + len) % rb.buffSize
        p_buffer := putBytes rb.buffSize rb.headIndex (ptrAdd src t) len rb.p_buffer }) := by
  intro fuel
  induction fuel with
  | zero => intro len t rb _ h; omega
  | succ fuel ih =>
    intro len t rb hwf hfuel hlen
    have hb := hwf.lt_pow
    have hh := hwf.head
    have havail : usub rb.buffSize rb.headIndex = rb.buffSize - rb.headIndex :=
      usub_of_le (le_of_lt hh) (by omega)
    unfold rawWriteLoop
    simp only [havail]
    by_cases hc : len < rb.buffSize - rb.headIndex
    · simp only [if_pos hc]
      rw [usub_of_le (le_refl _) (by omega), wrap_of_lt hlen, wrap_of_lt (by omega),
        land_mask hwf, putBytes_chunk rb.buffSize _ _ _ _ len (by omega)]
      simp
    · simp only [if_neg hc]
      rw [usub_of_le (by omega) (by omega), wrap_of_lt (by omega), wrap_of_lt (by omega),
        land_mask hwf, putBytes_chunk rb.buffSize _ _ _ _ (rb.buffSize - rb.headIndex) (by omega)]
      by_cases hrest : len - (rb.buffSize - rb.headIndex) > 0
      · rw [if_pos hrest]
        have hwf1 : WF { rb with
            p_buffer := putBytes rb.buffSize rb.headIndex (ptrAdd src t)
              (rb.buffSize - rb.headIndex) rb.p_buffer
            headIndex := (rb.headIndex + (rb.buffSize - rb.headIndex)) % rb.buffSize } :=
          { cap := hwf.cap, mask := hwf.mask, tail := hwf.tail, elem := hwf.elem,
            head := Nat.mod_lt _ (by omega) }
        rw [ih _ _ _ hwf1 (by omega) (by omega)]
        simp only [Nat.mod_add_mod, ptrAdd_ptrAdd]
        have e1 : rb.headIndex + (rb.buffSize - rb.headIndex) + (len - (rb.buffSize - rb.headIndex))
            = rb.headIndex + len := by omega
        have e2 : t + (rb.buffSize - rb.headIndex) + (len - (rb.buffSize - rb.headIndex))
            = t + len := by omega
        have e3 : len = (rb.buffSize - rb.headIndex) + (len - (rb.buffSize - rb.headIndex)) := by
          omega
        have key := putBytes_add rb.buffSize rb.headIndex (ptrAdd src t)
          (rb.buffSize - rb.headIndex) rb.p_buffer (len - (rb.buffSize - rb.headIndex))
        rw [← e3, ptrAdd_ptrAdd] at key
        rw [e1, e2, key]
      · rw [if_neg hrest]
        have e3 : len = rb.buffSize - rb.headIndex := by omega
        rw [← e3]

theorem rawWrite_spec {rb : s_ringBuffer} (hwf : WF rb) (src : Mem) {len : Nat}
    (hlen : len < 2 ^ 64) :
    rawWrite rb src len = some (len, { rb with
      headIndex := (rb.headIndex + len) % rb.buffSize
      p_buffer := putBytes rb.buffSize rb.headIndex src len rb.p_buffer }) := by
  unfold rawWrite
  rw [rawWriteLoop_spec src _ _ _ _ hwf (by omega) (by omega)]
  simp only [Nat.zero_add, ptrAdd_zero]


theorem getBytes_chunk (bs tail : Nat) (storage dst : Mem) (t w : Nat) (hw : tail + w ≤ bs) :
    memcpy dst t storage tail w = getBytes bs tail storage dst t w := by
  funext p
  simp only [memcpy, getBytes]
  by_cases h1 : t ≤ p ∧ p < t + w
  · rw [if_pos h1, if_pos h1, Nat.mod_eq_of_lt (by omega)]
  · rw [if_neg h1, if_neg h1]

theorem getBytes_add (bs tail : Nat) (storage dst : Mem) (t a b : Nat) :
    getBytes bs ((tail + a) % bs) storage (getBytes bs tail storage dst t a) (t + a) b
      = getBytes bs tail storage dst t (a + b) := by
  funext p
  simp only [getBytes]
  by_cases h1 : t + a ≤ p ∧ p < t + a + b
  · rw [if_pos h1, if_pos (by omega), Nat.mod_add_mod]
    congr 2
    omega
  · rw [if_neg h1]
    by_cases h2 : t ≤ p ∧ p < t + a
    · rw [if_pos h2, if_pos (by omega)]
    · rw [if_neg h2, if_neg (by omega)]

theorem rawReadLoop_spec :
    ∀ (fuel len t : Nat) (rb : s_ringBuffer) (dst : Mem), WF rb →
      len + (if rb.tailIndex = rb.buffSize then 1 else 0) < fuel → t + len < 2 ^ 64 →
      rawReadLoop fuel rb dst len t = some (t + len,
        { rb with tailIndex := (rb.tailIndex + len) % rb.buffSize },
        getBytes rb.buffSize rb.tailIndex rb.p_buffer dst t len) := by
  intro fuel
  induction fuel with
  | zero => intro len t rb dst _ h; omega
  | succ fuel ih =>
    intro len t rb dst hwf hfuel hlen
    have hb := hwf.lt_pow
    have ht := hwf.tail
    have havail : usub rb.buffSize rb.tailIndex = rb.buffSize - rb.tailIndex :=
      usub_of_le ht (by omega)
    unfold rawReadLoop
    simp only [havail]
    by_cases hc : len < rb.buffSize - rb.tailIndex
    · simp only [if_pos hc]
      rw [usub_of_le (le_refl _) (by omega), wrap_of_lt hlen, wrap_of_lt (by omega),
        land_mask hwf, getBytes_chunk rb.buffSize _ _ _ _ len (by omega)]
      simp
    · simp only [if_neg hc]
      rw [usub_of_le (by omega) (by omega), wrap_of_lt (by omega), wrap_of_lt (by omega),
        land_mask hwf,
        getBytes_chunk rb.buffSize _ _ _ _ (rb.buffSize - rb.tailIndex) (by omega)]
      by_cases hrest : len - (rb.buffSize - rb.tailIndex) > 0
      · rw [if_pos hrest]
        have hzero : (rb.tailIndex + (rb.buffSize - rb.tailIndex)) % rb.buffSize = 0 := by
          have : rb.tailIndex + (rb.buffSize - rb.tailIndex) = rb.buffSize := by omega
          rw [this]; exact Nat.mod_self _
        have hwf1 : WF { rb with
            tailIndex := (rb.tailIndex + (rb.buffSize - rb.tailIndex)) % rb.buffSize } :=
          { cap := hwf.cap, mask := hwf.mask, head := hwf.head, elem := hwf.elem,
            tail := le_of_lt (Nat.mod_lt _ (by omega)) }
        have hfuel1 : len - (rb.buffSize - rb.tailIndex)
            + (if (rb.tailIndex + (rb.buffSize - rb.tailIndex)) % rb.buffSize = rb.buffSize
                then 1 else 0) < fuel := by
          rw [hzero, if_neg (by omega)]
          by_cases he : rb.tailIndex = rb.buffSize
          · rw [if_pos he] at hfuel; omega
          · rw [if_neg he] at hfuel; omega
        rw [ih _ _ _ _ hwf1 hfuel1 (by omega)]
        simp only [Nat.mod_add_mod, getBytes_add]
        have e1 : rb.tailIndex + (rb.buffSize - rb.tailIndex) + (len - (rb.buffSize - rb.tailIndex))
            = rb.tailIndex + len := by omega
        have e2 : t + (rb.buffSize - rb.tailIndex) + (len - (rb.buffSize - rb.tailIndex))
            = t + len := by omega
        have e3 : (rb.buffSize - rb.tailIndex) + (len - (rb.buffSize - rb.tailIndex)) = len := by
          omega
        rw [e1, e2, e3]
      · rw [if_neg hrest]
        have e3 : len = rb.buffSize - rb.tailIndex := by omega
        rw [← e3]

theorem rawRead_spec {rb : s_ringBuffer} (hwf : WF rb) (dst : Mem) {len : Nat}
    (hlen : len < 2 ^ 64) :
    rawRead rb dst len = some (len,
      { rb with tailIndex := (rb.tailIndex + len) % rb.buffSize },
      getBytes rb.buffSize rb.tailIndex rb.p_buffer dst 0 len) := by
  unfold rawRead
  rw [rawReadLoop_spec _ _ _ _ _ hwf (by split <;> omega) (by omega)]
  simp only [Nat.zero_add]


/-! ## Allocation -/

/-- The doubling loop started at `2 ^ j` stops at the first later power of two
that reaches the target. -/
theorem growLoop_spec :
    ∀ (fuel j target : Nat), 64 ≤ j + fuel → j ≤ 62 → target ≤ 2 ^ 63 →
      ∃ k, j < k ∧ k ≤ 63 ∧ growLoop fuel (2 ^ j) target = some (2 ^ k) ∧ target ≤ 2 ^ k ∧
        ∀ i, j < i → i < k → 2 ^ i < target := by
  intro fuel
  induction fuel with
  | zero => intro j target h1 h2; omega
  | succ fuel ih =>
    intro j target h1 h2 h3
    have hstep : wrap (2 ^ j <<< 1) = 2 ^ (j + 1) := by
      rw [Nat.shiftLeft_eq, Nat.pow_one, ← Nat.pow_succ]
      exact wrap_of_lt (Nat.pow_lt_pow_right (by decide) (by omega))
    unfold growLoop
    simp only [hstep]
    by_cases hc : 2 ^ (j + 1) < target
    · rw [if_pos hc]
      have hj : j + 1 ≤ 62 := by
        by_contra hcon
        have : j + 1 = 63 := by omega
        rw [this] at hc
        omega
      obtain ⟨k, k1, k2, k3, k4, k5⟩ := ih (j + 1) target (by omega) hj h3
      refine ⟨k, by omega, k2, k3, k4, ?_⟩
      intro i hi1 hi2
      by_cases hi : i = j + 1
      · rw [hi]; exact hc
      · exact k5 i (by omega) hi2
    · rw [if_neg hc]
      refine ⟨j + 1, by omega, by omega, rfl, by omega, ?_⟩
      intro i hi1 hi2
      omega

theorem maxBuffSize_eq : (2 ^ 64 - 1) >>> 1 = 2 ^ 63 - 1 := by decide

/-- A call of `allocateBuffer` that is refused by one of its three guards. -/
theorem allocateBuffer_refused (rb : s_ringBuffer) (n e : Nat) (heap : Option Mem)
    (h : e = 0 ∨ n = 0 ∨ 2 ^ 63 - 1 < wrap (n * e)) :
    allocateBuffer rb n e heap = some (PROC_FAIL, rb) := by
  unfold allocateBuffer
  simp only [maxBuffSize_eq]
  by_cases h1 : e ≤ 0
  · rw [if_pos h1]
  · rw [if_neg h1]
    by_cases h2 : n ≤ 0
    · rw [if_pos h2]
    · rw [if_neg h2]
      have h3 : wrap (n * e) > 2 ^ 63 - 1 := by omega
      rw [if_pos h3]

/-- A call of `allocateBuffer` that passes the guards and whose `realloc` fails. -/
theorem allocateBuffer_nomem (rb : s_ringBuffer) (n e : Nat)
    (hn : 1 ≤ n) (he : 1 ≤ e) (hprod : wrap (n * e) ≤ 2 ^ 63 - 1) :
    allocateBuffer rb n e none = some (PROC_FAIL, { rb with
      indexMask := usub rb.buffSize 1
      elementSize := e
      b_blocking := 1 }) := by
  obtain ⟨k, _, _, k3, _, _⟩ := growLoop_spec 64 0 (wrap (n * e)) (by omega) (by omega) (by omega)
  unfold allocateBuffer
  simp only [maxBuffSize_eq]
  rw [if_neg (by omega), if_neg (by omega), if_neg (by omega)]
  rw [Nat.pow_zero] at k3
  simp only [k3, realloc, Option.map_none']

/-- A call of `allocateBuffer` that passes the guards and whose `realloc`
succeeds: the capacity is the first power of two, from `2` on, that reaches the
requested byte count. -/
theorem allocateBuffer_ok (rb : s_ringBuffer) (n e : Nat) (fresh : Mem)
    (hn : 1 ≤ n) (he : 1 ≤ e) (hprod : wrap (n * e) ≤ 2 ^ 63 - 1) :
    ∃ k, 1 ≤ k ∧ k ≤ 63 ∧ wrap (n * e) ≤ 2 ^ k ∧ (∀ i, 1 ≤ i → i < k → 2 ^ i < wrap (n * e)) ∧
      allocateBuffer rb n e (some fresh) = some (PROC_SUCC, { rb with
        buffSize := 2 ^ k
        indexMask := 2 ^ k - 1
        elementSize := e
        b_blocking := 1
        p_buffer := fun i => if i < min rb.buffSize (2 ^ k) then rb.p_buffer i else fresh i }) := by
  obtain ⟨k, k1, k2, k3, k4, k5⟩ :=
    growLoop_spec 64 0 (wrap (n * e)) (by omega) (by omega) (by omega)
  refine ⟨k, by omega, k2, k4, fun i hi1 hi2 => k5 i (by omega) hi2, ?_⟩
  have hpow : (2 : Nat) ^ k ≤ 2 ^ 63 := Nat.pow_le_pow_right (by decide) k2
  have hpos : 1 ≤ (2 : Nat) ^ k := Nat.one_le_two_pow
  unfold allocateBuffer
  simp only [maxBuffSize_eq]
  rw [if_neg (by omega), if_neg (by omega), if_neg (by omega)]
  rw [Nat.pow_zero] at k3
  simp only [k3, realloc, Option.map_some']
  rw [usub_of_le hpos (by omega)]


/-! ## Well-formedness is kept by every call -/

theorem rawWriteLoop_wf (src : Mem) :
    ∀ (fuel len t : Nat) (rb : s_ringBuffer) (r : Nat × s_ringBuffer), WF rb →
      rawWriteLoop fuel rb src len t = some r → WF r.2 := by
  intro fuel
  induction fuel with
  | zero => intro len t rb r _ h; simp [rawWriteLoop] at h
  | succ fuel ih =>
    intro len t rb r hwf h
    have hb := hwf.lt_pow
    unfold rawWriteLoop at h
    dsimp only at h
    generalize (if len < usub rb.buffSize rb.headIndex then len
      else usub rb.buffSize rb.headIndex) = w at h
    simp only [land_mask hwf] at h
    split at h
    · refine ih _ _ _ r ?_ h
      exact { cap := hwf.cap, mask := hwf.mask, tail := hwf.tail, elem := hwf.elem,
              head := Nat.mod_lt _ (by omega) }
    · simp only [Option.some.injEq] at h
      rw [← h]
      exact { cap := hwf.cap, mask := hwf.mask, tail := hwf.tail, elem := hwf.elem,
              head := Nat.mod_lt _ (by omega) }

theorem rawWrite_wf {rb : s_ringBuffer} {src : Mem} {len : Nat} {r : Nat × s_ringBuffer}
    (hwf : WF rb) (h : rawWrite rb src len = some r) : WF r.2 :=
  rawWriteLoop_wf src _ _ _ _ _ hwf h

theorem rawReadLoop_wf :
    ∀ (fuel len t : Nat) (rb : s_ringBuffer) (dst : Mem) (r : Nat × s_ringBuffer × Mem), WF rb →
      rawReadLoop fuel rb dst len t = some r → WF r.2.1 := by
  intro fuel
  induction fuel with
  | zero => intro len t rb dst r _ h; simp [rawReadLoop] at h
  | succ fuel ih =>
    intro len t rb dst r hwf h
    have hb := hwf.lt_pow
    unfold rawReadLoop at h
    dsimp only at h
    generalize (if len < usub rb.buffSize rb.tailIndex then len
      else usub rb.buffSize rb.tailIndex) = w at h
    simp only [land_mask hwf] at h
    split at h
    · refine ih _ _ _ _ r ?_ h
      exact { cap := hwf.cap, mask := hwf.mask, head := hwf.head, elem := hwf.elem,
              tail := le_of_lt (Nat.mod_lt _ (by omega)) }
    · simp only [Option.some.injEq] at h
      rw [← h]
      exact { cap := hwf.cap, mask := hwf.mask, head := hwf.head, elem := hwf.elem,
              tail := le_of_lt (Nat.mod_lt _ (by omega)) }

theorem rawRead_wf {rb : s_ringBuffer} {dst : Mem} {len : Nat} {r : Nat × s_ringBuffer × Mem}
    (hwf : WF rb) (h : rawRead rb dst len = some r) : WF r.2.1 :=
  rawReadLoop_wf _ _ _ _ _ _ hwf h

theorem ringBufferWrite_wf {rb : s_ringBuffer} {src : Option Mem} {len : Nat}
    {r : Nat × s_ringBuffer} (hwf : WF rb) (h : ringBufferWrite rb src len = some r) :
    WF r.2 := by
  unfold ringBufferWrite at h
  split at h
  · simp only [Option.some.injEq] at h; rw [← h]; exact hwf
  · split at h
    · simp only [Option.some.injEq] at h; rw [← h]; exact hwf
    · split at h
      · exact absurd h (by simp)
      · next tw rb1 heq =>
        simp only [Option.some.injEq] at h
        rw [← h]
        exact rawWrite_wf (r := (tw, rb1)) hwf heq

theorem ringBufferRead_wf {rb : s_ringBuffer} {dst : Option Mem} {len : Nat}
    {r : Nat × s_ringBuffer × Option Mem} (hwf : WF rb)
    (h : ringBufferRead rb dst len = some r) : WF r.2.1 := by
  unfold ringBufferRead at h
  split at h
  · simp only [Option.some.injEq] at h; rw [← h]; exact hwf
  · split at h
    · simp only [Option.some.injEq] at h; rw [← h]; exact hwf
    · dsimp only at h
      split at h
      · exact absurd h (by simp)
      · next tr rb1 dst1 heq =>
        simp only [Option.some.injEq] at h
        rw [← h]
        exact rawRead_wf (r := (tr, rb1, dst1)) hwf heq

/-- What `allocateBuffer` returns, in each of its three outcomes. -/
theorem allocateBuffer_cases (rb : s_ringBuffer) (n e : Nat) (heap : Option Mem) :
    allocateBuffer rb n e heap = some (PROC_FAIL, rb) ∨
    (1 ≤ e ∧ allocateBuffer rb n e heap = some (PROC_FAIL, { rb with
        indexMask := usub rb.buffSize 1, elementSize := e, b_blocking := 1 })) ∨
    (1 ≤ e ∧ ∃ (k : Nat) (fresh : Mem), 1 ≤ k ∧ k ≤ 63 ∧
      allocateBuffer rb n e heap = some (PROC_SUCC, { rb with
        buffSize := 2 ^ k
        indexMask := 2 ^ k - 1
        elementSize := e
        b_blocking := 1
        p_buffer := fun i => if i < min rb.buffSize (2 ^ k) then rb.p_buffer i else fresh i })) := by
  by_cases hg : e = 0 ∨ n = 0 ∨ 2 ^ 63 - 1 < wrap (n * e)
  · exact Or.inl (allocateBuffer_refused rb n e heap hg)
  · have he : 1 ≤ e := by omega
    have hn : 1 ≤ n := by omega
    have hp : wrap (n * e) ≤ 2 ^ 63 - 1 := by omega
    cases heap with
    | none => exact Or.inr (Or.inl ⟨he, allocateBuffer_nomem rb n e hn he hp⟩)
    | some fresh =>
      obtain ⟨k, k1, k2, _, _, k5⟩ := allocateBuffer_ok rb n e fresh hn he hp
      exact Or.inr (Or.inr ⟨he, k, fresh, k1, k2, k5⟩)

theorem ringBufferResize_wf {rb : s_ringBuffer} {n e : Nat} {heap : Option Mem}
    {r : Nat × s_ringBuffer} (hwf : WF rb) (h : ringBufferResize rb n e heap = some r) :
    WF r.2 := by
  have hb := hwf.lt_pow
  unfold ringBufferResize at h
  rcases allocateBuffer_cases rb n e heap with h1 | ⟨he, h1⟩ | ⟨he, k, fresh, k1, k2, h1⟩
  · rw [h1] at h
    simp only [PROC_FAIL, if_true, Option.some.injEq] at h
    rw [← h]; exact hwf
  · rw [h1] at h
    simp only [PROC_FAIL, if_true, Option.some.injEq] at h
    rw [← h]
    exact { cap := hwf.cap, head := hwf.head, tail := hwf.tail, elem := he,
            mask := usub_of_le (by omega) (by omega) }
  · rw [h1] at h
    simp only [PROC_SUCC, one_ne_zero, if_false, Option.some.injEq] at h
    rw [← h]
    have hpow : (2 : Nat) ^ k ≤ 2 ^ 63 := Nat.pow_le_pow_right (by decide) k2
    have hpos : 1 ≤ (2 : Nat) ^ k := Nat.one_le_two_pow
    have hsub : usub (2 ^ k) 1 = 2 ^ k - 1 := usub_of_le hpos (by omega)
    split_ifs
    all_goals
      refine { cap := ⟨k, k1, k2, rfl⟩, mask := rfl, head := ?_, tail := ?_, elem := he }
    all_goals
      try simp only [hsub] at *
      try dsimp only at *
      omega

theorem initRingBuffer_wf {n e : Nat} {heap : Option Mem} {rb : s_ringBuffer}
    (h : initRingBuffer n e true heap = some (some rb)) :
    WF rb ∧ rb.headIndex = 0 ∧ rb.tailIndex = 0 ∧ rb.elementSize = e ∧ rb.b_blocking = 1 := by
  unfold initRingBuffer at h
  simp only [Bool.not_true, Bool.false_eq_true, if_false] at h
  rcases allocateBuffer_cases zeroed n e heap with h1 | ⟨he, h1⟩ | ⟨he, k, fresh, k1, k2, h1⟩
  · rw [h1] at h; simp [PROC_FAIL] at h
  · rw [h1] at h; simp [PROC_FAIL] at h
  · rw [h1] at h
    simp only [PROC_SUCC, one_ne_zero, if_false, Option.some.injEq] at h
    rw [← h]
    have hpos : 1 ≤ (2 : Nat) ^ k := Nat.one_le_two_pow
    refine ⟨{ cap := ⟨k, k1, k2, rfl⟩, mask := rfl, head := ?_, tail := ?_, elem := he },
      rfl, rfl, rfl, rfl⟩
    · show 0 < 2 ^ k
      omega
    · show 0 ≤ 2 ^ k
      omega


theorem envStep_wf {rb rb1 : s_ringBuffer} {op : EnvOp} (hwf : WF rb)
    (h : envStep rb op = some rb1) : WF rb1 := by
  cases op with
  | write src len =>
    simp only [envStep, Option.map_eq_some'] at h
    obtain ⟨r, h1, h2⟩ := h
    rw [← h2]; exact ringBufferWrite_wf hwf h1
  | read dst len =>
    simp only [envStep, Option.map_eq_some'] at h
    obtain ⟨r, h1, h2⟩ := h
    rw [← h2]; exact ringBufferRead_wf hwf h1
  | reset =>
    simp only [envStep, Option.some.injEq] at h
    rw [← h]
    have hb := hwf.lt_pow
    exact { cap := hwf.cap, mask := hwf.mask, elem := hwf.elem,
            head := by show 0 < rb.buffSize; omega,
            tail := by show 0 ≤ rb.buffSize; omega }
  | endBlocking =>
    simp only [envStep, Option.some.injEq] at h
    rw [← h]
    exact { cap := hwf.cap, mask := hwf.mask, elem := hwf.elem, head := hwf.head,
            tail := hwf.tail }
  | resize n e heap =>
    simp only [envStep, Option.map_eq_some'] at h
    obtain ⟨r, h1, h2⟩ := h
    rw [← h2]; exact ringBufferResize_wf hwf h1
  | chunkWrite src n =>
    simp only [envStep, Option.map_eq_some'] at h
    obtain ⟨r, h1, h2⟩ := h
    rw [← h2]; exact rawWrite_wf hwf h1
  | chunkRead dst n =>
    simp only [envStep, Option.map_eq_some'] at h
    obtain ⟨r, h1, h2⟩ := h
    rw [← h2]; exact rawRead_wf hwf h1

theorem envRun_wf : ∀ (ops : List EnvOp) (rb rb1 : s_ringBuffer), WF rb →
    envRun rb ops = some rb1 → WF rb1 := by
  intro ops
  induction ops with
  | nil =>
    intro rb rb1 hwf h
    simp only [envRun, Option.some.injEq] at h
    rw [← h]; exact hwf
  | cons op ops ih =>
    intro rb rb1 hwf h
    unfold envRun at h
    split at h
    · exact absurd h (by simp)
    · next rb2 heq => exact ih rb2 rb1 (envStep_wf hwf heq) h

theorem condWait_wf {cs cs1 : CallState} {ev : WaitEvent} (hwf : WF cs.rb)
    (h : condWait cs ev = some cs1) : WF cs1.rb := by
  unfold condWait at h
  split at h
  · exact absurd h (by simp)
  · next rb1 heq =>
    simp only [Option.some.injEq] at h
    rw [← h]
    exact envRun_wf _ _ _ hwf heq

theorem checkContinueBlocking_wf {cs : CallState} {ev : WaitEvent} {r : Nat × CallState}
    (hwf : WF cs.rb) (h : checkContinueBlocking cs ev = some r) : WF r.2.rb := by
  unfold checkContinueBlocking at h
  split at h
  · split at h
    · simp only [Option.some.injEq] at h
      rw [← h]; exact hwf
    · dsimp only at h
      split at h
      · exact absurd h (by simp)
      · next cs2 heq =>
        have hwf2 : WF cs2.rb := by
          refine condWait_wf ?_ heq
          exact hwf
        split_ifs at h <;> simp only [Option.some.injEq] at h <;> rw [← h] <;> exact hwf2
  · split at h
    · exact absurd h (by simp)
    · next cs2 heq =>
      have hwf2 : WF cs2.rb := condWait_wf hwf heq
      split_ifs at h <;> simp only [Option.some.injEq] at h <;> rw [← h] <;> exact hwf2

theorem fallbackWrite_wf {cs : CallState} {len : Nat} {out : BlockingOut} (hwf : WF cs.rb)
    (h : fallbackWrite cs len = some out) : WF out.st.rb := by
  unfold fallbackWrite at h
  split at h
  · exact absurd h (by simp)
  · next r rb1 heq =>
    simp only [Option.some.injEq] at h
    rw [← h]
    exact ringBufferWrite_wf (r := (r, rb1)) hwf heq

theorem fallbackRead_wf {cs : CallState} {len : Nat} {out : BlockingOut} (hwf : WF cs.rb)
    (h : fallbackRead cs len = some out) : WF out.st.rb := by
  unfold fallbackRead at h
  split at h
  · exact absurd h (by simp)
  · next r rb1 dst1 heq =>
    simp only [Option.some.injEq] at h
    rw [← h]
    exact ringBufferRead_wf (r := (r, rb1, dst1)) hwf heq

theorem writeWait_wf (len totalWrote writeLen : Nat) :
    ∀ (waits : List WaitEvent) (cs : CallState) (w : Waited), WF cs.rb →
      writeWait len totalWrote writeLen waits cs = some w → WF w.rb := by
  intro waits
  induction waits with
  | nil =>
    intro cs w hwf h
    unfold writeWait at h
    split_ifs at h
    simp only [Option.some.injEq] at h
    rw [← h]; exact hwf
  | cons ev rest ih =>
    intro cs w hwf h
    unfold writeWait at h
    split_ifs at h with c1
    · split at h
      · exact absurd h (by simp)
      · next code cs1 heq =>
        have hwf1 : WF cs1.rb := checkContinueBlocking_wf (r := (code, cs1)) hwf heq
        split_ifs at h with c2 c3 c4
        · simp only [Option.map_eq_some'] at h
          obtain ⟨out, h1, h2⟩ := h
          rw [← h2]; exact fallbackWrite_wf hwf1 h1
        · simp only [Option.some.injEq] at h
          rw [← h]; exact hwf1
        · simp only [Option.some.injEq] at h
          rw [← h]; exact hwf1
        · exact ih cs1 w hwf1 h
    · simp only [Option.some.injEq] at h
      rw [← h]; exact hwf

theorem readWait_wf (len totalRead readLen : Nat) :
    ∀ (waits : List WaitEvent) (cs : CallState) (w : Waited), WF cs.rb →
      readWait len totalRead readLen waits cs = some w → WF w.rb := by
  intro waits
  induction waits with
  | nil =>
    intro cs w hwf h
    unfold readWait at h
    split_ifs at h
    simp only [Option.some.injEq] at h
    rw [← h]; exact hwf
  | cons ev rest ih =>
    intro cs w hwf h
    unfold readWait at h
    split_ifs at h with c1
    · split at h
      · exact absurd h (by simp)
      · next code cs1 heq =>
        have hwf1 : WF cs1.rb := checkContinueBlocking_wf (r := (code, cs1)) hwf heq
        split_ifs at h with c2 c3 c4
        · simp only [Option.map_eq_some'] at h
          obtain ⟨out, h1, h2⟩ := h
          rw [← h2]; exact fallbackRead_wf hwf1 h1
        · simp only [Option.some.injEq] at h
          rw [← h]; exact hwf1
        · simp only [Option.some.injEq] at h
          rw [← h]; exact hwf1
        · exact ih cs1 w hwf1 h
    · simp only [Option.some.injEq] at h
      rw [← h]; exact hwf

theorem blockingWriteLoop_wf :
    ∀ (fuel len totalWrote : Nat) (cs : CallState) (waits : List WaitEvent) (out : BlockingOut),
      WF cs.rb → blockingWriteLoop fuel len totalWrote cs waits = some out → WF out.st.rb := by
  intro fuel
  induction fuel with
  | zero => intro len t cs waits out _ h; simp [blockingWriteLoop] at h
  | succ fuel ih =>
    intro len t cs waits out hwf h
    unfold blockingWriteLoop at h
    dsimp only at h
    split at h
    · exact absurd h (by simp)
    · next o heq =>
      simp only [Option.some.injEq] at h
      rw [← h]
      exact writeWait_wf _ _ _ _ _ _ hwf heq
    · next cs1 rest heq =>
      have hwf1 : WF cs1.rb := writeWait_wf _ _ _ _ _ _ hwf heq
      split at h
      · exact absurd h (by simp)
      · next wrote rb2 heq2 =>
        have hwf2 : WF rb2 := rawWrite_wf (r := (wrote, rb2)) hwf1 heq2
        split_ifs at h
        · exact ih _ _ _ _ out hwf2 h
        · simp only [Option.some.injEq] at h
          rw [← h]; exact hwf2

theorem blockingReadLoop_wf :
    ∀ (fuel len totalRead : Nat) (cs : CallState) (waits : List WaitEvent) (out : BlockingOut),
      WF cs.rb → blockingReadLoop fuel len totalRead cs waits = some out → WF out.st.rb := by
  intro fuel
  induction fuel with
  | zero => intro len t cs waits out _ h; simp [blockingReadLoop] at h
  | succ fuel ih =>
    intro len t cs waits out hwf h
    unfold blockingReadLoop at h
    dsimp only at h
    split at h
    · exact absurd h (by simp)
    · next o heq =>
      simp only [Option.some.injEq] at h
      rw [← h]
      exact readWait_wf _ _ _ _ _ _ hwf heq
    · next cs1 rest heq =>
      have hwf1 : WF cs1.rb := readWait_wf _ _ _ _ _ _ hwf heq
      split at h
      · exact absurd h (by simp)
      · next read rb2 view heq2 =>
        have hwf2 : WF rb2 := rawRead_wf (r := (read, rb2, view)) hwf1 heq2
        split_ifs at h
        · exact ih _ _ _ _ out hwf2 h
        · simp only [Option.some.injEq] at h
          rw [← h]; exact hwf2

theorem ringBufferBlockingWrite_wf {rb : s_ringBuffer} {src : Option Mem} {len : Nat}
    {t : Option timespec} {waits : List WaitEvent} {out : BlockingOut} (hwf : WF rb)
    (h : ringBufferBlockingWrite rb src len t waits = some out) : WF out.st.rb := by
  unfold ringBufferBlockingWrite at h
  split at h
  · simp only [Option.some.injEq] at h; rw [← h]; exact hwf
  · split_ifs at h
    · simp only [Option.some.injEq] at h; rw [← h]; exact hwf
    · refine fallbackWrite_wf ?_ h
      exact hwf
    · exact blockingWriteLoop_wf _ _ _ _ _ _ hwf h

theorem ringBufferBlockingRead_wf {rb : s_ringBuffer} {dst : Option Mem} {len : Nat}
    {t : Option timespec} {waits : List WaitEvent} {out : BlockingOut} (hwf : WF rb)
    (h : ringBufferBlockingRead rb dst len t waits = some out) : WF out.st.rb := by
  unfold ringBufferBlockingRead at h
  split at h
  · simp only [Option.some.injEq] at h; rw [← h]; exact hwf
  · split_ifs at h
    · simp only [Option.some.injEq] at h; rw [← h]; exact hwf
    · refine fallbackRead_wf ?_ h
      exact hwf
    · exact blockingReadLoop_wf _ _ _ _ _ _ hwf h

theorem applyOp_wf {rb rb1 : s_ringBuffer} {op : Op} (hwf : WF rb)
    (h : applyOp rb op = some rb1) : WF rb1 := by
  cases op with
  | write src len =>
    simp only [applyOp, Option.map_eq_some'] at h
    obtain ⟨r, h1, h2⟩ := h
    rw [← h2]; exact ringBufferWrite_wf hwf h1
  | read dst len =>
    simp only [applyOp, Option.map_eq_some'] at h
    obtain ⟨r, h1, h2⟩ := h
    rw [← h2]; exact ringBufferRead_wf hwf h1
  | blockingWrite src len t waits =>
    simp only [applyOp, Option.map_eq_some'] at h
    obtain ⟨r, h1, h2⟩ := h
    rw [← h2]; exact ringBufferBlockingWrite_wf hwf h1
  | blockingRead dst len t waits =>
    simp only [applyOp, Option.map_eq_some'] at h
    obtain ⟨r, h1, h2⟩ := h
    rw [← h2]; exact ringBufferBlockingRead_wf hwf h1
  | reset => exact @envStep_wf rb rb1 EnvOp.reset hwf h
  | endBlocking => exact @envStep_wf rb rb1 EnvOp.endBlocking hwf h
  | resize n e heap =>
    simp only [applyOp, Option.map_eq_some'] at h
    obtain ⟨r, h1, h2⟩ := h
    rw [← h2]; exact ringBufferResize_wf hwf h1

/-- Every state a buffer object goes through is well formed. -/
theorem Reachable.wf {rb : s_ringBuffer} (h : Reachable rb) : WF rb := by
  induction h with
  | init n e heap rb hinit => exact (initRingBuffer_wf hinit).1
  | step rb rb1 op _ hstep ih => exact applyOp_wf ih hstep


/-! ## Claims on allocation and on the size invariant -/

/-- C3: for `requestedElements ≥ 1` and `elementSize ≥ 1` with a product of at
most `2 ^ 63 - 1`, a successful `allocateBuffer` leaves `buffSize` a power of two
that is at least the product, `indexMask = buffSize - 1`, the stored element size
equal to the argument and `b_blocking = 1`; the same holds for the object
returned by `initRingBuffer` and for the object after `ringBufferResize`. -/
theorem allocateBuffer_success_shape (rb : s_ringBuffer) (requestedElements elementSize : Nat)
    (heapBytes : Mem) (hn : 1 ≤ requestedElements) (he : 1 ≤ elementSize)
    (hprod : requestedElements * elementSize ≤ 2 ^ 63 - 1) :
    (∃ rb1, allocateBuffer rb requestedElements elementSize (some heapBytes)
        = some (PROC_SUCC, rb1) ∧ AllocShape requestedElements elementSize rb1) ∧
    (∃ rb1, initRingBuffer requestedElements elementSize true (some heapBytes)
        = some (some rb1) ∧ AllocShape requestedElements elementSize rb1) ∧
    (∃ rb1, ringBufferResize rb requestedElements elementSize (some heapBytes)
        = some (getRingBufferSize rb1, rb1) ∧ AllocShape requestedElements elementSize rb1) := by
  have hw : wrap (requestedElements * elementSize) = requestedElements * elementSize :=
    wrap_of_lt (by omega)
  have key : ∀ rb0 : s_ringBuffer, ∃ rb1, allocateBuffer rb0 requestedElements elementSize
      (some heapBytes) = some (PROC_SUCC, rb1) ∧ AllocShape requestedElements elementSize rb1 ∧
      rb1.headIndex = rb0.headIndex ∧ rb1.tailIndex = rb0.tailIndex := by
    intro rb0
    obtain ⟨k, _, _, k3, _, k5⟩ :=
      allocateBuffer_ok rb0 requestedElements elementSize heapBytes hn he (by omega)
    rw [hw] at k3
    exact ⟨_, k5, ⟨⟨k, rfl⟩, k3, rfl, rfl, rfl⟩, rfl, rfl⟩
  refine ⟨?_, ?_, ?_⟩
  · obtain ⟨rb1, h1, h2, _⟩ := key rb
    exact ⟨rb1, h1, h2⟩
  · obtain ⟨rb1, h1, h2, _⟩ := key zeroed
    refine ⟨rb1, ?_, h2⟩
    unfold initRingBuffer
    rw [h1]
    simp [PROC_SUCC]
  · obtain ⟨rb1, h1, h2, _⟩ := key rb
    unfold ringBufferResize
    rw [h1]
    simp only [PROC_SUCC, one_ne_zero, if_false]
    refine ⟨_, rfl, ?_⟩
    obtain ⟨a, b, c, d, e⟩ := h2
    unfold AllocShape
    split_ifs <;> exact ⟨a, b, c, d, e⟩

/-- C4: in every state reachable from `initRingBuffer` by public calls (writes,
reads, blocking writes and reads, reset, end of blocking, resize, failed resize
included), `readSize() + writeSize() = buffSize - 1`, and the sum does not leave
the range of `unsigned long int`. -/
theorem reachable_sizes_sum (rb : s_ringBuffer) (h : Reachable rb) :
    readSize rb + writeSize rb = rb.buffSize - 1 ∧ readSize rb + writeSize rb < 2 ^ 64 := by
  have hwf := h.wf
  have h1 := writeSize_eq hwf
  have h2 := readSize_lt hwf
  have h3 := hwf.lt_pow
  omega

theorem halfFull_reachable : Reachable halfFull :=
  Reachable.step (fresh 10 1) halfFull (.write (some counting) 5)
    (Reachable.init 10 1 (some zeros) (fresh 10 1) rfl) rfl

/-- Witness of C4 on a buffer of sixteen bytes holding five. -/
theorem reachable_sizes_sum_witness :
    Reachable halfFull ∧
      (readSize halfFull + writeSize halfFull = halfFull.buffSize - 1 ∧
        readSize halfFull + writeSize halfFull < 2 ^ 64) :=
  ⟨halfFull_reachable, reachable_sizes_sum halfFull halfFull_reachable⟩

/-- Witness of C3: ten elements of one byte. -/
theorem allocateBuffer_success_shape_witness :
    (1 ≤ 10 ∧ 1 ≤ 1 ∧ 10 * 1 ≤ 2 ^ 63 - 1) ∧
    ((∃ rb1, allocateBuffer zeroed 10 1 (some zeros)
        = some (PROC_SUCC, rb1) ∧ AllocShape 10 1 rb1) ∧
    (∃ rb1, initRingBuffer 10 1 true (some zeros)
        = some (some rb1) ∧ AllocShape 10 1 rb1) ∧
    (∃ rb1, ringBufferResize zeroed 10 1 (some zeros)
        = some (getRingBufferSize rb1, rb1) ∧ AllocShape 10 1 rb1)) :=
  ⟨by decide, allocateBuffer_success_shape zeroed 10 1 zeros (by decide) (by decide) (by decide)⟩

theorem shrunk_reachable : Reachable shrunk :=
  Reachable.step _ shrunk (.resize 2 1 (some zeros))
    (Reachable.step _ _ (.read (some zeros) 5)
      (Reachable.step _ _ (.write (some counting) 5)
        (Reachable.init 8 1 (some zeros) (fresh 8 1) rfl) rfl) rfl) rfl

/-- C5, the code at the failing input: after `initRingBuffer(8, 1)`, a write and a
read of five bytes and `ringBufferResize(2, 1)`, the capacity is 2, the head
index was clamped to 1 and the tail index to 2, which is not below the capacity. -/
theorem resize_shrink_tail_out_of_range :
    Reachable shrunk ∧ shrunk.buffSize = 2 ∧ shrunk.headIndex = 1 ∧ shrunk.tailIndex = 2 ∧
      ¬ shrunk.tailIndex < shrunk.buffSize :=
  ⟨shrunk_reachable, by decide, by decide, by decide, by decide⟩

/-- The index bounds that do hold in every reachable state. -/
theorem reachable_index_bounds (rb : s_ringBuffer) (h : Reachable rb) :
    rb.headIndex < rb.buffSize ∧ rb.tailIndex ≤ rb.buffSize :=
  ⟨h.wf.head, h.wf.tail⟩


/-! ## Claims on the non-blocking write and on a failed resize -/

theorem readSize_after_write {rb : s_ringBuffer} (hwf : WF rb) (n : Nat) (m : Mem) :
    readSize { rb with headIndex := (rb.headIndex + n) % rb.buffSize, p_buffer := m }
      = (readSize rb + n) % rb.buffSize := by
  have hb := hwf.lt_pow
  have ht := hwf.tail
  have hwf1 : WF { rb with headIndex := (rb.headIndex + n) % rb.buffSize, p_buffer := m } :=
    { cap := hwf.cap, mask := hwf.mask, tail := hwf.tail, elem := hwf.elem,
      head := Nat.mod_lt _ (by omega) }
  rw [readSize_eq hwf1, readSize_eq hwf]
  show ((rb.headIndex + n) % rb.buffSize + rb.buffSize - rb.tailIndex) % rb.buffSize
    = ((rb.headIndex + rb.buffSize - rb.tailIndex) % rb.buffSize + n) % rb.buffSize
  rw [Nat.add_sub_assoc ht, Nat.mod_add_mod, Nat.mod_add_mod]
  congr 1
  omega

/-- The non-blocking write on a well-formed buffer, in closed form. -/
theorem ringBufferWrite_spec {rb : s_ringBuffer} (hwf : WF rb) (src : Mem) {len : Nat}
    (hlen : 1 ≤ len) (hno : len * rb.elementSize < 2 ^ 64) :
    ringBufferWrite rb (some src) len = some (len, { rb with
      headIndex := (rb.headIndex + len * rb.elementSize) % rb.buffSize
      p_buffer := putBytes rb.buffSize rb.headIndex src (len * rb.elementSize) rb.p_buffer }) := by
  unfold ringBufferWrite
  simp only [if_neg (by omega : ¬ len ≤ 0), wrap_of_lt hno, rawWrite_spec hwf src hno]
  rw [Nat.mul_div_cancel _ (by have := hwf.elem; omega)]

/-- C6: the non-blocking write with a source block and `len ≥ 1` whose byte count
does not overflow returns `len` in every well-formed state, leaves the tail index
alone and moves the head index to `(headIndex + len * elementSize) mod buffSize`;
the occupied byte count becomes `(occupied + len * elementSize) mod buffSize`,
which is smaller than `occupied + len * elementSize` whenever the write exceeds
the free space. -/
theorem ringBufferWrite_never_checks_space (rb : s_ringBuffer) (src : Mem) (len : Nat)
    (hwf : WF rb) (hlen : 1 ≤ len) (hno : len * rb.elementSize < 2 ^ 64) :
    ∃ rb1, ringBufferWrite rb (some src) len = some (len, rb1) ∧
      rb1.tailIndex = rb.tailIndex ∧
      rb1.headIndex = (rb.headIndex + len * rb.elementSize) % rb.buffSize ∧
      readSize rb1 = (readSize rb + len * rb.elementSize) % rb.buffSize ∧
      (writeSize rb < len * rb.elementSize →
        readSize rb1 < readSize rb + len * rb.elementSize) := by
  refine ⟨_, ringBufferWrite_spec hwf src hlen hno, rfl, rfl,
    readSize_after_write hwf _ _, ?_⟩
  intro hover
  rw [readSize_after_write hwf]
  have h1 := writeSize_eq hwf
  have h2 := readSize_lt hwf
  have hb := hwf.lt_pow
  have h3 : (readSize rb + len * rb.elementSize) % rb.buffSize < rb.buffSize :=
    Nat.mod_lt _ (by omega)
  omega

/-- Witness of C6: six bytes written into a buffer of sixteen bytes holding five. -/
theorem ringBufferWrite_never_checks_space_witness :
    (1 ≤ 6 ∧ 6 * halfFull.elementSize < 2 ^ 64) ∧
    ∃ rb1, ringBufferWrite halfFull (some counting) 6 = some (6, rb1) ∧
      rb1.tailIndex = halfFull.tailIndex ∧
      rb1.headIndex = (halfFull.headIndex + 6 * halfFull.elementSize) % halfFull.buffSize ∧
      readSize rb1 = (readSize halfFull + 6 * halfFull.elementSize) % halfFull.buffSize ∧
      (writeSize halfFull < 6 * halfFull.elementSize →
        readSize rb1 < readSize halfFull + 6 * halfFull.elementSize) :=
  ⟨by decide, ringBufferWrite_never_checks_space halfFull counting 6 halfFull_reachable.wf
    (by decide) (by decide)⟩

/-- The failed resize on a well-formed buffer, in closed form. -/
theorem ringBufferResize_nomem {rb : s_ringBuffer} (hwf : WF rb) {n e : Nat}
    (hn : 1 ≤ n) (he : 1 ≤ e) (hprod : wrap (n * e) ≤ 2 ^ 63 - 1) :
    ringBufferResize rb n e none
      = some (0, { rb with elementSize := e, b_blocking := 1 }) := by
  have hb := hwf.lt_pow
  unfold ringBufferResize
  rw [allocateBuffer_nomem rb n e hn he hprod]
  simp only [PROC_FAIL, if_true, ERROR_NULL]
  rw [usub_of_le (by omega) (by omega), ← hwf.mask]

theorem ended_reachable : Reachable ended :=
  Reachable.step (fresh 4 2) ended .endBlocking
    (Reachable.init 4 2 (some zeros) (fresh 4 2) rfl) rfl

/-- C9 as stated fails: on a reachable buffer of element size 2 whose blocking
was ended, a resize to eight elements of size 2 whose `realloc` fails returns 0
and leaves `b_blocking = 1`, not the prior value 0. -/
theorem failed_resize_reenables_blocking :
    Reachable ended ∧ ended.b_blocking = 0 ∧
      ∃ rb1, ringBufferResize ended 8 2 none = some (0, rb1) ∧ rb1.b_blocking = 1 ∧
        ¬ (rb1.buffSize = ended.buffSize ∧ rb1.indexMask = ended.indexMask ∧
            rb1.elementSize = ended.elementSize ∧ rb1.b_blocking = ended.b_blocking) :=
  ⟨ended_reachable, by decide, _, rfl, by decide, by decide⟩

/-- C9 amended: when the allocation step of `ringBufferResize` fails, `buffSize`
and `indexMask` keep their prior values, `b_blocking` is 1 whatever it was
before, and the call returns 0. -/
theorem failed_resize_keeps_capacity (rb : s_ringBuffer) (n e : Nat) (hwf : WF rb)
    (hn : 1 ≤ n) (he : 1 ≤ e) (hprod : wrap (n * e) ≤ 2 ^ 63 - 1) :
    ∃ rb1, ringBufferResize rb n e none = some (0, rb1) ∧
      rb1.buffSize = rb.buffSize ∧ rb1.indexMask = rb.indexMask ∧ rb1.b_blocking = 1 :=
  ⟨_, ringBufferResize_nomem hwf hn he hprod, rfl, rfl, rfl⟩

/-- Witness of the amended C9 on the buffer whose blocking was ended. -/
theorem failed_resize_keeps_capacity_witness :
    (1 ≤ 8 ∧ 1 ≤ 2 ∧ wrap (8 * 2) ≤ 2 ^ 63 - 1) ∧
    ∃ rb1, ringBufferResize ended 8 2 none = some (0, rb1) ∧
      rb1.buffSize = ended.buffSize ∧ rb1.indexMask = ended.indexMask ∧ rb1.b_blocking = 1 :=
  ⟨by decide, failed_resize_keeps_capacity ended 8 2 ended_reachable.wf
    (by decide) (by decide) (by decide)⟩


/-! ## Byte lists and the unread contents -/

theorem bytesOf_length (f : Mem) (n : Nat) : (bytesOf f n).length = n := by
  simp [bytesOf]

theorem bytesOf_getElem (f : Mem) (n i : Nat) (h : i < (bytesOf f n).length) :
    (bytesOf f n)[i] = f i := by
  simp [bytesOf]

theorem bytesOf_congr {f g : Mem} {n : Nat} (h : ∀ i, i < n → f i = g i) :
    bytesOf f n = bytesOf g n := by
  apply List.ext_getElem
  · rw [bytesOf_length, bytesOf_length]
  · intro i h1 h2
    rw [bytesOf_getElem, bytesOf_getElem]
    rw [bytesOf_length] at h1
    exact h i h1

theorem bytesOf_take (f : Mem) {n k : Nat} (h : k ≤ n) :
    (bytesOf f n).take k = bytesOf f k := by
  apply List.ext_getElem
  · rw [List.length_take, bytesOf_length, bytesOf_length]; omega
  · intro i h1 h2
    rw [List.getElem_take, bytesOf_getElem, bytesOf_getElem]

theorem bytesOf_drop (f : Mem) (n k : Nat) :
    (bytesOf f n).drop k = bytesOf (fun i => f (k + i)) (n - k) := by
  apply List.ext_getElem
  · rw [List.length_drop, bytesOf_length, bytesOf_length]
  · intro i h1 h2
    rw [List.getElem_drop, bytesOf_getElem, bytesOf_getElem]

theorem bytesOf_append (f g : Mem) (n m : Nat) :
    bytesOf f n ++ bytesOf g m = bytesOf (fun i => if i < n then f i else g (i - n)) (n + m) := by
  apply List.ext_getElem
  · rw [List.length_append, bytesOf_length, bytesOf_length, bytesOf_length]
  · intro i h1 h2
    rw [bytesOf_getElem]
    by_cases hi : i < n
    · rw [List.getElem_append_left (by rw [bytesOf_length]; exact hi), bytesOf_getElem, if_pos hi]
    · rw [List.getElem_append_right (by rw [bytesOf_length]; omega), bytesOf_getElem, if_neg hi]
      simp only [bytesOf_length]

theorem mod_add_ne {bs x d : Nat} (h1 : 0 < d) (h2 : d < bs) : (x + d) % bs ≠ x % bs := by
  intro h
  have h3 : (x + d) % bs = (x + 0) % bs := by rw [Nat.add_zero]; exact h
  have h4 : d % bs = 0 % bs := Nat.ModEq.add_left_cancel' x h3
  rw [Nat.mod_eq_of_lt h2, Nat.zero_mod] at h4
  omega

theorem readSize_mod {rb : s_ringBuffer} (hwf : WF rb) :
    (rb.tailIndex + readSize rb) % rb.buffSize = rb.headIndex := by
  have hb := hwf.lt_pow
  have ht := hwf.tail
  have hh := hwf.head
  rw [readSize_eq hwf, Nat.add_mod_mod]
  have e : rb.tailIndex + (rb.headIndex + rb.buffSize - rb.tailIndex)
      = rb.headIndex + rb.buffSize := by omega
  rw [e, Nat.add_mod_right]
  exact Nat.mod_eq_of_lt hh

theorem readSize_unique {rb : s_ringBuffer} (hwf : WF rb) {x : Nat} (hx : x < rb.buffSize)
    (h : (rb.tailIndex + x) % rb.buffSize = rb.headIndex) : readSize rb = x := by
  have h1 := readSize_mod hwf
  have h2 := readSize_lt hwf
  have h3 : (rb.tailIndex + readSize rb) % rb.buffSize = (rb.tailIndex + x) % rb.buffSize := by
    rw [h1, h]
  have h4 : readSize rb % rb.buffSize = x % rb.buffSize :=
    Nat.ModEq.add_left_cancel' rb.tailIndex h3
  rw [Nat.mod_eq_of_lt h2, Nat.mod_eq_of_lt hx] at h4
  exact h4

theorem readSize_after_read {rb : s_ringBuffer} (hwf : WF rb) {k : Nat} (hk : k ≤ readSize rb) :
    readSize { rb with tailIndex := (rb.tailIndex + k) % rb.buffSize } = readSize rb - k := by
  have hb := hwf.lt_pow
  have h2 := readSize_lt hwf
  have hwf1 : WF { rb with tailIndex := (rb.tailIndex + k) % rb.buffSize } :=
    { cap := hwf.cap, mask := hwf.mask, head := hwf.head, elem := hwf.elem,
      tail := le_of_lt (Nat.mod_lt _ (by omega)) }
  apply readSize_unique hwf1
  · show readSize rb - k < rb.buffSize
    omega
  · show ((rb.tailIndex + k) % rb.buffSize + (readSize rb - k)) % rb.buffSize = rb.headIndex
    rw [Nat.mod_add_mod]
    have e : rb.tailIndex + k + (readSize rb - k) = rb.tailIndex + readSize rb := by omega
    rw [e]
    exact readSize_mod hwf

theorem putBytes_last (bs h : Nat) (src m : Mem) (p : Nat) :
    ∀ (n i : Nat), i < n → (h + i) % bs = p →
      (∀ j, i < j → j < n → (h + j) % bs ≠ p) → putBytes bs h src n m p = src i := by
  intro n
  induction n with
  | zero => intro i hi; omega
  | succ n ih =>
    intro i hi hp hlast
    simp only [putBytes]
    by_cases hin : i = n
    · rw [hin] at hp
      rw [← hp, Function.update_same, hin]
    · have hne : p ≠ (h + n) % bs := fun heq => hlast n (by omega) (by omega) heq.symm
      rw [Function.update_noteq hne]
      exact ih i (by omega) hp (fun j h1 h2 => hlast j h1 (by omega))

theorem putBytes_untouched (bs h : Nat) (src m : Mem) (p : Nat) :
    ∀ (n : Nat), (∀ i, i < n → (h + i) % bs ≠ p) → putBytes bs h src n m p = m p := by
  intro n
  induction n with
  | zero => intro _; rfl
  | succ n ih =>
    intro hno
    simp only [putBytes]
    have hne : p ≠ (h + n) % bs := fun heq => hno n (by omega) heq.symm
    rw [Function.update_noteq hne]
    exact ih (fun i hi => hno i (by omega))

/-- The unread contents after a read of `k` bytes, and the bytes delivered. -/
theorem contents_after_read {rb : s_ringBuffer} (hwf : WF rb) (dst : Mem) {k : Nat}
    (hk : k ≤ readSize rb) :
    contents { rb with tailIndex := (rb.tailIndex + k) % rb.buffSize } = (contents rb).drop k ∧
    bytesOf (getBytes rb.buffSize rb.tailIndex rb.p_buffer dst 0 k) k = (contents rb).take k := by
  constructor
  · unfold contents
    rw [readSize_after_read hwf hk, bytesOf_drop]
    apply bytesOf_congr
    intro i _
    show rb.p_buffer (((rb.tailIndex + k) % rb.buffSize + i) % rb.buffSize)
      = rb.p_buffer ((rb.tailIndex + (k + i)) % rb.buffSize)
    rw [Nat.mod_add_mod, Nat.add_assoc]
  · unfold contents
    rw [bytesOf_take _ hk]
    apply bytesOf_congr
    intro i hi
    simp only [getBytes]
    rw [if_pos (by omega), Nat.sub_zero]

/-- The unread contents after a write of `n` bytes that fit the free space. -/
theorem contents_after_write {rb : s_ringBuffer} (hwf : WF rb) (src : Mem) {n : Nat}
    (hn : n ≤ writeSize rb) :
    contents { rb with
      headIndex := (rb.headIndex + n) % rb.buffSize
      p_buffer := putBytes rb.buffSize rb.headIndex src n rb.p_buffer }
      = contents rb ++ bytesOf src n := by
  have hb := hwf.lt_pow
  have hws := writeSize_eq hwf
  have hrs := readSize_lt hwf
  have hmod := readSize_mod hwf
  unfold contents
  rw [readSize_after_write hwf,
    Nat.mod_eq_of_lt (show readSize rb + n < rb.buffSize by omega), bytesOf_append]
  apply bytesOf_congr
  intro i hi
  show putBytes rb.buffSize rb.headIndex src n rb.p_buffer ((rb.tailIndex + i) % rb.buffSize)
    = if i < readSize rb then rb.p_buffer ((rb.tailIndex + i) % rb.buffSize)
      else src (i - readSize rb)
  by_cases hlt : i < readSize rb
  · rw [if_pos hlt]
    apply putBytes_untouched
    intro j hj
    rw [← hmod, Nat.mod_add_mod]
    have e : rb.tailIndex + readSize rb + j = rb.tailIndex + i + (readSize rb + j - i) := by
      omega
    rw [e]
    exact mod_add_ne (by omega) (by omega)
  · rw [if_neg hlt]
    have hpos : (rb.headIndex + (i - readSize rb)) % rb.buffSize
        = (rb.tailIndex + i) % rb.buffSize := by
      rw [← hmod, Nat.mod_add_mod]
      have e : rb.tailIndex + readSize rb + (i - readSize rb) = rb.tailIndex + i := by omega
      rw [e]
    apply putBytes_last _ _ _ _ _ n (i - readSize rb) (by omega) hpos
    intro j h1 h2
    rw [← hpos]
    have e : rb.headIndex + j
        = rb.headIndex + (i - readSize rb) + (j - (i - readSize rb)) := by omega
    rw [e]
    exact mod_add_ne (by omega) (by omega)

/-- The non-blocking read on a well-formed buffer, in closed form; the byte count
of the request is the product as the code computes it. -/
theorem ringBufferRead_spec_wrap {rb : s_ringBuffer} (hwf : WF rb) (dst : Mem) {len : Nat}
    (hlen : 1 ≤ len) :
    ringBufferRead rb (some dst) len
      = some (min (wrap (len * rb.elementSize)) (readSize rb) / rb.elementSize,
          { rb with tailIndex :=
              (rb.tailIndex + min (wrap (len * rb.elementSize)) (readSize rb)) % rb.buffSize },
          some (getBytes rb.buffSize rb.tailIndex rb.p_buffer dst 0
            (min (wrap (len * rb.elementSize)) (readSize rb)))) := by
  have hmin : (if wrap (len * rb.elementSize) > readSize rb then readSize rb
      else wrap (len * rb.elementSize)) = min (wrap (len * rb.elementSize)) (readSize rb) := by
    split <;> omega
  have hlt : wrap (len * rb.elementSize) < 2 ^ 64 := Nat.mod_lt _ (by decide)
  unfold ringBufferRead
  simp only [if_neg (by omega : ¬ len ≤ 0), hmin]
  rw [rawRead_spec hwf dst (by omega)]

/-- The non-blocking read on a well-formed buffer, in closed form, for a request
whose byte count is representable. -/
theorem ringBufferRead_spec {rb : s_ringBuffer} (hwf : WF rb) (dst : Mem) {len : Nat}
    (hlen : 1 ≤ len) (hno : len * rb.elementSize < 2 ^ 64) :
    ringBufferRead rb (some dst) len
      = some (min (len * rb.elementSize) (readSize rb) / rb.elementSize,
          { rb with tailIndex :=
              (rb.tailIndex + min (len * rb.elementSize) (readSize rb)) % rb.buffSize },
          some (getBytes rb.buffSize rb.tailIndex rb.p_buffer dst 0
            (min (len * rb.elementSize) (readSize rb)))) := by
  have h := ringBufferRead_spec_wrap hwf dst hlen
  rw [wrap_of_lt hno] at h
  exact h

/-! ## Claims on the stored bytes, on the non-blocking read and on the data kept
by a failed resize -/

/-- C7: after a non-blocking write of `n = len * elementSize` bytes at head index
`h`, every storage position `p` below the capacity holds `src[i]` for the largest
`i < n` with `(h + i) mod buffSize = p` and is unchanged when there is no such
`i`; a write of at most `buffSize` bytes that crosses the end of the storage
continues at position 0, and when `n ≥ buffSize` every position holds one of the
last `buffSize` source bytes. -/
theorem ringBufferWrite_storage (rb : s_ringBuffer) (src : Mem) (len : Nat)
    (hwf : WF rb) (hlen : 1 ≤ len) (hno : len * rb.elementSize < 2 ^ 64) :
    ∃ rb1, ringBufferWrite rb (some src) len = some (len, rb1) ∧
      (∀ p, p < rb.buffSize →
        (∀ i, i < len * rb.elementSize → (rb.headIndex + i) % rb.buffSize = p →
          (∀ j, i < j → j < len * rb.elementSize → (rb.headIndex + j) % rb.buffSize ≠ p) →
          rb1.p_buffer p = src i) ∧
        ((∀ i, i < len * rb.elementSize → (rb.headIndex + i) % rb.buffSize ≠ p) →
          rb1.p_buffer p = rb.p_buffer p)) ∧
      (rb.buffSize < rb.headIndex + len * rb.elementSize → len * rb.elementSize ≤ rb.buffSize →
        rb1.p_buffer 0 = src (rb.buffSize - rb.headIndex)) ∧
      (rb.buffSize ≤ len * rb.elementSize → ∀ p, p < rb.buffSize →
        ∃ i, len * rb.elementSize - rb.buffSize ≤ i ∧ i < len * rb.elementSize ∧
          (rb.headIndex + i) % rb.buffSize = p ∧ rb1.p_buffer p = src i) := by
  have hb := hwf.lt_pow
  have hh := hwf.head
  refine ⟨_, ringBufferWrite_spec hwf src hlen hno, ?_, ?_, ?_⟩
  · intro p _
    exact ⟨fun i hi hp hlast => putBytes_last _ _ _ _ _ _ i hi hp hlast,
      fun hno => putBytes_untouched _ _ _ _ _ _ hno⟩
  · intro hcross hsmall
    have h0 : (rb.headIndex + (rb.buffSize - rb.headIndex)) % rb.buffSize = 0 := by
      have : rb.headIndex + (rb.buffSize - rb.headIndex) = rb.buffSize := by omega
      rw [this]; exact Nat.mod_self _
    apply putBytes_last _ _ _ _ _ _ (rb.buffSize - rb.headIndex) (by omega) h0
    intro j h1 h2
    rw [← h0]
    have e : rb.headIndex + j = rb.headIndex + (rb.buffSize - rb.headIndex)
        + (j - (rb.buffSize - rb.headIndex)) := by omega
    rw [e]
    exact mod_add_ne (by omega) (by omega)
  · intro hbig p hp
    have hd : (p + rb.buffSize
        - (rb.headIndex + (len * rb.elementSize - rb.buffSize)) % rb.buffSize) % rb.buffSize
        < rb.buffSize := Nat.mod_lt _ (by omega)
    have hr : (rb.headIndex + (len * rb.elementSize - rb.buffSize)) % rb.buffSize
        < rb.buffSize := Nat.mod_lt _ (by omega)
    have hpos : (rb.headIndex + (len * rb.elementSize - rb.buffSize + (p + rb.buffSize
        - (rb.headIndex + (len * rb.elementSize - rb.buffSize)) % rb.buffSize) % rb.buffSize))
        % rb.buffSize = p := by
      rw [← Nat.add_assoc, ← Nat.mod_add_mod, Nat.add_mod_mod]
      have e : (rb.headIndex + (len * rb.elementSize - rb.buffSize)) % rb.buffSize
          + (p + rb.buffSize
            - (rb.headIndex + (len * rb.elementSize - rb.buffSize)) % rb.buffSize)
          = p + rb.buffSize := by omega
      rw [e, Nat.add_mod_right]
      exact Nat.mod_eq_of_lt hp
    refine ⟨_, Nat.le_add_right _ _, by omega, hpos, ?_⟩
    apply putBytes_last _ _ _ _ _ _ _ (by omega) hpos
    intro j h1 h2
    rw [← hpos]
    have e : rb.headIndex + j = rb.headIndex + (len * rb.elementSize - rb.buffSize + (p
        + rb.buffSize - (rb.headIndex + (len * rb.elementSize - rb.buffSize)) % rb.buffSize)
          % rb.buffSize) + (j - (len * rb.elementSize - rb.buffSize + (p + rb.buffSize
        - (rb.headIndex + (len * rb.elementSize - rb.buffSize)) % rb.buffSize)
          % rb.buffSize)) := by omega
    rw [e]
    exact mod_add_ne (by omega) (by omega)

/-- Witness of C7: twenty bytes written into a buffer of sixteen bytes holding five. -/
theorem ringBufferWrite_storage_witness :
    (WF halfFull ∧ 1 ≤ 20 ∧ 20 * halfFull.elementSize < 2 ^ 64) ∧
    ∃ rb1, ringBufferWrite halfFull (some counting) 20 = some (20, rb1) ∧
      (∀ p, p < halfFull.buffSize →
        (∀ i, i < 20 * halfFull.elementSize → (halfFull.headIndex + i) % halfFull.buffSize = p →
          (∀ j, i < j → j < 20 * halfFull.elementSize →
            (halfFull.headIndex + j) % halfFull.buffSize ≠ p) →
          rb1.p_buffer p = counting i) ∧
        ((∀ i, i < 20 * halfFull.elementSize →
            (halfFull.headIndex + i) % halfFull.buffSize ≠ p) →
          rb1.p_buffer p = halfFull.p_buffer p)) ∧
      (halfFull.buffSize < halfFull.headIndex + 20 * halfFull.elementSize →
        20 * halfFull.elementSize ≤ halfFull.buffSize →
        rb1.p_buffer 0 = counting (halfFull.buffSize - halfFull.headIndex)) ∧
      (halfFull.buffSize ≤ 20 * halfFull.elementSize → ∀ p, p < halfFull.buffSize →
        ∃ i, 20 * halfFull.elementSize - halfFull.buffSize ≤ i ∧
          i < 20 * halfFull.elementSize ∧
          (halfFull.headIndex + i) % halfFull.buffSize = p ∧ rb1.p_buffer p = counting i) :=
  ⟨⟨halfFull_reachable.wf, by decide, by decide⟩,
    ringBufferWrite_storage halfFull counting 20 halfFull_reachable.wf (by decide) (by decide)⟩

/-- The non-blocking read in every well-formed state, with `len * elementSize`
the product as the code computes it: it transfers
`k = min (len * elementSize) (readSize)` bytes, `dst[i] = storage[(tailIndex + i)
mod buffSize]` for `i < k`, the tail index becomes `(tailIndex + k) mod buffSize`,
head index and storage are unchanged, the result is `k / elementSize`, at most
`len` and at most the number of elements present; on an empty buffer it returns
0, leaves the destination alone and, when the tail index is below the capacity,
changes nothing. -/
theorem ringBufferRead_transfers (rb : s_ringBuffer) (dst : Mem) (len : Nat)
    (hwf : WF rb) (hlen : 1 ≤ len) :
    ∃ rb1 dst1, ringBufferRead rb (some dst) len
        = some (min (wrap (len * rb.elementSize)) (readSize rb) / rb.elementSize,
            rb1, some dst1) ∧
      (∀ i, i < min (wrap (len * rb.elementSize)) (readSize rb) →
        dst1 i = rb.p_buffer ((rb.tailIndex + i) % rb.buffSize)) ∧
      rb1.tailIndex
        = (rb.tailIndex + min (wrap (len * rb.elementSize)) (readSize rb)) % rb.buffSize ∧
      rb1.headIndex = rb.headIndex ∧ rb1.p_buffer = rb.p_buffer ∧
      min (wrap (len * rb.elementSize)) (readSize rb) / rb.elementSize ≤ len ∧
      min (wrap (len * rb.elementSize)) (readSize rb) / rb.elementSize
        ≤ getRingBufferReadSize rb ∧
      (readSize rb = 0 →
        min (wrap (len * rb.elementSize)) (readSize rb) / rb.elementSize = 0 ∧ dst1 = dst ∧
        (rb.tailIndex < rb.buffSize → rb1 = rb)) := by
  have he := hwf.elem
  refine ⟨_, _, ringBufferRead_spec_wrap hwf dst hlen, ?_, rfl, rfl, rfl, ?_, ?_, ?_⟩
  · intro i hi
    simp only [getBytes]
    rw [if_pos (by omega), Nat.sub_zero]
  · apply Nat.div_le_of_le_mul
    rw [Nat.mul_comm]
    exact le_trans (Nat.min_le_left _ _) (Nat.mod_le _ _)
  · exact Nat.div_le_div_right (Nat.min_le_right _ _)
  · intro hempty
    rw [hempty, Nat.min_zero, Nat.zero_div]
    refine ⟨rfl, ?_, ?_⟩
    · funext p
      simp [getBytes]
    · intro hlt
      simp only [Nat.add_zero, Nat.mod_eq_of_lt hlt]

theorem shrunkEmpty_reachable : Reachable shrunkEmpty :=
  Reachable.step _ shrunkEmpty (.resize 1 1 (some zeros))
    (Reachable.step _ _ (.write (some counting) 2)
      (Reachable.step _ _ (.read (some zeros) 2)
        (Reachable.step _ _ (.write (some counting) 2)
          (Reachable.init 4 1 (some zeros) (fresh 4 1) rfl) rfl) rfl) rfl) rfl

/-- C8, the code at the failing input: after `initRingBuffer(4, 1)`, a write and a
read of two bytes, a second write of two bytes and `ringBufferResize(1, 1)`, the
buffer is empty with tail index 2 = capacity; a read of one element then returns
0 and moves the tail index to 0. -/
theorem empty_read_moves_tail :
    Reachable shrunkEmpty ∧ shrunkEmpty.buffSize = 2 ∧ shrunkEmpty.tailIndex = 2 ∧
      readSize shrunkEmpty = 0 ∧ ringBufferIsEmpty shrunkEmpty = 1 ∧
      ∃ rb1 dst1, ringBufferRead shrunkEmpty (some zeros) 1 = some (0, rb1, dst1) ∧
        rb1.tailIndex = 0 ∧ rb1.tailIndex ≠ shrunkEmpty.tailIndex :=
  ⟨shrunkEmpty_reachable, by decide, by decide, by decide, by decide,
    _, _, rfl, by decide, by decide⟩

/-- C10: when the allocation step of `ringBufferResize` fails, `buffSize`,
`indexMask`, `headIndex`, `tailIndex` and the storage are those of before the
call, so the byte capacity, the readable byte count and the unread contents are
unchanged, and a read that asks for at least the readable byte count delivers
exactly the bytes stored before the failed resize and leaves the buffer empty. -/
theorem failed_resize_keeps_data (rb : s_ringBuffer) (n e : Nat) (dst : Mem) (len : Nat)
    (hwf : WF rb) (hn : 1 ≤ n) (he : 1 ≤ e) (hprod : wrap (n * e) ≤ 2 ^ 63 - 1)
    (hlen : 1 ≤ len) (hdrain : readSize rb ≤ len * e) (hno : len * e < 2 ^ 64) :
    ∃ rb1, ringBufferResize rb n e none = some (0, rb1) ∧
      rb1.buffSize = rb.buffSize ∧ rb1.indexMask = rb.indexMask ∧
      rb1.headIndex = rb.headIndex ∧ rb1.tailIndex = rb.tailIndex ∧
      rb1.p_buffer = rb.p_buffer ∧
      getRingBufferByteSize rb1 = getRingBufferByteSize rb ∧
      getRingBufferReadByteSize rb1 = getRingBufferReadByteSize rb ∧
      contents rb1 = contents rb ∧
      ∃ r rb2 dst1, ringBufferRead rb1 (some dst) len = some (r, rb2, some dst1) ∧
        bytesOf dst1 (readSize rb) = contents rb ∧ readSize rb2 = 0 := by
  have hwf1 : WF { rb with elementSize := e, b_blocking := 1 } :=
    { cap := hwf.cap, mask := hwf.mask, head := hwf.head, tail := hwf.tail, elem := he }
  have hrs : readSize { rb with elementSize := e, b_blocking := 1 } = readSize rb := rfl
  have hmin : min (len * e) (readSize rb) = readSize rb := Nat.min_eq_right hdrain
  refine ⟨_, ringBufferResize_nomem hwf hn he hprod, rfl, rfl, rfl, rfl, rfl, rfl, rfl, rfl,
    _, _, _, ringBufferRead_spec hwf1 dst hlen hno, ?_, ?_⟩
  · show bytesOf (getBytes rb.buffSize rb.tailIndex rb.p_buffer dst 0
      (min (len * e) (readSize rb))) (readSize rb) = contents rb
    rw [hmin, (contents_after_read hwf dst (le_refl _)).2]
    apply List.take_of_length_le
    unfold contents
    rw [bytesOf_length]
  · show readSize { rb with
      elementSize := e, b_blocking := 1,
      tailIndex := (rb.tailIndex + min (len * e) (readSize rb)) % rb.buffSize } = 0
    have h := readSize_after_read hwf (le_refl (readSize rb))
    rw [hmin]
    rw [Nat.sub_self] at h
    exact h

/-- Witness of C10 on the buffer of sixteen bytes holding five. -/
theorem failed_resize_keeps_data_witness :
    (WF halfFull ∧ 1 ≤ 64 ∧ 1 ≤ 2 ∧ wrap (64 * 2) ≤ 2 ^ 63 - 1 ∧ 1 ≤ 3 ∧
      readSize halfFull ≤ 3 * 2 ∧ 3 * 2 < 2 ^ 64) ∧
    ∃ rb1, ringBufferResize halfFull 64 2 none = some (0, rb1) ∧
      rb1.buffSize = halfFull.buffSize ∧ rb1.indexMask = halfFull.indexMask ∧
      rb1.headIndex = halfFull.headIndex ∧ rb1.tailIndex = halfFull.tailIndex ∧
      rb1.p_buffer = halfFull.p_buffer ∧
      getRingBufferByteSize rb1 = getRingBufferByteSize halfFull ∧
      getRingBufferReadByteSize rb1 = getRingBufferReadByteSize halfFull ∧
      contents rb1 = contents halfFull ∧
      ∃ r rb2 dst1, ringBufferRead rb1 (some zeros) 3 = some (r, rb2, some dst1) ∧
        bytesOf dst1 (readSize halfFull) = contents halfFull ∧ readSize rb2 = 0 :=
  ⟨⟨halfFull_reachable.wf, by decide, by decide, by decide, by decide, by decide, by decide⟩,
    failed_resize_keeps_data halfFull 64 2 zeros 3 halfFull_reachable.wf
      (by decide) (by decide) (by decide) (by decide) (by decide) (by decide)⟩


/-! ## The ring buffer against the abstract byte queue -/

theorem contents_length (rb : s_ringBuffer) : (contents rb).length = readSize rb := by
  unfold contents
  rw [bytesOf_length]

/-- One non-blocking call whose write fits simulates the queue call. -/
theorem ringStep_simulates (rb : s_ringBuffer) (c : Cmd) (hwf : WF rb)
    (hdvd : rb.elementSize ∣ readSize rb) (hfit : fits rb [c] = true) :
    ∃ rb1, ringStep rb c = some (rb1, (queueStep rb.elementSize (contents rb) c).2) ∧
      contents rb1 = (queueStep rb.elementSize (contents rb) c).1 ∧ WF rb1 ∧
      rb1.elementSize = rb.elementSize ∧ rb1.elementSize ∣ readSize rb1 := by
  have hb := hwf.lt_pow
  have he := hwf.elem
  have hws := writeSize_eq hwf
  have hrs := readSize_lt hwf
  cases c with
  | write src len =>
    have hfit1 : len * rb.elementSize ≤ writeSize rb := by
      simp only [fits, Bool.and_eq_true, decide_eq_true_eq] at hfit
      exact hfit.1
    rcases Nat.eq_zero_or_pos len with h0 | hpos
    · subst h0
      refine ⟨rb, ?_, ?_, hwf, rfl, hdvd⟩
      · simp [ringStep, ringBufferWrite, queueStep]
      · simp [queueStep, bytesOf]
    · have hno : len * rb.elementSize < 2 ^ 64 := by omega
      refine ⟨{ rb with
        headIndex := (rb.headIndex + len * rb.elementSize) % rb.buffSize
        p_buffer := putBytes rb.buffSize rb.headIndex src (len * rb.elementSize) rb.p_buffer },
        ?_, ?_, ?_, rfl, ?_⟩
      · simp only [ringStep, ringBufferWrite_spec hwf src hpos hno, Option.map_some', queueStep]
      · exact contents_after_write hwf src hfit1
      · exact { cap := hwf.cap, mask := hwf.mask, tail := hwf.tail, elem := hwf.elem,
                head := Nat.mod_lt _ (by omega) }
      · show rb.elementSize ∣ readSize { rb with
          headIndex := (rb.headIndex + len * rb.elementSize) % rb.buffSize
          p_buffer := putBytes rb.buffSize rb.headIndex src (len * rb.elementSize) rb.p_buffer }
        rw [readSize_after_write hwf, Nat.mod_eq_of_lt (by omega)]
        exact Nat.dvd_add hdvd (Nat.dvd_mul_left _ _)
  | read dst len =>
    have hno : len * rb.elementSize < 2 ^ 64 := by
      simp only [fits, Bool.and_eq_true, decide_eq_true_eq] at hfit
      exact hfit.1
    rcases Nat.eq_zero_or_pos len with h0 | hpos
    · subst h0
      refine ⟨rb, ?_, ?_, hwf, rfl, hdvd⟩
      · simp [ringStep, ringBufferRead, queueStep, bytesOf]
      · simp [queueStep]
    · have hk : min (len * rb.elementSize) (readSize rb) ≤ readSize rb := Nat.min_le_right _ _
      have hkd : rb.elementSize ∣ min (len * rb.elementSize) (readSize rb) := by
        rcases Nat.le_total (len * rb.elementSize) (readSize rb) with h | h
        · rw [Nat.min_eq_left h]; exact Nat.dvd_mul_left _ _
        · rw [Nat.min_eq_right h]; exact hdvd
      have hc := contents_after_read hwf dst hk
      refine ⟨{ rb with tailIndex :=
        (rb.tailIndex + min (len * rb.elementSize) (readSize rb)) % rb.buffSize },
        ?_, ?_, ?_, rfl, ?_⟩
      · simp only [ringStep, ringBufferRead_spec hwf dst hpos hno, Option.map_some', queueStep,
          contents_length, Option.getD_some, Nat.div_mul_cancel hkd, hc.2]
      · simp only [queueStep, contents_length]
        exact hc.1
      · exact { cap := hwf.cap, mask := hwf.mask, head := hwf.head, elem := hwf.elem,
                tail := le_of_lt (Nat.mod_lt _ (by omega)) }
      · show rb.elementSize ∣ readSize { rb with tailIndex :=
          (rb.tailIndex + min (len * rb.elementSize) (readSize rb)) % rb.buffSize }
        rw [readSize_after_read hwf hk]
        exact Nat.dvd_sub' hdvd hkd

/-- A sequence of non-blocking calls whose writes fit simulates the queue. -/
theorem ringRun_simulates :
    ∀ (cs : List Cmd) (rb : s_ringBuffer), WF rb → rb.elementSize ∣ readSize rb →
      fits rb cs = true →
      ∃ rb1, ringRun rb cs = some (rb1, (queueRun rb.elementSize (contents rb) cs).2) ∧
        contents rb1 = (queueRun rb.elementSize (contents rb) cs).1 := by
  intro cs
  induction cs with
  | nil =>
    intro rb _ _ _
    exact ⟨rb, rfl, rfl⟩
  | cons c cs ih =>
    intro rb hwf hdvd hfit
    have hfit1 : fits rb [c] = true := by
      simp only [fits, Bool.and_eq_true] at hfit ⊢
      refine ⟨hfit.1, ?_⟩
      split <;> rfl
    obtain ⟨rb1, h1, h2, h3, h4, h5⟩ := ringStep_simulates rb c hwf hdvd hfit1
    have hfit2 : fits rb1 cs = true := by
      simp only [fits, Bool.and_eq_true, h1] at hfit
      exact hfit.2
    obtain ⟨rb2, k1, k2⟩ := ih rb1 h3 h5 hfit2
    rw [h4, h2] at k1 k2
    refine ⟨rb2, ?_, ?_⟩
    · simp only [ringRun, h1, k1, Option.map_some', queueRun]
    · simp only [queueRun]
      exact k2

/-- The queue hands out, in order, the bytes it was given. -/
theorem queueRun_conserves (e : Nat) :
    ∀ (cs : List Cmd) (q : List Nat),
      delivered (queueRun e q cs).2 ++ (queueRun e q cs).1 = q ++ written e cs := by
  intro cs
  induction cs with
  | nil => intro q; simp [queueRun, delivered, written]
  | cons c cs ih =>
    intro q
    cases c with
    | write src len =>
      have h := ih (q ++ bytesOf src (len * e))
      simp only [queueRun, queueStep, delivered, written, List.map_cons, List.flatten_cons,
        List.nil_append] at h ⊢
      rw [h, List.append_assoc]
    | read dst len =>
      have h := ih (q.drop (min (len * e) q.length))
      simp only [queueRun, queueStep, delivered, written, List.map_cons, List.flatten_cons]
        at h ⊢
      rw [List.append_assoc, h, ← List.append_assoc, List.take_append_drop]

theorem fresh_start {n e : Nat} {heap : Option Mem} {rb : s_ringBuffer}
    (h : initRingBuffer n e true heap = some (some rb)) :
    WF rb ∧ rb.elementSize = e ∧ readSize rb = 0 ∧ contents rb = [] := by
  obtain ⟨hwf, h1, h2, h3, _⟩ := initRingBuffer_wf h
  have hb := hwf.lt_pow
  have hr : readSize rb = 0 := by
    rw [readSize_eq hwf, h1, h2, Nat.zero_add, Nat.sub_zero]
    exact Nat.mod_self _
  refine ⟨hwf, h3, hr, ?_⟩
  unfold contents
  rw [hr]
  rfl

/-- C1: from a freshly initialised buffer, every sequence of non-blocking writes
and reads in which each write asks for at most `writeSize` bytes at the time of
its call (and each read for a byte count that `unsigned long int` can hold)
behaves as the abstract byte queue started empty: each call returns what
the queue call returns, a write appends its source bytes, a read of `len`
elements delivers the first `min (len * elementSize) (queue length)` bytes and
removes them, and at the end (hence after every call) the unread contents are
the queue and `readSize` is its length. -/
theorem fifo_refinement (n e : Nat) (heap : Option Mem) (rb : s_ringBuffer) (cs : List Cmd)
    (hinit : initRingBuffer n e true heap = some (some rb)) (hfits : fits rb cs = true) :
    ∃ rb1, ringRun rb cs = some (rb1, (queueRun e [] cs).2) ∧
      contents rb1 = (queueRun e [] cs).1 ∧
      readSize rb1 = ((queueRun e [] cs).1).length := by
  obtain ⟨hwf, h1, h2, h3⟩ := fresh_start hinit
  obtain ⟨rb1, k1, k2⟩ := ringRun_simulates cs rb hwf (by rw [h2]; exact Nat.dvd_zero _) hfits
  rw [h1, h3] at k1 k2
  exact ⟨rb1, k1, k2, by rw [← k2, contents_length]⟩

/-- Witness of C1: a write of three bytes, a read of two, a write of two, a read
of four, on a buffer of four bytes. -/
theorem fifo_refinement_witness :
    (initRingBuffer 4 1 true (some zeros) = some (some (fresh 4 1)) ∧
      fits (fresh 4 1) mixedCalls = true) ∧
    ∃ rb1, ringRun (fresh 4 1) mixedCalls = some (rb1, (queueRun 1 [] mixedCalls).2) ∧
      contents rb1 = (queueRun 1 [] mixedCalls).1 ∧
      readSize rb1 = ((queueRun 1 [] mixedCalls).1).length :=
  ⟨⟨rfl, by decide⟩, fifo_refinement 4 1 (some zeros) (fresh 4 1) mixedCalls rfl (by decide)⟩

/-- C2 as stated fails: on a buffer of four bytes, two writes of three bytes each
(each at most `capacity - 1` bytes) followed by a read of four bytes deliver
`5, 6`, which is no prefix of the bytes written, `1, 2, 3, 4, 5, 6`. -/
theorem roundtrip_overwritten :
    initRingBuffer 4 1 true (some zeros) = some (some (fresh 4 1)) ∧
      fitsCapacity (fresh 4 1) twoWrites = true ∧
      ∃ rb1 obs, ringRun (fresh 4 1) twoWrites = some (rb1, obs) ∧
        delivered obs = [5, 6] ∧ written 1 twoWrites = [1, 2, 3, 4, 5, 6] ∧
        ¬ delivered obs <+: written 1 twoWrites :=
  ⟨rfl, by decide, _, _, rfl, by decide, by decide, by decide⟩

/-- C2 amended: from a freshly initialised buffer, for every sequence of
non-blocking writes and reads in which each write asks for at most `writeSize`
bytes at the time of its call, the bytes delivered by the reads, concatenated,
are a prefix of the concatenation of the bytes written. -/
theorem roundtrip_when_writes_fit (n e : Nat) (heap : Option Mem) (rb : s_ringBuffer)
    (cs : List Cmd) (hinit : initRingBuffer n e true heap = some (some rb))
    (hfits : fits rb cs = true) :
    ∃ rb1 obs, ringRun rb cs = some (rb1, obs) ∧ delivered obs <+: written e cs := by
  obtain ⟨hwf, h1, h2, h3⟩ := fresh_start hinit
  obtain ⟨rb1, k1, _⟩ := ringRun_simulates cs rb hwf (by rw [h2]; exact Nat.dvd_zero _) hfits
  rw [h1, h3] at k1
  refine ⟨rb1, _, k1, (queueRun e [] cs).1, ?_⟩
  rw [queueRun_conserves e cs [], List.nil_append]

/-- Witness of the amended C2 on a buffer of four bytes. -/
theorem roundtrip_when_writes_fit_witness :
    (initRingBuffer 4 1 true (some zeros) = some (some (fresh 4 1)) ∧
      fits (fresh 4 1) mixedCalls = true) ∧
    ∃ rb1 obs, ringRun (fresh 4 1) mixedCalls = some (rb1, obs) ∧
      delivered obs <+: written 1 mixedCalls :=
  ⟨⟨rfl, by decide⟩,
    roundtrip_when_writes_fit 4 1 (some zeros) (fresh 4 1) mixedCalls rfl (by decide)⟩


/-! ## Claims on the guards of the allocation and on a successful resize -/

/-- The size guard of `allocateBuffer` refuses every product that exceeds
`2 ^ 63 - 1` and is representable in `unsigned long int`. -/
theorem allocateBuffer_refuses_large (rb : s_ringBuffer) (n e : Nat) (heap : Option Mem)
    (hrep : n * e < 2 ^ 64) (hbig : 2 ^ 63 - 1 < n * e) :
    allocateBuffer rb n e heap = some (PROC_FAIL, rb) :=
  allocateBuffer_refused rb n e heap (Or.inr (Or.inr (by rw [wrap_of_lt hrep]; exact hbig)))

/-- C11, the code at the failing input: for `requestedElements = 2 ^ 63` and
`elementSize = 2` the product exceeds `2 ^ 63 - 1`, yet `allocateBuffer` succeeds,
`initRingBuffer` produces a buffer of capacity 2 and `ringBufferResize` returns 1,
because the guard tests the product reduced modulo `2 ^ 64`, which is 0. -/
theorem wrapped_product_accepted :
    2 ^ 63 - 1 < 2 ^ 63 * 2 ∧ wrap (2 ^ 63 * 2) = 0 ∧
    (∃ rb1, allocateBuffer zeroed (2 ^ 63) 2 (some zeros) = some (PROC_SUCC, rb1)) ∧
    (∃ rb1, initRingBuffer (2 ^ 63) 2 true (some zeros) = some (some rb1) ∧
      rb1.buffSize = 2 ∧ rb1.elementSize = 2) ∧
    (∃ rb1, ringBufferResize halfFull (2 ^ 63) 2 (some zeros) = some (1, rb1) ∧
      rb1.buffSize = 2) :=
  ⟨by decide, by decide, ⟨_, rfl⟩, ⟨_, rfl, by decide, by decide⟩, ⟨_, rfl, by decide⟩⟩

/-- C12: `allocateBuffer` fails whenever `elementSize = 0` or
`requestedElements = 0`, whatever the allocator would do: `initRingBuffer` then
yields no buffer, and `ringBufferResize` returns 0 and leaves the buffer object,
storage included, as it was. -/
theorem zero_size_refused (rb : s_ringBuffer) (requestedElements elementSize : Nat)
    (objAlloc : Bool) (heap : Option Mem)
    (h : elementSize = 0 ∨ requestedElements = 0) :
    allocateBuffer rb requestedElements elementSize heap = some (PROC_FAIL, rb) ∧
    initRingBuffer requestedElements elementSize objAlloc heap = some none ∧
    ringBufferResize rb requestedElements elementSize heap = some (0, rb) := by
  have hg : elementSize = 0 ∨ requestedElements = 0
      ∨ 2 ^ 63 - 1 < wrap (requestedElements * elementSize) := by
    rcases h with h | h
    · exact Or.inl h
    · exact Or.inr (Or.inl h)
  refine ⟨allocateBuffer_refused rb _ _ heap hg, ?_, ?_⟩
  · unfold initRingBuffer
    cases objAlloc with
    | false => rfl
    | true =>
      rw [allocateBuffer_refused zeroed _ _ heap hg]
      rfl
  · unfold ringBufferResize
    rw [allocateBuffer_refused rb _ _ heap hg]
    rfl

/-- Witness of C12: zero elements of one byte on the buffer of sixteen bytes
holding five. -/
theorem zero_size_refused_witness :
    ((1 : Nat) = 0 ∨ (0 : Nat) = 0) ∧
    (allocateBuffer halfFull 0 1 (some zeros) = some (PROC_FAIL, halfFull) ∧
    initRingBuffer 0 1 true (some zeros) = some none ∧
    ringBufferResize halfFull 0 1 (some zeros) = some (0, halfFull)) :=
  ⟨Or.inr rfl, zero_size_refused halfFull 0 1 true (some zeros) (Or.inr rfl)⟩

/-- C13: a resize that passes the guards and whose `realloc` succeeds gives a
new byte capacity `C'`, a power of two, stores the new element size `e'`, moves
the head index to `min (old headIndex) (C' - 1)` and the tail index to
`min (old tailIndex) C'`, sets `b_blocking = 1` and returns `C' / e'`. -/
theorem resize_success_clamps (rb : s_ringBuffer) (n e : Nat) (heapBytes : Mem)
    (hn : 1 ≤ n) (he : 1 ≤ e) (hprod : wrap (n * e) ≤ 2 ^ 63 - 1) :
    ∃ rb1, ringBufferResize rb n e (some heapBytes)
        = some (rb1.buffSize / rb1.elementSize, rb1) ∧
      (∃ k, 1 ≤ k ∧ rb1.buffSize = 2 ^ k) ∧ rb1.elementSize = e ∧
      rb1.headIndex = min rb.headIndex (rb1.buffSize - 1) ∧
      rb1.tailIndex = min rb.tailIndex rb1.buffSize ∧
      rb1.b_blocking = 1 := by
  obtain ⟨k, k1, k2, _, _, k5⟩ := allocateBuffer_ok rb n e heapBytes hn he hprod
  have hpow : (2 : Nat) ^ k ≤ 2 ^ 63 := Nat.pow_le_pow_right (by decide) k2
  have hpos : 1 ≤ (2 : Nat) ^ k := Nat.one_le_two_pow
  have hsub : usub (2 ^ k) 1 = 2 ^ k - 1 := usub_of_le hpos (by omega)
  refine ⟨{ rb with
      buffSize := 2 ^ k
      indexMask := 2 ^ k - 1
      elementSize := e
      b_blocking := 1
      p_buffer := fun i => if i < min rb.buffSize (2 ^ k) then rb.p_buffer i else heapBytes i
      headIndex := min rb.headIndex (2 ^ k - 1)
      tailIndex := min rb.tailIndex (2 ^ k) }, ?_, ⟨k, k1, rfl⟩, rfl, rfl, rfl, rfl⟩
  unfold ringBufferResize
  rw [k5]
  simp only [PROC_SUCC, one_ne_zero, if_false, hsub, getRingBufferSize]
  by_cases c1 : rb.headIndex ≥ 2 ^ k <;> by_cases c2 : rb.tailIndex > 2 ^ k
  · simp only [c1, c2, if_true]
    rw [Nat.min_eq_right (by omega : 2 ^ k - 1 ≤ rb.headIndex),
      Nat.min_eq_right (by omega : 2 ^ k ≤ rb.tailIndex)]
  · simp only [c1, c2, if_true, if_false]
    rw [Nat.min_eq_right (by omega : 2 ^ k - 1 ≤ rb.headIndex),
      Nat.min_eq_left (by omega : rb.tailIndex ≤ 2 ^ k)]
  · simp only [c1, c2, if_true, if_false]
    rw [Nat.min_eq_left (by omega : rb.headIndex ≤ 2 ^ k - 1),
      Nat.min_eq_right (by omega : 2 ^ k ≤ rb.tailIndex)]
  · simp only [c1, c2, if_false]
    rw [Nat.min_eq_left (by omega : rb.headIndex ≤ 2 ^ k - 1),
      Nat.min_eq_left (by omega : rb.tailIndex ≤ 2 ^ k)]

/-- Witness of C13: the buffer of eight bytes with both indices at 5 resized to
two elements of one byte. -/
theorem resize_success_clamps_witness :
    (1 ≤ 2 ∧ 1 ≤ 1 ∧ wrap (2 * 1) ≤ 2 ^ 63 - 1) ∧
    ∃ rb1, ringBufferResize
        (after (after (fresh 8 1) (.write (some counting) 5)) (.read (some zeros) 5)) 2 1
        (some zeros) = some (rb1.buffSize / rb1.elementSize, rb1) ∧
      (∃ k, 1 ≤ k ∧ rb1.buffSize = 2 ^ k) ∧ rb1.elementSize = 1 ∧
      rb1.headIndex = min
        (after (after (fresh 8 1) (.write (some counting) 5)) (.read (some zeros) 5)).headIndex
        (rb1.buffSize - 1) ∧
      rb1.tailIndex = min
        (after (after (fresh 8 1) (.write (some counting) 5)) (.read (some zeros) 5)).tailIndex
        rb1.buffSize ∧
      rb1.b_blocking = 1 :=
  ⟨by decide, resize_success_clamps _ 2 1 zeros (by decide) (by decide) (by decide)⟩


/-! ## Claims on the entry checks of the transfer calls and on the state queries -/

/-- C16: when `b_blocking` is 0 at entry, a blocking write (resp. read) returns
what `ringBufferWrite` (resp. `ringBufferRead`) returns on the same arguments and
leaves the same buffer object and the same destination block, for every state,
data pointer, length, timeout and list of waits. -/
theorem blocking_disabled_delegates (rb : s_ringBuffer) (buf : Option Mem) (len : Nat)
    (t : Option timespec) (waits : List WaitEvent) (h : rb.b_blocking = 0) :
    (ringBufferBlockingWrite rb buf len t waits).map (fun o => (o.ret, o.st.rb))
      = ringBufferWrite rb buf len ∧
    (ringBufferBlockingRead rb buf len t waits).map (fun o => (o.ret, o.st.rb))
      = (ringBufferRead rb buf len).map (fun r => (r.1, r.2.1)) ∧
    (∀ dst, buf = some dst →
      (ringBufferBlockingRead rb buf len t waits).map (fun o => o.st.buf)
        = (ringBufferRead rb buf len).map (fun r => r.2.2.getD dst)) := by
  cases buf with
  | none =>
    refine ⟨rfl, rfl, ?_⟩
    intro dst hd
    exact absurd hd (by simp)
  | some b =>
    by_cases hl : len ≤ 0
    · refine ⟨?_, ?_, ?_⟩
      · simp [ringBufferBlockingWrite, ringBufferWrite, hl, enter]
      · simp [ringBufferBlockingRead, ringBufferRead, hl, enter]
      · intro dst hd
        simp only [Option.some.injEq] at hd
        subst hd
        simp [ringBufferBlockingRead, ringBufferRead, hl, enter]
    · refine ⟨?_, ?_, ?_⟩
      · simp only [ringBufferBlockingWrite, hl, if_false, h, if_true, fallbackWrite, enter]
        cases ringBufferWrite rb (some b) len with
        | none => rfl
        | some r => rfl
      · simp only [ringBufferBlockingRead, hl, if_false, h, if_true, fallbackRead, enter]
        cases ringBufferRead rb (some b) len with
        | none => rfl
        | some r => rfl
      · intro dst hd
        simp only [Option.some.injEq] at hd
        subst hd
        simp only [ringBufferBlockingRead, hl, if_false, h, if_true, fallbackRead, enter]
        cases ringBufferRead rb (some b) len with
        | none => rfl
        | some r => rfl

theorem ended_blocking_flag : ended.b_blocking = 0 := by decide

/-- Witness of C16 on the buffer whose blocking was ended. -/
theorem blocking_disabled_delegates_witness :
    ended.b_blocking = 0 ∧
    ((ringBufferBlockingWrite ended (some counting) 3 none []).map (fun o => (o.ret, o.st.rb))
      = ringBufferWrite ended (some counting) 3 ∧
    (ringBufferBlockingRead ended (some counting) 3 none []).map (fun o => (o.ret, o.st.rb))
      = (ringBufferRead ended (some counting) 3).map (fun r => (r.1, r.2.1)) ∧
    (∀ dst, some counting = some dst →
      (ringBufferBlockingRead ended (some counting) 3 none []).map (fun o => o.st.buf)
        = (ringBufferRead ended (some counting) 3).map (fun r => r.2.2.getD dst))) :=
  ⟨ended_blocking_flag,
    blocking_disabled_delegates ended (some counting) 3 none [] ended_blocking_flag⟩

/-- C19: each of the four transfer calls returns 0 and leaves the buffer object,
storage included, and the caller's block as they were when the data pointer is
`NULL` or `len = 0`, whatever the blocking flag, the timeout and the waits. -/
theorem null_or_empty_request (rb : s_ringBuffer) (buf : Option Mem) (len : Nat)
    (t : Option timespec) (waits : List WaitEvent) (h : buf = none ∨ len = 0) :
    ringBufferWrite rb buf len = some (0, rb) ∧
    ringBufferRead rb buf len = some (0, rb, buf) ∧
    (∃ out, ringBufferBlockingWrite rb buf len t waits = some out ∧
      out.ret = 0 ∧ out.st.rb = rb) ∧
    (∃ out, ringBufferBlockingRead rb buf len t waits = some out ∧
      out.ret = 0 ∧ out.st.rb = rb ∧ ∀ dst, buf = some dst → out.st.buf = dst) := by
  cases buf with
  | none =>
    refine ⟨rfl, rfl, ⟨_, rfl, rfl, rfl⟩, ⟨_, rfl, rfl, rfl, ?_⟩⟩
    intro dst hd
    exact absurd hd (by simp)
  | some b =>
    have hl : len = 0 := by
      rcases h with h | h
      · exact absurd h (by simp)
      · exact h
    subst hl
    refine ⟨rfl, rfl, ⟨_, rfl, rfl, rfl⟩, ⟨_, rfl, rfl, rfl, ?_⟩⟩
    intro dst hd
    simp only [Option.some.injEq] at hd
    exact hd

/-- Witness of C19: a request of no element on the buffer of sixteen bytes
holding five. -/
theorem null_or_empty_request_witness :
    (some counting = none ∨ (0 : Nat) = 0) ∧
    (ringBufferWrite halfFull (some counting) 0 = some (0, halfFull) ∧
    ringBufferRead halfFull (some counting) 0 = some (0, halfFull, some counting) ∧
    (∃ out, ringBufferBlockingWrite halfFull (some counting) 0 none [] = some out ∧
      out.ret = 0 ∧ out.st.rb = halfFull) ∧
    (∃ out, ringBufferBlockingRead halfFull (some counting) 0 none [] = some out ∧
      out.ret = 0 ∧ out.st.rb = halfFull ∧
      ∀ dst, some counting = some dst → out.st.buf = dst)) :=
  ⟨Or.inr rfl, null_or_empty_request halfFull (some counting) 0 none [] (Or.inr rfl)⟩

/-- What the two tests compute in a well-formed state: whether fewer bytes than
one element are occupied, resp. free; for element size 1 this is `readSize = 0`,
resp. `writeSize = 0`. -/
theorem isEmpty_isFull_spec (rb : s_ringBuffer) (hwf : WF rb) :
    (ringBufferIsEmpty rb = 1 ↔ readSize rb < rb.elementSize) ∧
    (ringBufferIsFull rb = 1 ↔ writeSize rb < rb.elementSize) ∧
    (rb.elementSize = 1 →
      (ringBufferIsEmpty rb = 1 ↔ readSize rb = 0) ∧
      (ringBufferIsFull rb = 1 ↔ writeSize rb = 0)) := by
  have he := hwf.elem
  have h1 : ringBufferIsEmpty rb = 1 ↔ readSize rb < rb.elementSize := by
    have hd := Nat.div_eq_zero_iff (show 0 < rb.elementSize by omega) (a := readSize rb)
    unfold ringBufferIsEmpty getRingBufferReadSize
    by_cases c : readSize rb / rb.elementSize = 0
    · rw [if_pos c]; exact ⟨fun _ => hd.mp c, fun _ => rfl⟩
    · rw [if_neg c]; exact ⟨fun hx => absurd hx (by decide), fun hx => absurd (hd.mpr hx) c⟩
  have h2 : ringBufferIsFull rb = 1 ↔ writeSize rb < rb.elementSize := by
    have hd := Nat.div_eq_zero_iff (show 0 < rb.elementSize by omega) (a := writeSize rb)
    unfold ringBufferIsFull getRingBufferWriteSize
    by_cases c : writeSize rb / rb.elementSize = 0
    · rw [if_pos c]; exact ⟨fun _ => hd.mp c, fun _ => rfl⟩
    · rw [if_neg c]; exact ⟨fun hx => absurd hx (by decide), fun hx => absurd (hd.mpr hx) c⟩
  refine ⟨h1, h2, ?_⟩
  intro h
  rw [h1, h2, h]
  constructor <;> omega

theorem nearlyFull_reachable : Reachable nearlyFull :=
  Reachable.step (fresh 4 2) nearlyFull (.write (some counting) 3)
    (Reachable.init 4 2 (some zeros) (fresh 4 2) rfl) rfl

theorem oddByte_reachable : Reachable oddByte :=
  Reachable.step _ oddByte (.resize 4 2 (some zeros))
    (Reachable.step _ _ (.write (some counting) 1)
      (Reachable.init 8 1 (some zeros) (fresh 8 1) rfl) rfl) rfl

/-- C20, the code at the failing inputs: after `initRingBuffer(4, 2)` and a write
of three elements, one byte is free (head index 6, tail index 0, capacity 8) and
`ringBufferIsFull` returns 1; after `initRingBuffer(8, 1)`, a write of one byte
and `ringBufferResize(4, 2)`, one byte is occupied (head index 1, tail index 0)
and `ringBufferIsEmpty` returns 1. -/
theorem full_and_empty_count_elements :
    Reachable nearlyFull ∧ nearlyFull.elementSize = 2 ∧ nearlyFull.buffSize = 8 ∧
      nearlyFull.headIndex = 6 ∧ nearlyFull.tailIndex = 0 ∧ writeSize nearlyFull = 1 ∧
      ringBufferIsFull nearlyFull = 1 ∧
    Reachable oddByte ∧ oddByte.elementSize = 2 ∧ oddByte.headIndex = 1 ∧
      oddByte.tailIndex = 0 ∧ readSize oddByte = 1 ∧ ringBufferIsEmpty oddByte = 1 :=
  ⟨nearlyFull_reachable, by decide, by decide, by decide, by decide, by decide, by decide,
    oddByte_reachable, by decide, by decide, by decide, by decide, by decide⟩


/-! ## Claims on the blocking calls -/

/-- C14, the code at the failing inputs. A blocking write of five bytes into an
empty buffer of four bytes transfers a chunk of three bytes, waits, and is woken
after another thread ended blocking: the fallback writes the two remaining
elements (the head index has moved by five bytes) and the call returns 2, not
2 + 3. A blocking read of five bytes from a buffer holding three delivers the
three bytes, waits, is woken the same way, and returns the fallback's 0, not
0 + 3. -/
theorem fallback_result_drops_earlier_chunks :
    (∃ out, ringBufferBlockingWrite (fresh 4 1) (some counting) 5 none [wokenByEnd] = some out ∧
      out.ret = 2 ∧ (fresh 4 1).headIndex = 0 ∧ out.st.rb.headIndex = (0 + 5) % 4 ∧
      out.st.lock = ⟨false, false⟩) ∧
    (∃ out, ringBufferBlockingRead threeIn (some zeros) 5 none [wokenByEnd] = some out ∧
      out.ret = 0 ∧ bytesOf out.st.buf 3 = [1, 2, 3] ∧ threeIn.tailIndex = 0 ∧
      out.st.rb.tailIndex = 3 ∧ out.st.lock = ⟨false, false⟩) :=
  ⟨⟨_, rfl, by decide, by decide, by decide, by decide⟩,
    ⟨_, rfl, by decide, by decide, by decide, by decide, by decide⟩⟩


theorem checkContinueBlocking_timeout (cs : CallState) (ev : WaitEvent) (henv : ev.env = [])
    (hto : ev.woken = false) :
    ∃ cs1, checkContinueBlocking cs ev = some (STOP_BLOCKING, cs1) ∧ cs1.rb = cs.rb ∧
      cs1.buf = cs.buf := by
  unfold checkContinueBlocking
  cases cs.timeToWait with
  | none =>
    simp only [condWait, henv, envRun, hto]
    exact ⟨_, rfl, rfl, rfl⟩
  | some t =>
    cases ev.clock with
    | none => exact ⟨_, rfl, rfl, rfl⟩
    | some now =>
      simp only [condWait, henv, envRun, hto]
      exact ⟨_, rfl, rfl, rfl⟩

theorem writeWait_fits (len totalWrote writeLen : Nat) (waits : List WaitEvent) (cs : CallState)
    (h : writeLen ≤ writeSize cs.rb) :
    writeWait len totalWrote writeLen waits cs = some (.proceed cs waits) := by
  cases waits with
  | nil => unfold writeWait; rw [if_neg (by omega)]
  | cons ev rest => unfold writeWait; rw [if_neg (by omega)]

theorem readWait_fits (len totalRead readLen : Nat) (waits : List WaitEvent) (cs : CallState)
    (h : readLen ≤ readSize cs.rb) :
    readWait len totalRead readLen waits cs = some (.proceed cs waits) := by
  cases waits with
  | nil => unfold readWait; rw [if_neg (by omega)]
  | cons ev rest => unfold readWait; rw [if_neg (by omega)]

theorem writeWait_timeout (len totalWrote writeLen : Nat) (ev : WaitEvent)
    (rest : List WaitEvent) (cs : CallState) (henv : ev.env = []) (hto : ev.woken = false)
    (hb : cs.rb.b_blocking ≠ 0) (hgt : writeLen > writeSize cs.rb) :
    ∃ cs1, writeWait len totalWrote writeLen (ev :: rest) cs
        = some (.done ⟨totalWrote / cs.rb.elementSize, cs1⟩) ∧ cs1.rb = cs.rb ∧
      cs1.buf = cs.buf := by
  obtain ⟨cs1, h1, h2, h3⟩ := checkContinueBlocking_timeout cs ev henv hto
  refine ⟨cs1, ?_, h2, h3⟩
  unfold writeWait
  rw [if_pos hgt, h1]
  simp only [STOP_BLOCKING, if_true, h2]
  rw [if_neg hb, if_neg (by omega)]

/-- C15 as stated fails: element size 1, capacity 16, five bytes occupied; a
blocking write of twelve bytes whose wait times out with no other thread active
returns 0 and leaves the buffer as it was, not the ten elements that were free. -/
theorem backpressure_returns_nothing :
    halfFull.elementSize = 1 ∧ halfFull.buffSize = 16 ∧ readSize halfFull = 5 ∧
      writeSize halfFull = 10 ∧ halfFull.b_blocking = 1 ∧
      ∃ out, ringBufferBlockingWrite halfFull (some counting) 12 (some ⟨0, 100000000⟩)
          [timedOut] = some out ∧
        out.ret = 0 ∧ out.ret ≠ 10 ∧ out.st.rb.headIndex = halfFull.headIndex ∧
        readSize out.st.rb = 5 :=
  ⟨by decide, by decide, by decide, by decide, by decide, _, rfl, by decide, by decide,
    by decide, by decide⟩

/-- C15 amended: a blocking write with blocking enabled that asks for more bytes
than the free space, and whose wait times out with no other thread active and
blocking still enabled, returns the elements of the chunks it wrote in full
before the wait: nothing (and the buffer is unchanged) when the buffer held
unread bytes at entry, and the free space `writeSize / elementSize` when the
buffer was empty at entry. -/
theorem backpressure_counts_full_chunks (rb : s_ringBuffer) (src : Mem) (len : Nat)
    (t : Option timespec) (ev : WaitEvent) (rest : List WaitEvent)
    (hwf : WF rb) (hb : rb.b_blocking ≠ 0) (hlen : 1 ≤ len)
    (hno : len * rb.elementSize < 2 ^ 64) (hreq : writeSize rb < len * rb.elementSize)
    (henv : ev.env = []) (hto : ev.woken = false) :
    ∃ out, ringBufferBlockingWrite rb (some src) len t (ev :: rest) = some out ∧
      (readSize rb ≠ 0 → out.ret = 0 ∧ out.st.rb = rb) ∧
      (readSize rb = 0 → out.ret = writeSize rb / rb.elementSize ∧
        readSize out.st.rb = writeSize rb) := by
  have hbs := hwf.lt_pow
  have hws := writeSize_eq hwf
  have hrs := readSize_lt hwf
  have hsub : usub rb.buffSize 1 = rb.buffSize - 1 := usub_of_le (by omega) (by omega)
  unfold ringBufferBlockingWrite
  simp only [if_neg (by omega : ¬ len ≤ 0), if_neg hb, wrap_of_lt hno]
  unfold blockingWriteLoop
  simp only [getRingBufferByteSize, enter, hsub]
  by_cases hempty : readSize rb = 0
  · -- the first chunk of `buffSize - 1` bytes fits, the second one waits
    have hge : len * rb.elementSize ≥ rb.buffSize := by omega
    rw [if_pos hge, writeWait_fits _ _ _ _ _ (by show rb.buffSize - 1 ≤ writeSize rb; omega)]
    simp only [ptrAdd_zero]
    rw [rawWrite_spec hwf src (by omega : rb.buffSize - 1 < 2 ^ 64)]
    simp only [Nat.zero_add]
    rw [wrap_of_lt (by omega : rb.buffSize - 1 < 2 ^ 64),
      usub_of_le (by omega : rb.buffSize - 1 ≤ len * rb.elementSize) hno,
      if_pos (by omega : len * rb.elementSize - (rb.buffSize - 1) > 0)]
    have hwf2 : WF { rb with
        headIndex := (rb.headIndex + (rb.buffSize - 1)) % rb.buffSize
        p_buffer := putBytes rb.buffSize rb.headIndex src (rb.buffSize - 1) rb.p_buffer } :=
      { cap := hwf.cap, mask := hwf.mask, tail := hwf.tail, elem := hwf.elem,
        head := Nat.mod_lt _ (by omega) }
    have hrs2 := readSize_after_write hwf (rb.buffSize - 1)
      (putBytes rb.buffSize rb.headIndex src (rb.buffSize - 1) rb.p_buffer)
    rw [hempty, Nat.zero_add, Nat.mod_eq_of_lt (by omega : rb.buffSize - 1 < rb.buffSize)]
      at hrs2
    have hws2 : writeSize { rb with
        headIndex := (rb.headIndex + (rb.buffSize - 1)) % rb.buffSize
        p_buffer := putBytes rb.buffSize rb.headIndex src (rb.buffSize - 1) rb.p_buffer }
        = 0 := by
      rw [writeSize_eq hwf2, hrs2]
      show rb.buffSize - 1 - (rb.buffSize - 1) = 0
      omega
    obtain ⟨m, hm⟩ : ∃ m, len * rb.elementSize = m + 1 := ⟨len * rb.elementSize - 1, by omega⟩
    rw [hm]
    unfold blockingWriteLoop
    simp only [getRingBufferByteSize, hsub]
    obtain ⟨cs1, k1, k2, k3⟩ := writeWait_timeout (m + 1 - (rb.buffSize - 1)) (rb.buffSize - 1)
      (if m + 1 - (rb.buffSize - 1) ≥ rb.buffSize then rb.buffSize - 1
        else m + 1 - (rb.buffSize - 1)) ev rest
      { rb := { rb with
          headIndex := (rb.headIndex + (rb.buffSize - 1)) % rb.buffSize
          p_buffer := putBytes rb.buffSize rb.headIndex src (rb.buffSize - 1) rb.p_buffer },
        buf := src, timeToWait := t, lock := pthread_mutex_lock ⟨false, false⟩,
        deadlines := [] } henv hto hb (by
          show _ > writeSize { rb with
            headIndex := (rb.headIndex + (rb.buffSize - 1)) % rb.buffSize
            p_buffer := putBytes rb.buffSize rb.headIndex src (rb.buffSize - 1) rb.p_buffer }
          rw [hws2]
          split <;> omega)
    rw [k1]
    refine ⟨_, rfl, fun hne => absurd hempty hne, fun _ => ⟨?_, ?_⟩⟩
    · show (rb.buffSize - 1) / rb.elementSize = writeSize rb / rb.elementSize
      rw [hws, hempty, Nat.sub_zero]
    · show readSize cs1.rb = writeSize rb
      rw [k2, hrs2, hws, hempty, Nat.sub_zero]
  · -- the first chunk does not fit
    obtain ⟨cs1, k1, k2, k3⟩ := writeWait_timeout (len * rb.elementSize) 0
      (if len * rb.elementSize ≥ rb.buffSize then rb.buffSize - 1 else len * rb.elementSize)
      ev rest
      { rb := rb, buf := src, timeToWait := t, lock := pthread_mutex_lock ⟨false, false⟩,
        deadlines := [] } henv hto hb (by
          show _ > writeSize rb
          split <;> omega)
    rw [k1]
    refine ⟨_, rfl, fun _ => ⟨?_, k2⟩, fun he => absurd he hempty⟩
    show 0 / rb.elementSize = 0
    exact Nat.zero_div _

/-- Witness of the amended C15 on the buffer of sixteen bytes holding five. -/
theorem backpressure_counts_full_chunks_witness :
    (WF halfFull ∧ halfFull.b_blocking ≠ 0 ∧ 1 ≤ 12 ∧ 12 * halfFull.elementSize < 2 ^ 64 ∧
      writeSize halfFull < 12 * halfFull.elementSize ∧ timedOut.env = [] ∧
      timedOut.woken = false) ∧
    ∃ out, ringBufferBlockingWrite halfFull (some counting) 12 none (timedOut :: []) = some out ∧
      (readSize halfFull ≠ 0 → out.ret = 0 ∧ out.st.rb = halfFull) ∧
      (readSize halfFull = 0 → out.ret = writeSize halfFull / halfFull.elementSize ∧
        readSize out.st.rb = writeSize halfFull) :=
  ⟨⟨halfFull_reachable.wf, by decide, by decide, by decide, by decide, rfl, rfl⟩,
    backpressure_counts_full_chunks halfFull counting 12 none timedOut [] halfFull_reachable.wf
      (by decide) (by decide) (by decide) (by decide) rfl rfl⟩


/-! ## The chunks of a blocking call -/

/-- The traced loop returns what the loop of the blocking write returns. -/
theorem blockingWriteTraced_fst :
    ∀ (fuel len totalWrote : Nat) (cs : CallState) (waits : List WaitEvent),
      (blockingWriteTraced fuel len totalWrote cs waits).1
        = blockingWriteLoop fuel len totalWrote cs waits := by
  intro fuel
  induction fuel with
  | zero => intro len t cs waits; rfl
  | succ fuel ih =>
    intro len t cs waits
    unfold blockingWriteTraced blockingWriteLoop
    dsimp only
    split
    · rfl
    · rfl
    · split
      · rfl
      · split
        · exact ih _ _ _ _
        · rfl

/-- The traced loop returns what the loop of the blocking read returns. -/
theorem blockingReadTraced_fst :
    ∀ (fuel len totalRead : Nat) (cs : CallState) (waits : List WaitEvent),
      (blockingReadTraced fuel len totalRead cs waits).1
        = blockingReadLoop fuel len totalRead cs waits := by
  intro fuel
  induction fuel with
  | zero => intro len t cs waits; rfl
  | succ fuel ih =>
    intro len t cs waits
    unfold blockingReadTraced blockingReadLoop
    dsimp only
    split
    · rfl
    · rfl
    · split
      · rfl
      · split
        · exact ih _ _ _ _
        · rfl

/-- A blocking write and its traced loop. -/
theorem ringBufferBlockingWrite_traced (rb : s_ringBuffer) (src : Mem) (len : Nat)
    (t : Option timespec) (waits : List WaitEvent) (hlen : 1 ≤ len) (hb : rb.b_blocking ≠ 0) :
    ringBufferBlockingWrite rb (some src) len t waits
      = (blockingWriteTraced (wrap (len * rb.elementSize) + 1) (wrap (len * rb.elementSize)) 0
          (enterLocked rb src t) waits).1 := by
  rw [blockingWriteTraced_fst]
  unfold ringBufferBlockingWrite
  simp only [if_neg (by omega : ¬ len ≤ 0), if_neg hb]
  rfl

/-- A blocking read and its traced loop. -/
theorem ringBufferBlockingRead_traced (rb : s_ringBuffer) (dst : Mem) (len : Nat)
    (t : Option timespec) (waits : List WaitEvent) (hlen : 1 ≤ len) (hb : rb.b_blocking ≠ 0) :
    ringBufferBlockingRead rb (some dst) len t waits
      = (blockingReadTraced (wrap (len * rb.elementSize) + 1) (wrap (len * rb.elementSize)) 0
          (enterLocked rb dst t) waits).1 := by
  rw [blockingReadTraced_fst]
  unfold ringBufferBlockingRead
  simp only [if_neg (by omega : ¬ len ≤ 0), if_neg hb]
  rfl

theorem writeWait_proceed_fits (len totalWrote writeLen : Nat) :
    ∀ (waits : List WaitEvent) (cs cs1 : CallState) (rest : List WaitEvent),
      writeWait len totalWrote writeLen waits cs = some (.proceed cs1 rest) →
      writeLen ≤ writeSize cs1.rb := by
  intro waits
  induction waits with
  | nil =>
    intro cs cs1 rest h
    unfold writeWait at h
    split_ifs at h with c
    simp only [Option.some.injEq, Waited.proceed.injEq] at h
    rw [← h.1]; omega
  | cons ev more ih =>
    intro cs cs1 rest h
    unfold writeWait at h
    split_ifs at h with c
    · split at h
      · exact absurd h (by simp)
      · next code cs2 heq =>
        split_ifs at h with c2 c3 c4
        · simp only [Option.map_eq_some'] at h
          obtain ⟨out, _, h2⟩ := h
          exact absurd h2 (by simp)
        · simp only [Option.some.injEq, Waited.proceed.injEq] at h
          rw [← h.1]; exact c4
        · simp at h
        · exact ih cs2 cs1 rest h
    · simp only [Option.some.injEq, Waited.proceed.injEq] at h
      rw [← h.1]; omega

theorem readWait_proceed_fits (len totalRead readLen : Nat) :
    ∀ (waits : List WaitEvent) (cs cs1 : CallState) (rest : List WaitEvent),
      readWait len totalRead readLen waits cs = some (.proceed cs1 rest) →
      readLen ≤ readSize cs1.rb := by
  intro waits
  induction waits with
  | nil =>
    intro cs cs1 rest h
    unfold readWait at h
    split_ifs at h with c
    simp only [Option.some.injEq, Waited.proceed.injEq] at h
    rw [← h.1]; omega
  | cons ev more ih =>
    intro cs cs1 rest h
    unfold readWait at h
    split_ifs at h with c
    · split at h
      · exact absurd h (by simp)
      · next code cs2 heq =>
        split_ifs at h with c2 c3 c4
        · simp only [Option.map_eq_some'] at h
          obtain ⟨out, _, h2⟩ := h
          exact absurd h2 (by simp)
        · simp only [Option.some.injEq, Waited.proceed.injEq] at h
          rw [← h.1]; exact c4
        · simp at h
        · exact ih cs2 cs1 rest h
    · simp only [Option.some.injEq, Waited.proceed.injEq] at h
      rw [← h.1]; omega


theorem chunk_size_eq_min {rb : s_ringBuffer} (hwf : WF rb) (len : Nat) :
    (if len ≥ getRingBufferByteSize rb then usub (getRingBufferByteSize rb) 1 else len)
      = min len (rb.buffSize - 1) := by
  have hb := hwf.lt_pow
  unfold getRingBufferByteSize
  rw [usub_of_le (by omega) (by omega)]
  split <;> omega

theorem writeChunk_ok {rb : s_ringBuffer} (hwf : WF rb) {size : Nat}
    (h : size ≤ writeSize rb) (s : Mem) :
    ∃ rb2, rawWrite rb s size = some (size, rb2) ∧ readSize rb2 = readSize rb + size ∧
      contents rb2 = contents rb ++ bytesOf s size := by
  have hb := hwf.lt_pow
  have hws := writeSize_eq hwf
  have hrs := readSize_lt hwf
  refine ⟨_, rawWrite_spec hwf s (by omega), ?_, contents_after_write hwf s h⟩
  rw [readSize_after_write hwf]
  exact Nat.mod_eq_of_lt (by omega)

/-- Every chunk of the loop of a blocking write started on a well-formed buffer
is as the specification asks. -/
theorem blockingWriteTraced_chunks :
    ∀ (fuel len totalWrote : Nat) (cs : CallState) (waits : List WaitEvent), WF cs.rb →
      ∀ c, c ∈ (blockingWriteTraced fuel len totalWrote cs waits).2 → WriteChunkOk c := by
  intro fuel
  induction fuel with
  | zero =>
    intro len t cs waits _ c hc
    simp [blockingWriteTraced] at hc
  | succ fuel ih =>
    intro len t cs waits hwf c hc
    unfold blockingWriteTraced at hc
    dsimp only at hc
    generalize hW : (if len ≥ getRingBufferByteSize cs.rb
      then usub (getRingBufferByteSize cs.rb) 1 else len) = chunkLen at hc
    have hmin : chunkLen = min len (cs.rb.buffSize - 1) := by
      rw [← hW]; exact chunk_size_eq_min hwf len
    split at hc
    · simp at hc
    · simp at hc
    · next cs1 rest heq =>
      have hwf1 : WF cs1.rb := writeWait_wf _ _ _ _ _ _ hwf heq
      have hfit := writeWait_proceed_fits _ _ _ _ _ _ _ heq
      have hok : WriteChunkOk ⟨len, getRingBufferByteSize cs.rb, chunkLen, t, cs1.rb⟩ :=
        ⟨hmin, hfit, fun s => writeChunk_ok hwf1 hfit s⟩
      split at hc
      · simp only [List.mem_singleton] at hc
        rw [hc]; exact hok
      · next wrote rb2 heq2 =>
        have hwf2 : WF rb2 := rawWrite_wf (r := (wrote, rb2)) hwf1 heq2
        split_ifs at hc
        · simp only [List.mem_cons] at hc
          rcases hc with hc | hc
          · rw [hc]; exact hok
          · exact ih _ _ _ _ hwf2 c hc
        · simp only [List.mem_singleton] at hc
          rw [hc]; exact hok

/-- Every chunk of the loop of a blocking read started on a well-formed buffer is
as the specification asks. -/
theorem blockingReadTraced_chunks :
    ∀ (fuel len totalRead : Nat) (cs : CallState) (waits : List WaitEvent), WF cs.rb →
      ∀ c, c ∈ (blockingReadTraced fuel len totalRead cs waits).2 → ReadChunkOk c := by
  intro fuel
  induction fuel with
  | zero =>
    intro len t cs waits _ c hc
    simp [blockingReadTraced] at hc
  | succ fuel ih =>
    intro len t cs waits hwf c hc
    unfold blockingReadTraced at hc
    dsimp only at hc
    generalize hW : (if len ≥ getRingBufferByteSize cs.rb
      then usub (getRingBufferByteSize cs.rb) 1 else len) = chunkLen at hc
    have hmin : chunkLen = min len (cs.rb.buffSize - 1) := by
      rw [← hW]; exact chunk_size_eq_min hwf len
    split at hc
    · simp at hc
    · simp at hc
    · next cs1 rest heq =>
      have hwf1 : WF cs1.rb := readWait_wf _ _ _ _ _ _ hwf heq
      have hfit := readWait_proceed_fits _ _ _ _ _ _ _ heq
      have hok : ReadChunkOk ⟨len, getRingBufferByteSize cs.rb, chunkLen, t, cs1.rb⟩ :=
        ⟨hmin, hfit⟩
      split at hc
      · simp only [List.mem_singleton] at hc
        rw [hc]; exact hok
      · next read rb2 view heq2 =>
        have hwf2 : WF rb2 := rawRead_wf (r := (read, rb2, view)) hwf1 heq2
        split_ifs at hc
        · simp only [List.mem_cons] at hc
          rcases hc with hc | hc
          · rw [hc]; exact hok
          · exact ih _ _ _ _ hwf2 c hc
        · simp only [List.mem_singleton] at hc
          rw [hc]; exact hok

/-- C18: in a blocking write entered on a well-formed buffer with blocking
enabled, the call is its chunk loop, and each chunk the loop hands to `rawWrite`
has length `min (remaining bytes) (buffSize - 1)` and is at most `writeSize` at
the moment of the transfer, so that the transfer adds the chunk length to the
occupied byte count and appends the chunk to the unread contents without
touching them; each chunk of a blocking read is at most `readSize`. -/
theorem blocking_chunks_fit (rb : s_ringBuffer) (buf : Mem) (len : Nat)
    (t : Option timespec) (waits : List WaitEvent) (hwf : WF rb) (hlen : 1 ≤ len)
    (hb : rb.b_blocking ≠ 0) :
    (ringBufferBlockingWrite rb (some buf) len t waits
        = (blockingWriteTraced (wrap (len * rb.elementSize) + 1) (wrap (len * rb.elementSize))
            0 (enterLocked rb buf t) waits).1 ∧
      ∀ c, c ∈ writeChunks rb buf len t waits → WriteChunkOk c) ∧
    (ringBufferBlockingRead rb (some buf) len t waits
        = (blockingReadTraced (wrap (len * rb.elementSize) + 1) (wrap (len * rb.elementSize))
            0 (enterLocked rb buf t) waits).1 ∧
      ∀ c, c ∈ readChunks rb buf len t waits → ReadChunkOk c) :=
  ⟨⟨ringBufferBlockingWrite_traced rb buf len t waits hlen hb,
      blockingWriteTraced_chunks _ _ _ _ _ hwf⟩,
    ⟨ringBufferBlockingRead_traced rb buf len t waits hlen hb,
      blockingReadTraced_chunks _ _ _ _ _ hwf⟩⟩


/-- Witness of C18: a blocking write of five bytes into an empty buffer of four
bytes, woken by a reader, hands over chunks of three and two bytes; a blocking
read of five bytes from a buffer holding three, woken by a writer, likewise. -/
theorem blocking_chunks_fit_witness :
    (WF (fresh 4 1) ∧ 1 ≤ 5 ∧ (fresh 4 1).b_blocking ≠ 0) ∧
    ((writeChunks (fresh 4 1) counting 5 none [readerWakes]).map Chunk.size = [3, 2] ∧
      (readChunks threeIn zeros 5 none [writerWakes]).map Chunk.size = [3, 2]) ∧
    ((ringBufferBlockingWrite (fresh 4 1) (some counting) 5 none [readerWakes]
        = (blockingWriteTraced (wrap (5 * (fresh 4 1).elementSize) + 1)
            (wrap (5 * (fresh 4 1).elementSize)) 0 (enterLocked (fresh 4 1) counting none)
            [readerWakes]).1 ∧
      ∀ c, c ∈ writeChunks (fresh 4 1) counting 5 none [readerWakes] → WriteChunkOk c) ∧
    (ringBufferBlockingRead (fresh 4 1) (some counting) 5 none [readerWakes]
        = (blockingReadTraced (wrap (5 * (fresh 4 1).elementSize) + 1)
            (wrap (5 * (fresh 4 1).elementSize)) 0 (enterLocked (fresh 4 1) counting none)
            [readerWakes]).1 ∧
      ∀ c, c ∈ readChunks (fresh 4 1) counting 5 none [readerWakes] → ReadChunkOk c)) :=
  ⟨⟨(Reachable.init 4 1 (some zeros) (fresh 4 1) rfl).wf, by decide, by decide⟩,
    ⟨by decide, by decide⟩,
    blocking_chunks_fit (fresh 4 1) counting 5 none [readerWakes]
      (Reachable.init 4 1 (some zeros) (fresh 4 1) rfl).wf (by decide) (by decide)⟩

/-! ## Blocking calls whose waits return normally -/

theorem Keeps.refl (rb : s_ringBuffer) : Keeps rb rb := ⟨rfl, fun h => h⟩

theorem Keeps.trans {a b c : s_ringBuffer} (h1 : Keeps a b) (h2 : Keeps b c) : Keeps a c :=
  ⟨h2.1.trans h1.1, fun h => h2.2 (h1.2 h)⟩

theorem rawWriteLoop_keeps (src : Mem) :
    ∀ (fuel len t : Nat) (rb : s_ringBuffer) (r : Nat × s_ringBuffer),
      rawWriteLoop fuel rb src len t = some r → Keeps rb r.2 := by
  intro fuel
  induction fuel with
  | zero => intro len t rb r h; simp [rawWriteLoop] at h
  | succ fuel ih =>
    intro len t rb r h
    unfold rawWriteLoop at h
    dsimp only at h
    generalize (if len < usub rb.buffSize rb.headIndex then len
      else usub rb.buffSize rb.headIndex) = w at h
    split at h
    · have h1 := ih _ _ _ r h
      exact ⟨h1.1, h1.2⟩
    · simp only [Option.some.injEq] at h
      rw [← h]
      exact ⟨rfl, fun hb => hb⟩

theorem rawReadLoop_keeps :
    ∀ (fuel len t : Nat) (rb : s_ringBuffer) (dst : Mem) (r : Nat × s_ringBuffer × Mem),
      rawReadLoop fuel rb dst len t = some r → Keeps rb r.2.1 := by
  intro fuel
  induction fuel with
  | zero => intro len t rb dst r h; simp [rawReadLoop] at h
  | succ fuel ih =>
    intro len t rb dst r h
    unfold rawReadLoop at h
    dsimp only at h
    generalize (if len < usub rb.buffSize rb.tailIndex then len
      else usub rb.buffSize rb.tailIndex) = w at h
    split at h
    · have h1 := ih _ _ _ _ r h
      exact ⟨h1.1, h1.2⟩
    · simp only [Option.some.injEq] at h
      rw [← h]
      exact ⟨rfl, fun hb => hb⟩

theorem ringBufferWrite_keeps {rb : s_ringBuffer} {src : Option Mem} {len : Nat}
    {r : Nat × s_ringBuffer} (h : ringBufferWrite rb src len = some r) : Keeps rb r.2 := by
  unfold ringBufferWrite at h
  split at h
  · simp only [Option.some.injEq] at h; rw [← h]; exact Keeps.refl rb
  · split at h
    · simp only [Option.some.injEq] at h; rw [← h]; exact Keeps.refl rb
    · split at h
      · exact absurd h (by simp)
      · next tw rb1 heq =>
        simp only [Option.some.injEq] at h
        rw [← h]
        exact rawWriteLoop_keeps _ _ _ _ _ (tw, rb1) heq

theorem ringBufferRead_keeps {rb : s_ringBuffer} {dst : Option Mem} {len : Nat}
    {r : Nat × s_ringBuffer × Option Mem} (h : ringBufferRead rb dst len = some r) :
    Keeps rb r.2.1 := by
  unfold ringBufferRead at h
  split at h
  · simp only [Option.some.injEq] at h; rw [← h]; exact Keeps.refl rb
  · split at h
    · simp only [Option.some.injEq] at h; rw [← h]; exact Keeps.refl rb
    · dsimp only at h
      split at h
      · exact absurd h (by simp)
      · next tr rb1 dst1 heq =>
        simp only [Option.some.injEq] at h
        rw [← h]
        exact rawReadLoop_keeps _ _ _ _ _ (tr, rb1, dst1) heq

theorem envStep_keeps {rb rb1 : s_ringBuffer} {op : EnvOp} (hq : op.quiet = true)
    (h : envStep rb op = some rb1) : Keeps rb rb1 := by
  cases op with
  | write src len =>
    simp only [envStep, Option.map_eq_some'] at h
    obtain ⟨r, h1, h2⟩ := h
    rw [← h2]; exact ringBufferWrite_keeps h1
  | read dst len =>
    simp only [envStep, Option.map_eq_some'] at h
    obtain ⟨r, h1, h2⟩ := h
    rw [← h2]; exact ringBufferRead_keeps h1
  | reset =>
    simp only [envStep, Option.some.injEq] at h
    rw [← h]
    exact ⟨rfl, fun _ => by simp [ringBufferReset]⟩
  | endBlocking => simp [EnvOp.quiet] at hq
  | resize n e heap => simp [EnvOp.quiet] at hq
  | chunkWrite src n =>
    simp only [envStep, Option.map_eq_some'] at h
    obtain ⟨r, h1, h2⟩ := h
    rw [← h2]; exact rawWriteLoop_keeps _ _ _ _ _ r h1
  | chunkRead dst n =>
    simp only [envStep, Option.map_eq_some'] at h
    obtain ⟨r, h1, h2⟩ := h
    rw [← h2]; exact rawReadLoop_keeps _ _ _ _ _ r h1

theorem envRun_keeps : ∀ (ops : List EnvOp) (rb rb1 : s_ringBuffer),
    ops.all EnvOp.quiet = true → envRun rb ops = some rb1 → Keeps rb rb1 := by
  intro ops
  induction ops with
  | nil =>
    intro rb rb1 _ h
    simp only [envRun, Option.some.injEq] at h
    rw [← h]; exact Keeps.refl rb
  | cons op ops ih =>
    intro rb rb1 hq h
    simp only [List.all_cons, Bool.and_eq_true] at hq
    unfold envRun at h
    split at h
    · exact absurd h (by simp)
    · next rb2 heq => exact (envStep_keeps hq.1 heq).trans (ih rb2 rb1 hq.2 h)

/-- A wait that returns normally, with blocking enabled before it, makes
`checkContinueBlocking` return `CONT_BLOCKING`. -/
theorem checkContinueBlocking_normal {cs : CallState} {ev : WaitEvent} {r : Nat × CallState}
    (hn : ev.normal = true) (hb : cs.rb.b_blocking ≠ 0)
    (h : checkContinueBlocking cs ev = some r) :
    r.1 = CONT_BLOCKING ∧ Keeps cs.rb r.2.rb ∧ r.2.buf = cs.buf := by
  simp only [WaitEvent.normal, Bool.and_eq_true] at hn
  obtain ⟨⟨hclock, hquiet⟩, hwoken⟩ := hn
  obtain ⟨now, hnow⟩ := Option.isSome_iff_exists.mp hclock
  have key : ∀ (cs0 : CallState) (r0 : Nat × CallState), cs0.rb.b_blocking ≠ 0 →
      (match condWait cs0 ev with
        | none => none
        | some cs2 =>
          if !ev.woken then some (STOP_BLOCKING, cs2)
          else if cs2.rb.b_blocking = 0 then
            some (STOP_BLOCKING, { cs2 with lock := pthread_mutex_unlock cs2.lock })
          else some (CONT_BLOCKING, cs2)) = some r0 →
      r0.1 = CONT_BLOCKING ∧ Keeps cs0.rb r0.2.rb ∧ r0.2.buf = cs0.buf := by
    intro cs0 r0 hb0 h0
    unfold condWait at h0
    split at h0
    · exact absurd h0 (by simp)
    · next cs2 heq =>
      split at heq
      · exact absurd heq (by simp)
      · next rb1 hrun =>
        have hk := envRun_keeps _ _ _ hquiet hrun
        simp only [Option.some.injEq] at heq
        rw [← heq] at h0
        simp only [hwoken, Bool.not_true, Bool.false_eq_true, if_false, if_neg (hk.2 hb0),
          Option.some.injEq] at h0
        rw [← h0]
        exact ⟨rfl, hk, rfl⟩
  unfold checkContinueBlocking at h
  split at h
  · next t0 ht =>
    simp only [hnow] at h
    have h1 := key (CallState.mk cs.rb cs.buf
      (some ⟨t0.tv_sec + now.tv_sec, t0.tv_nsec + now.tv_usec * 1000⟩) cs.lock
      (cs.deadlines ++ [⟨t0.tv_sec + now.tv_sec, t0.tv_nsec + now.tv_usec * 1000⟩])) r hb h
    exact h1
  · exact key cs r hb h


theorem writeWait_normal (len totalWrote writeLen : Nat) :
    ∀ (waits : List WaitEvent) (cs : CallState) (w : Waited),
      (∀ ev, ev ∈ waits → ev.normal = true) → cs.rb.b_blocking ≠ 0 →
      writeWait len totalWrote writeLen waits cs = some w →
      ∃ cs1 rest, w = .proceed cs1 rest ∧ Keeps cs.rb cs1.rb ∧ cs1.buf = cs.buf ∧
        ∀ ev, ev ∈ rest → ev.normal = true := by
  intro waits
  induction waits with
  | nil =>
    intro cs w hn hb h
    unfold writeWait at h
    split_ifs at h
    simp only [Option.some.injEq] at h
    exact ⟨cs, [], h.symm, Keeps.refl _, rfl, hn⟩
  | cons ev more ih =>
    intro cs w hn hb h
    unfold writeWait at h
    split_ifs at h with c
    · split at h
      · exact absurd h (by simp)
      · next code cs2 heq =>
        obtain ⟨k1, k2, k3⟩ := checkContinueBlocking_normal (r := (code, cs2))
          (hn ev (List.mem_cons_self _ _)) hb heq
        simp only at k1 k2 k3
        rw [k1] at h
        simp only [CONT_BLOCKING, one_ne_zero, if_false] at h
        obtain ⟨cs1, rest, e1, e2, e3, e4⟩ :=
          ih cs2 w (fun e he => hn e (List.mem_cons_of_mem _ he)) (k2.2 hb) h
        exact ⟨cs1, rest, e1, k2.trans e2, e3.trans k3, e4⟩
    · simp only [Option.some.injEq] at h
      exact ⟨cs, ev :: more, h.symm, Keeps.refl _, rfl, hn⟩

theorem readWait_normal (len totalRead readLen : Nat) :
    ∀ (waits : List WaitEvent) (cs : CallState) (w : Waited),
      (∀ ev, ev ∈ waits → ev.normal = true) → cs.rb.b_blocking ≠ 0 →
      readWait len totalRead readLen waits cs = some w →
      ∃ cs1 rest, w = .proceed cs1 rest ∧ Keeps cs.rb cs1.rb ∧ cs1.buf = cs.buf ∧
        ∀ ev, ev ∈ rest → ev.normal = true := by
  intro waits
  induction waits with
  | nil =>
    intro cs w hn hb h
    unfold readWait at h
    split_ifs at h
    simp only [Option.some.injEq] at h
    exact ⟨cs, [], h.symm, Keeps.refl _, rfl, hn⟩
  | cons ev more ih =>
    intro cs w hn hb h
    unfold readWait at h
    split_ifs at h with c
    · split at h
      · exact absurd h (by simp)
      · next code cs2 heq =>
        obtain ⟨k1, k2, k3⟩ := checkContinueBlocking_normal (r := (code, cs2))
          (hn ev (List.mem_cons_self _ _)) hb heq
        simp only at k1 k2 k3
        rw [k1] at h
        simp only [CONT_BLOCKING, one_ne_zero, if_false] at h
        obtain ⟨cs1, rest, e1, e2, e3, e4⟩ :=
          ih cs2 w (fun e he => hn e (List.mem_cons_of_mem _ he)) (k2.2 hb) h
        exact ⟨cs1, rest, e1, k2.trans e2, e3.trans k3, e4⟩
    · simp only [Option.some.injEq] at h
      exact ⟨cs, ev :: more, h.symm, Keeps.refl _, rfl, hn⟩

/-- With waits that return normally, the loop of a blocking write returns the
bytes written so far plus the bytes requested, in elements. -/
theorem blockingWriteLoop_normal :
    ∀ (fuel len t : Nat) (cs : CallState) (waits : List WaitEvent) (out : BlockingOut),
      WF cs.rb → cs.rb.b_blocking ≠ 0 → (∀ ev, ev ∈ waits → ev.normal = true) →
      t + len < 2 ^ 64 → blockingWriteLoop fuel len t cs waits = some out →
      out.ret = (t + len) / cs.rb.elementSize := by
  intro fuel
  induction fuel with
  | zero => intro len t cs waits out _ _ _ _ h; simp [blockingWriteLoop] at h
  | succ fuel ih =>
    intro len t cs waits out hwf hb hn hlt h
    unfold blockingWriteLoop at h
    dsimp only at h
    generalize hW : (if len ≥ getRingBufferByteSize cs.rb
      then usub (getRingBufferByteSize cs.rb) 1 else len) = chunkLen at h
    have hmin : chunkLen = min len (cs.rb.buffSize - 1) := by
      rw [← hW]; exact chunk_size_eq_min hwf len
    cases hw : writeWait len t chunkLen waits cs with
    | none => rw [hw] at h; exact absurd h (by simp)
    | some w =>
      obtain ⟨cs1, rest, e1, e2, e3, e4⟩ := writeWait_normal _ _ _ _ _ _ hn hb hw
      subst e1
      rw [hw] at h
      have hwf1 : WF cs1.rb := writeWait_wf _ _ _ _ _ _ hwf hw
      have hfit := writeWait_proceed_fits _ _ _ _ _ _ _ hw
      have hws := writeSize_eq hwf1
      have hbs := hwf1.lt_pow
      have hspec := rawWrite_spec hwf1 (ptrAdd cs1.buf t) (by omega : chunkLen < 2 ^ 64)
      have hwf2 := rawWrite_wf hwf1 hspec
      simp only [hspec] at h
      rw [wrap_of_lt (by omega : t + chunkLen < 2 ^ 64),
        usub_of_le (by omega : chunkLen ≤ len) (by omega)] at h
      by_cases hpos : len - chunkLen > 0
      · rw [if_pos hpos] at h
        have h1 := ih (len - chunkLen) (t + chunkLen)
          (CallState.mk _ cs1.buf cs1.timeToWait cs1.lock cs1.deadlines) rest out hwf2
          (e2.2 hb) e4 (show t + chunkLen + (len - chunkLen) < 2 ^ 64 by omega) h
        rw [h1]
        show (t + chunkLen + (len - chunkLen)) / cs1.rb.elementSize = _
        have e5 : t + chunkLen + (len - chunkLen) = t + len := by omega
        rw [e2.1, e5]
      · rw [if_neg hpos] at h
        simp only [Option.some.injEq] at h
        rw [← h]
        show (t + chunkLen) / cs1.rb.elementSize = _
        have e5 : t + chunkLen = t + len := by omega
        rw [e2.1, e5]

/-- The fuel of the loop of a blocking write: when the loop comes to an end
with some amount of fuel, it does so with any amount above the byte count. -/
theorem blockingWriteLoop_fuel :
    ∀ (fuel len t : Nat) (cs : CallState) (waits : List WaitEvent) (out : BlockingOut),
      WF cs.rb → len < 2 ^ 64 → blockingWriteLoop fuel len t cs waits = some out →
      ∀ fuel2, len < fuel2 → blockingWriteLoop fuel2 len t cs waits = some out := by
  intro fuel
  induction fuel with
  | zero => intro len t cs waits out _ _ h; simp [blockingWriteLoop] at h
  | succ fuel ih =>
    intro len t cs waits out hwf hlt h fuel2 hf
    obtain ⟨f2, rfl⟩ : ∃ f2, fuel2 = f2 + 1 := ⟨fuel2 - 1, by omega⟩
    unfold blockingWriteLoop at h ⊢
    dsimp only at h ⊢
    generalize hW : (if len ≥ getRingBufferByteSize cs.rb
      then usub (getRingBufferByteSize cs.rb) 1 else len) = chunkLen at h ⊢
    have hmin : chunkLen = min len (cs.rb.buffSize - 1) := by
      rw [← hW]; exact chunk_size_eq_min hwf len
    have hcb := hwf.lt_pow
    cases hw : writeWait len t chunkLen waits cs with
    | none => rw [hw] at h; exact absurd h (by simp)
    | some w =>
      rw [hw] at h
      cases w with
      | done o => exact h
      | proceed cs1 rest =>
        have hwf1 : WF cs1.rb := writeWait_wf _ _ _ _ _ _ hwf hw
        have hspec := rawWrite_spec hwf1 (ptrAdd cs1.buf t) (by omega : chunkLen < 2 ^ 64)
        have hwf2 := rawWrite_wf hwf1 hspec
        simp only [hspec] at h ⊢
        rw [usub_of_le (by omega : chunkLen ≤ len) (by omega)] at h ⊢
        by_cases hpos : len - chunkLen > 0
        · rw [if_pos hpos] at h ⊢
          exact ih (len - chunkLen) (wrap (t + chunkLen))
            (CallState.mk _ cs1.buf cs1.timeToWait cs1.lock cs1.deadlines) rest out hwf2
            (by omega) h f2 (by omega)
        · rw [if_neg hpos] at h ⊢
          exact h


/-- With waits that return normally, the loop of a blocking read returns the
bytes read so far plus the bytes requested, in elements. -/
theorem blockingReadLoop_normal :
    ∀ (fuel len t : Nat) (cs : CallState) (waits : List WaitEvent) (out : BlockingOut),
      WF cs.rb → cs.rb.b_blocking ≠ 0 → (∀ ev, ev ∈ waits → ev.normal = true) →
      t + len < 2 ^ 64 → blockingReadLoop fuel len t cs waits = some out →
      out.ret = (t + len) / cs.rb.elementSize := by
  intro fuel
  induction fuel with
  | zero => intro len t cs waits out _ _ _ _ h; simp [blockingReadLoop] at h
  | succ fuel ih =>
    intro len t cs waits out hwf hb hn hlt h
    unfold blockingReadLoop at h
    dsimp only at h
    generalize hW : (if len ≥ getRingBufferByteSize cs.rb
      then usub (getRingBufferByteSize cs.rb) 1 else len) = chunkLen at h
    have hmin : chunkLen = min len (cs.rb.buffSize - 1) := by
      rw [← hW]; exact chunk_size_eq_min hwf len
    cases hw : readWait len t chunkLen waits cs with
    | none => rw [hw] at h; exact absurd h (by simp)
    | some w =>
      obtain ⟨cs1, rest, e1, e2, e3, e4⟩ := readWait_normal _ _ _ _ _ _ hn hb hw
      subst e1
      rw [hw] at h
      have hwf1 : WF cs1.rb := readWait_wf _ _ _ _ _ _ hwf hw
      have hfit := readWait_proceed_fits _ _ _ _ _ _ _ hw
      have hrs := readSize_lt hwf1
      have hbs := hwf1.lt_pow
      have hspec := rawRead_spec hwf1 (ptrAdd cs1.buf t) (by omega : chunkLen < 2 ^ 64)
      have hwf2 := rawRead_wf hwf1 hspec
      simp only [hspec] at h
      rw [wrap_of_lt (by omega : t + chunkLen < 2 ^ 64),
        usub_of_le (by omega : chunkLen ≤ len) (by omega)] at h
      by_cases hpos : len - chunkLen > 0
      · rw [if_pos hpos] at h
        have h1 := ih (len - chunkLen) (t + chunkLen)
          (CallState.mk _ _ cs1.timeToWait cs1.lock cs1.deadlines) rest out hwf2
          (e2.2 hb) e4 (show t + chunkLen + (len - chunkLen) < 2 ^ 64 by omega) h
        rw [h1]
        show (t + chunkLen + (len - chunkLen)) / cs1.rb.elementSize = _
        have e5 : t + chunkLen + (len - chunkLen) = t + len := by omega
        rw [e2.1, e5]
      · rw [if_neg hpos] at h
        simp only [Option.some.injEq] at h
        rw [← h]
        show (t + chunkLen) / cs1.rb.elementSize = _
        have e5 : t + chunkLen = t + len := by omega
        rw [e2.1, e5]

/-- The fuel of the loop of a blocking read: when the loop comes to an end with
some amount of fuel, it does so with any amount above the byte count. -/
theorem blockingReadLoop_fuel :
    ∀ (fuel len t : Nat) (cs : CallState) (waits : List WaitEvent) (out : BlockingOut),
      WF cs.rb → len < 2 ^ 64 → blockingReadLoop fuel len t cs waits = some out →
      ∀ fuel2, len < fuel2 → blockingReadLoop fuel2 len t cs waits = some out := by
  intro fuel
  induction fuel with
  | zero => intro len t cs waits out _ _ h; simp [blockingReadLoop] at h
  | succ fuel ih =>
    intro len t cs waits out hwf hlt h fuel2 hf
    obtain ⟨f2, rfl⟩ : ∃ f2, fuel2 = f2 + 1 := ⟨fuel2 - 1, by omega⟩
    unfold blockingReadLoop at h ⊢
    dsimp only at h ⊢
    generalize hW : (if len ≥ getRingBufferByteSize cs.rb
      then usub (getRingBufferByteSize cs.rb) 1 else len) = chunkLen at h ⊢
    have hmin : chunkLen = min len (cs.rb.buffSize - 1) := by
      rw [← hW]; exact chunk_size_eq_min hwf len
    have hcb := hwf.lt_pow
    cases hw : readWait len t chunkLen waits cs with
    | none => rw [hw] at h; exact absurd h (by simp)
    | some w =>
      rw [hw] at h
      cases w with
      | done o => exact h
      | proceed cs1 rest =>
        have hwf1 : WF cs1.rb := readWait_wf _ _ _ _ _ _ hwf hw
        have hspec := rawRead_spec hwf1 (ptrAdd cs1.buf t) (by omega : chunkLen < 2 ^ 64)
        have hwf2 := rawRead_wf hwf1 hspec
        simp only [hspec] at h ⊢
        rw [usub_of_le (by omega : chunkLen ≤ len) (by omega)] at h ⊢
        by_cases hpos : len - chunkLen > 0
        · rw [if_pos hpos] at h ⊢
          exact ih (len - chunkLen) (wrap (t + chunkLen))
            (CallState.mk _ _ cs1.timeToWait cs1.lock cs1.deadlines) rest out hwf2
            (by omega) h f2 (by omega)
        · rw [if_neg hpos] at h ⊢
          exact h

theorem ptrStore_zero (m view : Mem) : ptrStore m 0 view = view := by
  funext p
  simp [ptrStore]

/-- A blocking write whose request fits the free space at entry. -/
theorem blockingWrite_fits_at_entry {rb : s_ringBuffer} (hwf : WF rb) (hb : rb.b_blocking ≠ 0)
    (src : Mem) {len : Nat} (hlen : 1 ≤ len) (hfit : len * rb.elementSize ≤ writeSize rb)
    (t : Option timespec) (waits : List WaitEvent) :
    ringBufferBlockingWrite rb (some src) len t waits = some ⟨len,
      { rb := { rb with
          headIndex := (rb.headIndex + len * rb.elementSize) % rb.buffSize
          p_buffer := putBytes rb.buffSize rb.headIndex src (len * rb.elementSize) rb.p_buffer },
        buf := src, timeToWait := t, lock := ⟨false, false⟩, deadlines := [] }⟩ := by
  have hbs := hwf.lt_pow
  have hws := writeSize_eq hwf
  have he := hwf.elem
  have hno : len * rb.elementSize < 2 ^ 64 := by omega
  have hsub : usub rb.buffSize 1 = rb.buffSize - 1 := usub_of_le (by omega) (by omega)
  unfold ringBufferBlockingWrite
  simp only [if_neg (by omega : ¬ len ≤ 0), if_neg hb, wrap_of_lt hno]
  unfold blockingWriteLoop
  simp only [getRingBufferByteSize, enter, hsub]
  rw [if_neg (by omega : ¬ len * rb.elementSize ≥ rb.buffSize),
    writeWait_fits _ _ _ _ _ (by show len * rb.elementSize ≤ writeSize rb; exact hfit)]
  simp only [ptrAdd_zero]
  rw [rawWrite_spec hwf src hno]
  simp only [Nat.zero_add]
  rw [wrap_of_lt hno, usub_of_le (le_refl _) hno, Nat.sub_self, if_neg (by omega),
    Nat.mul_div_cancel _ (by omega : 0 < rb.elementSize)]
  rfl

/-- A blocking read whose request fits the unread bytes at entry. -/
theorem blockingRead_fits_at_entry {rb : s_ringBuffer} (hwf : WF rb) (hb : rb.b_blocking ≠ 0)
    (dst : Mem) {len : Nat} (hlen : 1 ≤ len) (hfit : len * rb.elementSize ≤ readSize rb)
    (t : Option timespec) (waits : List WaitEvent) :
    ringBufferBlockingRead rb (some dst) len t waits = some ⟨len,
      { rb := { rb with
          tailIndex := (rb.tailIndex + len * rb.elementSize) % rb.buffSize },
        buf := getBytes rb.buffSize rb.tailIndex rb.p_buffer dst 0 (len * rb.elementSize),
        timeToWait := t, lock := ⟨false, false⟩, deadlines := [] }⟩ := by
  have hbs := hwf.lt_pow
  have hrs := readSize_lt hwf
  have he := hwf.elem
  have hno : len * rb.elementSize < 2 ^ 64 := by omega
  have hsub : usub rb.buffSize 1 = rb.buffSize - 1 := usub_of_le (by omega) (by omega)
  unfold ringBufferBlockingRead
  simp only [if_neg (by omega : ¬ len ≤ 0), if_neg hb, wrap_of_lt hno]
  unfold blockingReadLoop
  simp only [getRingBufferByteSize, enter, hsub]
  rw [if_neg (by omega : ¬ len * rb.elementSize ≥ rb.buffSize),
    readWait_fits _ _ _ _ _ (by show len * rb.elementSize ≤ readSize rb; exact hfit)]
  simp only [ptrAdd_zero]
  rw [rawRead_spec hwf dst hno]
  simp only [Nat.zero_add, ptrStore_zero]
  rw [wrap_of_lt hno, usub_of_le (le_refl _) hno, Nat.sub_self, if_neg (by omega),
    Nat.mul_div_cancel _ (by omega : 0 < rb.elementSize)]
  rfl

/-- C17: with blocking enabled at entry, when all waits return normally and the
chunk loop comes to its end (every chunk fits at once or after such waits), a
blocking write and a blocking read return exactly `len`; when the request fits
the free space (resp. the unread bytes) at entry the call returns without a
wait, with the result and the final state of the non-blocking call. -/
theorem blocking_full_success (rb : s_ringBuffer) (buf : Mem) (len : Nat)
    (t : Option timespec) (waits : List WaitEvent)
    (hwf : WF rb) (hb : rb.b_blocking ≠ 0) (hlen : 1 ≤ len)
    (hno : len * rb.elementSize < 2 ^ 64) :
    ((∀ ev, ev ∈ waits → ev.normal = true) →
      (∃ fuel out, blockingWriteLoop fuel (len * rb.elementSize) 0 (enterLocked rb buf t) waits
        = some out) →
      ∃ out, ringBufferBlockingWrite rb (some buf) len t waits = some out ∧ out.ret = len) ∧
    ((∀ ev, ev ∈ waits → ev.normal = true) →
      (∃ fuel out, blockingReadLoop fuel (len * rb.elementSize) 0 (enterLocked rb buf t) waits
        = some out) →
      ∃ out, ringBufferBlockingRead rb (some buf) len t waits = some out ∧ out.ret = len) ∧
    (len * rb.elementSize ≤ writeSize rb →
      ∃ out, ringBufferBlockingWrite rb (some buf) len t waits = some out ∧ out.ret = len ∧
        ringBufferWrite rb (some buf) len = some (out.ret, out.st.rb) ∧
        out.st.timeToWait = t ∧ out.st.deadlines = [] ∧ out.st.lock = ⟨false, false⟩) ∧
    (len * rb.elementSize ≤ readSize rb →
      ∃ out, ringBufferBlockingRead rb (some buf) len t waits = some out ∧ out.ret = len ∧
        ringBufferRead rb (some buf) len = some (out.ret, out.st.rb, some out.st.buf) ∧
        out.st.timeToWait = t ∧ out.st.deadlines = [] ∧ out.st.lock = ⟨false, false⟩) := by
  have he := hwf.elem
  have hblk : (enterLocked rb buf t).rb.b_blocking ≠ 0 := hb
  refine ⟨?_, ?_, ?_, ?_⟩
  · intro hn hend
    obtain ⟨fuel, out, hout⟩ := hend
    have h1 := blockingWriteLoop_fuel _ _ _ _ _ _ hwf hno hout (len * rb.elementSize + 1)
      (by omega)
    have h2 := blockingWriteLoop_normal _ _ _ _ _ _ hwf hblk hn (by omega) h1
    refine ⟨out, ?_, ?_⟩
    · unfold ringBufferBlockingWrite
      simp only [if_neg (by omega : ¬ len ≤ 0), if_neg hb, wrap_of_lt hno]
      exact h1
    · rw [h2, Nat.zero_add]
      exact Nat.mul_div_cancel _ (by omega)
  · intro hn hend
    obtain ⟨fuel, out, hout⟩ := hend
    have h1 := blockingReadLoop_fuel _ _ _ _ _ _ hwf hno hout (len * rb.elementSize + 1)
      (by omega)
    have h2 := blockingReadLoop_normal _ _ _ _ _ _ hwf hblk hn (by omega) h1
    refine ⟨out, ?_, ?_⟩
    · unfold ringBufferBlockingRead
      simp only [if_neg (by omega : ¬ len ≤ 0), if_neg hb, wrap_of_lt hno]
      exact h1
    · rw [h2, Nat.zero_add]
      exact Nat.mul_div_cancel _ (by omega)
  · intro hfit
    refine ⟨_, blockingWrite_fits_at_entry hwf hb buf hlen hfit t waits, rfl, ?_, rfl, rfl, rfl⟩
    exact ringBufferWrite_spec hwf buf hlen hno
  · intro hfit
    refine ⟨_, blockingRead_fits_at_entry hwf hb buf hlen hfit t waits, rfl, ?_, rfl, rfl, rfl⟩
    have h := ringBufferRead_spec hwf buf hlen hno
    rw [Nat.min_eq_left hfit, Nat.mul_div_cancel _ (by omega : 0 < rb.elementSize)] at h
    exact h


theorem fresh41_reachable : Reachable (fresh 4 1) :=
  Reachable.init 4 1 (some zeros) (fresh 4 1) rfl

theorem threeIn_reachable : Reachable threeIn :=
  Reachable.step (fresh 4 1) threeIn (.write (some counting) 3) fresh41_reachable rfl

theorem readerWakes_normal : ∀ ev, ev ∈ [readerWakes] → ev.normal = true := by
  intro ev hev
  simp only [List.mem_singleton] at hev
  rw [hev]
  rfl

theorem writerWakes_normal : ∀ ev, ev ∈ [writerWakes] → ev.normal = true := by
  intro ev hev
  simp only [List.mem_singleton] at hev
  rw [hev]
  rfl

/-- Witness of C17 on a buffer of four bytes: a blocking write of five bytes
woken by a reader and a blocking read of five bytes woken by a writer return 5;
a blocking write of three bytes into the empty buffer and a blocking read of
three bytes from the buffer holding three return at once. -/
theorem blocking_full_success_witness :
    (WF (fresh 4 1) ∧ (fresh 4 1).b_blocking ≠ 0 ∧ WF threeIn ∧ threeIn.b_blocking ≠ 0 ∧
      1 ≤ 5 ∧ 5 * (fresh 4 1).elementSize < 2 ^ 64) ∧
    (∃ out, ringBufferBlockingWrite (fresh 4 1) (some counting) 5 none [readerWakes]
      = some out ∧ out.ret = 5) ∧
    (∃ out, ringBufferBlockingRead threeIn (some zeros) 5 none [writerWakes]
      = some out ∧ out.ret = 5) ∧
    (∃ out, ringBufferBlockingWrite (fresh 4 1) (some counting) 3 none [] = some out ∧
      out.ret = 3 ∧
      ringBufferWrite (fresh 4 1) (some counting) 3 = some (out.ret, out.st.rb) ∧
      out.st.timeToWait = none ∧ out.st.deadlines = [] ∧ out.st.lock = ⟨false, false⟩) ∧
    (∃ out, ringBufferBlockingRead threeIn (some zeros) 3 none [] = some out ∧
      out.ret = 3 ∧
      ringBufferRead threeIn (some zeros) 3 = some (out.ret, out.st.rb, some out.st.buf) ∧
      out.st.timeToWait = none ∧ out.st.deadlines = [] ∧ out.st.lock = ⟨false, false⟩) :=
  ⟨⟨fresh41_reachable.wf, by decide, threeIn_reachable.wf, by decide, by decide, by decide⟩,
    (blocking_full_success (fresh 4 1) counting 5 none [readerWakes] fresh41_reachable.wf
      (by decide) (by decide) (by decide)).1 readerWakes_normal ⟨6, _, rfl⟩,
    (blocking_full_success threeIn zeros 5 none [writerWakes] threeIn_reachable.wf
      (by decide) (by decide) (by decide)).2.1 writerWakes_normal ⟨6, _, rfl⟩,
    (blocking_full_success (fresh 4 1) counting 3 none [] fresh41_reachable.wf
      (by decide) (by decide) (by decide)).2.2.1 (by decide),
    (blocking_full_success threeIn zeros 3 none [] threeIn_reachable.wf
      (by decide) (by decide) (by decide)).2.2.2 (by decide)⟩


/-! ## State tests, reset and end of blocking -/

/-- The two tests of a well-formed buffer are not both nonzero when the storage
holds at least two elements. -/
theorem full_empty_of_wf {rb : s_ringBuffer} (hwf : WF rb)
    (hcap : 1 < rb.buffSize / rb.elementSize) :
    ¬ (ringBufferIsFull rb ≠ 0 ∧ ringBufferIsEmpty rb ≠ 0) := by
  rintro ⟨hf, he⟩
  have hspec := isEmpty_isFull_spec rb hwf
  have hf1 : ringBufferIsFull rb = 1 := by
    unfold ringBufferIsFull at hf ⊢
    split_ifs at hf ⊢ with c
    · rfl
    · exact absurd rfl hf
  have he1 : ringBufferIsEmpty rb = 1 := by
    unfold ringBufferIsEmpty at he ⊢
    split_ifs at he ⊢ with c
    · rfl
    · exact absurd rfl he
  have h1 := hspec.1.mp he1
  have h2 := hspec.2.1.mp hf1
  have h3 := writeSize_eq hwf
  have h4 := readSize_lt hwf
  have h5 : 2 * rb.elementSize ≤ rb.buffSize :=
    (Nat.le_div_iff_mul_le (show 0 < rb.elementSize from hwf.elem)).mp hcap
  omega

/-- Claim C21: in every reachable state whose capacity in elements,
`buffSize / elementSize`, is greater than 1, `ringBufferIsFull` and
`ringBufferIsEmpty` are not both true (nonzero). -/
theorem full_and_empty_exclusive (rb : s_ringBuffer) (hr : Reachable rb)
    (hcap : 1 < rb.buffSize / rb.elementSize) :
    ¬ (ringBufferIsFull rb ≠ 0 ∧ ringBufferIsEmpty rb ≠ 0) :=
  full_empty_of_wf hr.wf hcap

/-- Witness of C21 on four elements of two bytes, three of them written: the
buffer is full and not empty. -/
theorem full_and_empty_exclusive_witness :
    Reachable nearlyFull ∧ 1 < nearlyFull.buffSize / nearlyFull.elementSize ∧
      ¬ (ringBufferIsFull nearlyFull ≠ 0 ∧ ringBufferIsEmpty nearlyFull ≠ 0) :=
  ⟨nearlyFull_reachable, by decide,
    full_and_empty_exclusive nearlyFull nearlyFull_reachable (by decide)⟩


/-- Claim C22: right after a successful `initRingBuffer(n, e)` the two indices
are 0, blocking is enabled, `ringBufferIsEmpty` is true, no byte is occupied and
`buffSize - 1` bytes are free; and `initRingBuffer(10, 1)` succeeds whenever the
allocations do, with a byte capacity of 16 and 15 writable elements. -/
theorem init_state (n e : Nat) (heap : Option Mem) (rb : s_ringBuffer)
    (h : initRingBuffer n e true heap = some (some rb)) :
    (rb.headIndex = 0 ∧ rb.tailIndex = 0 ∧ rb.b_blocking = 1 ∧
      ringBufferStillBlocking rb = 1 ∧ ringBufferIsEmpty rb = 1 ∧
      getRingBufferReadByteSize rb = 0 ∧ getRingBufferWriteByteSize rb = rb.buffSize - 1) ∧
    ∀ block : Mem, ∃ rb10, initRingBuffer 10 1 true (some block) = some (some rb10) ∧
      getRingBufferByteSize rb10 = 16 ∧ getRingBufferWriteSize rb10 = 15 := by
  have gen : ∀ (n e : Nat) (heap : Option Mem) (rb : s_ringBuffer),
      initRingBuffer n e true heap = some (some rb) →
      rb.headIndex = 0 ∧ rb.tailIndex = 0 ∧ rb.b_blocking = 1 ∧
      ringBufferStillBlocking rb = 1 ∧ ringBufferIsEmpty rb = 1 ∧
      getRingBufferReadByteSize rb = 0 ∧
      getRingBufferWriteByteSize rb = rb.buffSize - 1 := by
    intro n e heap rb h
    obtain ⟨hwf, hh, ht, _, hb⟩ := initRingBuffer_wf h
    have hbs := hwf.head
    have hrs : readSize rb = 0 := by
      rw [readSize_eq hwf, hh, ht, Nat.zero_add, Nat.sub_zero, Nat.mod_self]
    have hws := writeSize_eq hwf
    refine ⟨hh, ht, hb, ?_, ?_, hrs, ?_⟩
    · unfold ringBufferStillBlocking; rw [if_pos hb]
    · unfold ringBufferIsEmpty getRingBufferReadSize
      rw [hrs, Nat.zero_div, if_pos rfl]
    · unfold getRingBufferWriteByteSize; omega
  refine ⟨gen n e heap rb h, ?_⟩
  intro block
  obtain ⟨k, k1, _, k3, k4, k5⟩ :=
    allocateBuffer_ok zeroed 10 1 block (by decide) (by decide) (by decide)
  have hw : wrap (10 * 1) = 10 := by decide
  rw [hw] at k3 k4
  have hk : k = 4 := by
    by_cases c : k ≤ 3
    · have h8 : (2 : Nat) ^ k ≤ 2 ^ 3 := Nat.pow_le_pow_right (by decide) c
      have e8 : (2 : Nat) ^ 3 = 8 := by decide
      omega
    · by_cases c2 : 5 ≤ k
      · have h16 := k4 4 (by decide) (by omega)
        have e16 : (2 : Nat) ^ 4 = 16 := by decide
        omega
      · omega
  subst hk
  have hinit : ∃ rb10, initRingBuffer 10 1 true (some block) = some (some rb10) ∧
      rb10.buffSize = 16 ∧ rb10.elementSize = 1 := by
    unfold initRingBuffer
    rw [k5]
    exact ⟨_, rfl, rfl, rfl⟩
  obtain ⟨rb10, h1, h2, h3⟩ := hinit
  obtain ⟨_, _, _, _, _, _, g7⟩ := gen 10 1 (some block) rb10 h1
  refine ⟨rb10, h1, h2, ?_⟩
  unfold getRingBufferWriteByteSize at g7
  unfold getRingBufferWriteSize
  rw [g7, h2, h3]

/-- Witness of C22: `initRingBuffer(10, 1)`. -/
theorem init_state_witness :
    initRingBuffer 10 1 true (some zeros) = some (some (fresh 10 1)) ∧
    (((fresh 10 1).headIndex = 0 ∧ (fresh 10 1).tailIndex = 0 ∧ (fresh 10 1).b_blocking = 1 ∧
      ringBufferStillBlocking (fresh 10 1) = 1 ∧ ringBufferIsEmpty (fresh 10 1) = 1 ∧
      getRingBufferReadByteSize (fresh 10 1) = 0 ∧
      getRingBufferWriteByteSize (fresh 10 1) = (fresh 10 1).buffSize - 1) ∧
    ∀ block : Mem, ∃ rb10, initRingBuffer 10 1 true (some block) = some (some rb10) ∧
      getRingBufferByteSize rb10 = 16 ∧ getRingBufferWriteSize rb10 = 15) :=
  ⟨rfl, init_state 10 1 (some zeros) (fresh 10 1) rfl⟩


/-- Claim C23: `ringBufferReset`, applied to any state, sets both indices to 0
and `b_blocking` to 1 and leaves capacity, mask, element size and storage as
they were; afterwards `ringBufferIsEmpty`, `ringBufferIsAlive` and
`ringBufferStillBlocking` are true. -/
theorem reset_effect (rb : s_ringBuffer) :
    (ringBufferReset rb).headIndex = 0 ∧ (ringBufferReset rb).tailIndex = 0 ∧
    (ringBufferReset rb).b_blocking = 1 ∧
    (ringBufferReset rb).buffSize = rb.buffSize ∧
    (ringBufferReset rb).indexMask = rb.indexMask ∧
    (ringBufferReset rb).elementSize = rb.elementSize ∧
    (ringBufferReset rb).p_buffer = rb.p_buffer ∧
    ringBufferIsEmpty (ringBufferReset rb) = 1 ∧
    ringBufferIsAlive (ringBufferReset rb) = 1 ∧
    ringBufferStillBlocking (ringBufferReset rb) = 1 := by
  refine ⟨rfl, rfl, rfl, rfl, rfl, rfl, rfl, ?_, ?_, ?_⟩
  · simp [ringBufferIsEmpty, getRingBufferReadSize, readSize, ringBufferReset, usub]
  · simp [ringBufferIsAlive, ringBufferReset]
  · simp [ringBufferStillBlocking, ringBufferReset]

/-- Claim C24: `ringBufferEndBlocking` sets `b_blocking` to 0 and changes nothing
else, applying it twice gives the state of applying it once, and afterwards
`ringBufferStillBlocking` is false and `ringBufferIsAlive` is true exactly when
`readSize` is positive. -/
theorem endBlocking_effect (rb : s_ringBuffer) :
    ringBufferEndBlocking rb = { rb with b_blocking := 0 } ∧
    (ringBufferEndBlocking rb).b_blocking = 0 ∧
    (ringBufferEndBlocking rb).headIndex = rb.headIndex ∧
    (ringBufferEndBlocking rb).tailIndex = rb.tailIndex ∧
    (ringBufferEndBlocking rb).p_buffer = rb.p_buffer ∧
    (ringBufferEndBlocking rb).buffSize = rb.buffSize ∧
    (ringBufferEndBlocking rb).indexMask = rb.indexMask ∧
    (ringBufferEndBlocking rb).elementSize = rb.elementSize ∧
    ringBufferEndBlocking (ringBufferEndBlocking rb) = ringBufferEndBlocking rb ∧
    ringBufferStillBlocking (ringBufferEndBlocking rb) = 0 ∧
    (ringBufferIsAlive (ringBufferEndBlocking rb) = 1 ↔
      readSize (ringBufferEndBlocking rb) > 0) ∧
    (ringBufferIsAlive (ringBufferEndBlocking rb) ≠ 0 ↔
      readSize (ringBufferEndBlocking rb) > 0) ∧
    readSize (ringBufferEndBlocking rb) = readSize rb := by
  refine ⟨rfl, rfl, rfl, rfl, rfl, rfl, rfl, rfl, rfl, ?_, ?_, ?_, rfl⟩
  · simp [ringBufferStillBlocking, ringBufferEndBlocking]
  · unfold ringBufferIsAlive
    have hb : (ringBufferEndBlocking rb).b_blocking = 0 := rfl
    rw [hb]
    by_cases c : readSize (ringBufferEndBlocking rb) > 0
    · simp [c]
    · simp [c]
  · unfold ringBufferIsAlive
    have hb : (ringBufferEndBlocking rb).b_blocking = 0 := rfl
    rw [hb]
    by_cases c : readSize (ringBufferEndBlocking rb) > 0
    · simp [c]
    · simp [c]


/-! ## The capacity chosen by `allocateBuffer` -/

/-- C26, counterexample: for a requested byte size of 1 (one element of one
byte) `allocateBuffer` succeeds with `buffSize = 2`, although `2 ^ 0 = 1` is a
power of two that is at least the request. -/
theorem one_byte_request_gets_two :
    (1 ≤ 1 * 1 ∧ 1 * 1 ≤ 2 ^ 63 - 1) ∧
    ∃ rb1, allocateBuffer zeroed 1 1 (some zeros) = some (PROC_SUCC, rb1) ∧
      rb1.buffSize = 2 ∧ 1 * 1 ≤ 2 ^ 0 ∧ ¬ rb1.buffSize ≤ 2 ^ 0 :=
  ⟨by decide, _, rfl, by decide, by decide, by decide⟩

/-- Claim C26, amended: for a requested byte size `r = n * e` with
`1 ≤ r ≤ 2 ^ 63 - 1`, the `buffSize` computed by `allocateBuffer` is the
smallest power of two with exponent at least 1 that is at least `r`, hence the
smallest power of two at least `r` whenever `r ≥ 2`; a request of 1 byte gives 2,
of 10 bytes 16, of 16 bytes 16. -/
theorem allocateBuffer_smallest_power (rb : s_ringBuffer) (n e : Nat) (block : Mem)
    (h1 : 1 ≤ n * e) (h2 : n * e ≤ 2 ^ 63 - 1) :
    (∃ k rb1, allocateBuffer rb n e (some block) = some (PROC_SUCC, rb1) ∧
      rb1.buffSize = 2 ^ k ∧ 1 ≤ k ∧ n * e ≤ 2 ^ k ∧
      (∀ j, 1 ≤ j → n * e ≤ 2 ^ j → 2 ^ k ≤ 2 ^ j) ∧
      (2 ≤ n * e → ∀ j, n * e ≤ 2 ^ j → 2 ^ k ≤ 2 ^ j)) ∧
    (allocateBuffer rb 1 1 (some block)).map (fun r => r.2.buffSize) = some 2 ∧
    (allocateBuffer rb 10 1 (some block)).map (fun r => r.2.buffSize) = some 16 ∧
    (allocateBuffer rb 16 1 (some block)).map (fun r => r.2.buffSize) = some 16 := by
  have hn : 1 ≤ n := by
    rcases Nat.eq_zero_or_pos n with h | h
    · rw [h] at h1; simp at h1
    · exact h
  have he : 1 ≤ e := by
    rcases Nat.eq_zero_or_pos e with h | h
    · rw [h] at h1; simp at h1
    · exact h
  have hw : wrap (n * e) = n * e := wrap_of_lt (by omega)
  obtain ⟨k, k1, _, k3, k4, k5⟩ := allocateBuffer_ok rb n e block hn he (by omega)
  rw [hw] at k3 k4
  have hmin : ∀ j, 1 ≤ j → n * e ≤ 2 ^ j → 2 ^ k ≤ 2 ^ j := by
    intro j hj hle
    by_cases c : j < k
    · have := k4 j hj c
      omega
    · exact Nat.pow_le_pow_right (by decide) (by omega)
  refine ⟨⟨k, _, k5, rfl, k1, k3, hmin, ?_⟩, ?_, ?_, ?_⟩
  · intro h3 j hle
    rcases Nat.eq_zero_or_pos j with hj | hj
    · rw [hj] at hle; simp at hle; omega
    · exact hmin j hj hle
  · simp [allocateBuffer, growLoop, realloc, wrap, PROC_SUCC]
  · simp [allocateBuffer, growLoop, realloc, wrap, PROC_SUCC]
  · simp [allocateBuffer, growLoop, realloc, wrap, PROC_SUCC]

/-- Witness of the amended C26: three elements of four bytes get sixteen bytes. -/
theorem allocateBuffer_smallest_power_witness :
    (1 ≤ 3 * 4 ∧ 3 * 4 ≤ 2 ^ 63 - 1) ∧
    ((∃ k rb1, allocateBuffer zeroed 3 4 (some zeros) = some (PROC_SUCC, rb1) ∧
      rb1.buffSize = 2 ^ k ∧ 1 ≤ k ∧ 3 * 4 ≤ 2 ^ k ∧
      (∀ j, 1 ≤ j → 3 * 4 ≤ 2 ^ j → 2 ^ k ≤ 2 ^ j) ∧
      (2 ≤ 3 * 4 → ∀ j, 3 * 4 ≤ 2 ^ j → 2 ^ k ≤ 2 ^ j)) ∧
    (allocateBuffer zeroed 1 1 (some zeros)).map (fun r => r.2.buffSize) = some 2 ∧
    (allocateBuffer zeroed 10 1 (some zeros)).map (fun r => r.2.buffSize) = some 16 ∧
    (allocateBuffer zeroed 16 1 (some zeros)).map (fun r => r.2.buffSize) = some 16) :=
  ⟨by decide, allocateBuffer_smallest_power zeroed 3 4 zeros (by decide) (by decide)⟩


/-! ## The blocking flag after `ringBufferEndBlocking` -/

/-- On a well-formed buffer the non-blocking write returns, and it leaves the
blocking flag alone. -/
theorem ringBufferWrite_total {rb : s_ringBuffer} (hwf : WF rb) (src : Option Mem) (len : Nat) :
    ∃ r, ringBufferWrite rb src len = some r ∧ r.2.b_blocking = rb.b_blocking := by
  cases src with
  | none => exact ⟨_, rfl, rfl⟩
  | some s =>
    by_cases hl : len ≤ 0
    · exact ⟨(0, rb), by simp [ringBufferWrite, hl], rfl⟩
    · have h := @rawWrite_spec rb hwf s (wrap (len * rb.elementSize))
        (Nat.mod_lt _ (by decide))
      unfold ringBufferWrite
      simp only [hl, if_false, h]
      exact ⟨_, rfl, rfl⟩

/-- On a well-formed buffer the non-blocking read returns, and it leaves the
blocking flag alone. -/
theorem ringBufferRead_total {rb : s_ringBuffer} (hwf : WF rb) (dst : Option Mem) (len : Nat) :
    ∃ r, ringBufferRead rb dst len = some r ∧ r.2.1.b_blocking = rb.b_blocking := by
  cases dst with
  | none => exact ⟨_, rfl, rfl⟩
  | some d =>
    by_cases hl : len ≤ 0
    · exact ⟨(0, rb, some d), by simp [ringBufferRead, hl], rfl⟩
    · have h := @ringBufferRead_spec_wrap rb hwf d len (by omega)
      exact ⟨_, h, rfl⟩

/-- With blocking disabled a blocking call is the non-blocking call, as far as
the buffer object goes. -/
theorem applyOp_blocking_disabled (rb : s_ringBuffer) (h : rb.b_blocking = 0)
    (buf : Option Mem) (len : Nat) (t : Option timespec) (waits : List WaitEvent) :
    applyOp rb (.blockingWrite buf len t waits) = applyOp rb (.write buf len) ∧
    applyOp rb (.blockingRead buf len t waits) = applyOp rb (.read buf len) := by
  cases buf with
  | none => exact ⟨rfl, rfl⟩
  | some b =>
    by_cases hl : len ≤ 0
    · constructor
      · simp [applyOp, ringBufferBlockingWrite, ringBufferWrite, hl, enter]
      · simp [applyOp, ringBufferBlockingRead, ringBufferRead, hl, enter]
    · constructor
      · simp only [applyOp, ringBufferBlockingWrite, hl, if_false, h, if_true, fallbackWrite,
          enter]
        cases ringBufferWrite rb (some b) len with
        | none => rfl
        | some r => rfl
      · simp only [applyOp, ringBufferBlockingRead, hl, if_false, h, if_true, fallbackRead,
          enter]
        cases ringBufferRead rb (some b) len with
        | none => rfl
        | some r => rfl

/-- One public call other than a reset or a resize past the guards, on a
well-formed buffer with blocking disabled: the call returns and blocking is
still disabled. -/
theorem applyOp_leavesFlag {rb : s_ringBuffer} (hwf : WF rb) (hb : rb.b_blocking = 0)
    (op : Op) (hop : op.leavesFlag = true) :
    ∃ rb1, applyOp rb op = some rb1 ∧ rb1.b_blocking = 0 := by
  cases op with
  | write src len =>
    obtain ⟨r, h1, h2⟩ := ringBufferWrite_total hwf src len
    exact ⟨r.2, by simp [applyOp, h1], by rw [h2, hb]⟩
  | read dst len =>
    obtain ⟨r, h1, h2⟩ := ringBufferRead_total hwf dst len
    exact ⟨r.2.1, by simp [applyOp, h1], by rw [h2, hb]⟩
  | blockingWrite src len t waits =>
    obtain ⟨r, h1, h2⟩ := ringBufferWrite_total hwf src len
    rw [(applyOp_blocking_disabled rb hb src len t waits).1]
    exact ⟨r.2, by simp [applyOp, h1], by rw [h2, hb]⟩
  | blockingRead dst len t waits =>
    obtain ⟨r, h1, h2⟩ := ringBufferRead_total hwf dst len
    rw [(applyOp_blocking_disabled rb hb dst len t waits).2]
    exact ⟨r.2.1, by simp [applyOp, h1], by rw [h2, hb]⟩
  | reset => exact absurd hop (by simp [Op.leavesFlag])
  | endBlocking => exact ⟨_, rfl, rfl⟩
  | resize n e heap =>
    have hg : e = 0 ∨ n = 0 ∨ 2 ^ 63 - 1 < wrap (n * e) := by
      simp only [Op.leavesFlag, maxBuffSize_eq, decide_eq_true_eq] at hop
      omega
    refine ⟨rb, ?_, hb⟩
    simp [applyOp, ringBufferResize, allocateBuffer_refused rb n e heap hg, PROC_FAIL, ERROR_NULL]

/-- A sequence of such calls: every call returns and blocking is still disabled
at the end. -/
theorem applyOps_leavesFlag : ∀ (ops : List Op) (rb : s_ringBuffer), WF rb →
    rb.b_blocking = 0 → ops.all Op.leavesFlag = true →
    ∃ rb1, applyOps rb ops = some rb1 ∧ rb1.b_blocking = 0 ∧ WF rb1 := by
  intro ops
  induction ops with
  | nil => intro rb hwf hb _; exact ⟨rb, rfl, hb, hwf⟩
  | cons op ops ih =>
    intro rb hwf hb hall
    rw [List.all_cons, Bool.and_eq_true] at hall
    obtain ⟨rb1, h1, h2⟩ := applyOp_leavesFlag hwf hb op hall.1
    obtain ⟨rb2, h3, h4, h5⟩ := ih rb1 (applyOp_wf hwf h1) h2 hall.2
    refine ⟨rb2, ?_, h4, h5⟩
    simp only [applyOps, h1]
    exact h3


/-- With blocking disabled a blocking call returns what the non-blocking call
returns and leaves the same buffer object. -/
theorem blocking_disabled_same (rb : s_ringBuffer) (h : rb.b_blocking = 0)
    (buf : Option Mem) (len : Nat) (t : Option timespec) (waits : List WaitEvent) :
    (ringBufferBlockingWrite rb buf len t waits).map (fun o => (o.ret, o.st.rb))
      = ringBufferWrite rb buf len ∧
    (ringBufferBlockingRead rb buf len t waits).map (fun o => (o.ret, o.st.rb))
      = (ringBufferRead rb buf len).map (fun r => (r.1, r.2.1)) := by
  cases buf with
  | none => exact ⟨rfl, rfl⟩
  | some b =>
    by_cases hl : len ≤ 0
    · constructor
      · simp [ringBufferBlockingWrite, ringBufferWrite, hl, enter]
      · simp [ringBufferBlockingRead, ringBufferRead, hl, enter]
    · constructor
      · simp only [ringBufferBlockingWrite, hl, if_false, h, if_true, fallbackWrite, enter]
        cases ringBufferWrite rb (some b) len with
        | none => rfl
        | some r => rfl
      · simp only [ringBufferBlockingRead, hl, if_false, h, if_true, fallbackRead, enter]
        cases ringBufferRead rb (some b) len with
        | none => rfl
        | some r => rfl

/-- C27, counterexample: on the buffer of four two-byte elements whose blocking
was ended, one `ringBufferResize(4, 2)` sets `b_blocking` back to 1, whether the
allocation succeeds or fails; a blocking read of the then empty buffer has to
wait where the non-blocking read returns 0. -/
theorem resize_reenables_blocking :
    Reachable ended ∧ ended.b_blocking = 0 ∧
    (applyOps ended [.resize 4 2 (some zeros)]).map (fun r => r.b_blocking) = some 1 ∧
    (applyOps ended [.resize 4 2 none]).map (fun r => r.b_blocking) = some 1 ∧
    (ringBufferRead (after ended (.resize 4 2 none)) (some zeros) 1).map (fun r => r.1)
      = some 0 ∧
    (ringBufferBlockingRead (after ended (.resize 4 2 none)) (some zeros) 1 none []).isSome
      = false :=
  ⟨ended_reachable, by decide, by decide, by decide, by decide, by decide⟩

/-- Claim C27, amended: after `ringBufferEndBlocking` on a reachable buffer,
every sequence of public calls that contains neither `ringBufferReset` nor a
`ringBufferResize` whose sizes pass the guards of `allocateBuffer` returns and
leaves `b_blocking` at 0, and every later blocking call returns what the
corresponding non-blocking call returns, with the same buffer object. -/
theorem ended_stays_ended (rb : s_ringBuffer) (ops : List Op) (hr : Reachable rb)
    (hops : ops.all Op.leavesFlag = true) :
    ∃ rb1, applyOps (ringBufferEndBlocking rb) ops = some rb1 ∧ rb1.b_blocking = 0 ∧
      ∀ (buf : Option Mem) (len : Nat) (t : Option timespec) (waits : List WaitEvent),
        (ringBufferBlockingWrite rb1 buf len t waits).map (fun o => (o.ret, o.st.rb))
          = ringBufferWrite rb1 buf len ∧
        (ringBufferBlockingRead rb1 buf len t waits).map (fun o => (o.ret, o.st.rb))
          = (ringBufferRead rb1 buf len).map (fun r => (r.1, r.2.1)) := by
  have hwf : WF (ringBufferEndBlocking rb) :=
    applyOp_wf hr.wf (show applyOp rb .endBlocking = some (ringBufferEndBlocking rb) from rfl)
  obtain ⟨rb1, h1, h2, _⟩ := applyOps_leavesFlag ops (ringBufferEndBlocking rb) hwf rfl hops
  exact ⟨rb1, h1, h2, fun buf len t waits => blocking_disabled_same rb1 h2 buf len t waits⟩

/-- Witness of the amended C27: a write, a blocking read, a resize refused by
the guards and a second end of blocking. -/
theorem ended_stays_ended_witness :
    Reachable (fresh 4 2) ∧
    [Op.write (some counting) 1, .blockingRead (some zeros) 1 none [], .resize 0 2 none,
      .endBlocking].all Op.leavesFlag = true ∧
    ∃ rb1, applyOps (ringBufferEndBlocking (fresh 4 2))
        [Op.write (some counting) 1, .blockingRead (some zeros) 1 none [], .resize 0 2 none,
          .endBlocking] = some rb1 ∧ rb1.b_blocking = 0 ∧
      ∀ (buf : Option Mem) (len : Nat) (t : Option timespec) (waits : List WaitEvent),
        (ringBufferBlockingWrite rb1 buf len t waits).map (fun o => (o.ret, o.st.rb))
          = ringBufferWrite rb1 buf len ∧
        (ringBufferBlockingRead rb1 buf len t waits).map (fun o => (o.ret, o.st.rb))
          = (ringBufferRead rb1 buf len).map (fun r => (r.1, r.2.1)) :=
  ⟨Reachable.init 4 2 (some zeros) (fresh 4 2) rfl, by decide,
    ended_stays_ended (fresh 4 2) _ (Reachable.init 4 2 (some zeros) (fresh 4 2) rfl)
      (by decide)⟩


/-! ## The deadline of the timed waits -/

/-- C28, the code at the failing input: a blocking read of one byte from the
empty buffer of `initRingBuffer(4, 1)` with a relative timeout of 1 s waits
twice, at the clock readings 1000 s and 1001 s. The deadline handed to the first
wait is 1001 s, the one handed to the second wait is 2002 s, the first deadline
plus the second clock reading, and the caller's timeout holds 2002 s when the
call returns. -/
theorem deadline_accumulates :
    spuriousWake.clock = some ⟨1000, 0⟩ ∧ lateWriter.clock = some ⟨1001, 0⟩ ∧
    ∃ out, ringBufferBlockingRead (fresh 4 1) (some zeros) 1 (some ⟨1, 0⟩)
        [spuriousWake, lateWriter] = some out ∧
      out.ret = 1 ∧ out.st.deadlines = [⟨1 + 1000, 0⟩, ⟨1 + 1000 + 1001, 0⟩] ∧
      out.st.deadlines ≠ [⟨1 + 1000, 0⟩, ⟨1 + 1000, 0⟩] ∧
      out.st.timeToWait = some ⟨2002, 0⟩ :=
  ⟨rfl, rfl, _, rfl, by decide, by decide, by decide, by decide⟩


/-! ## The mutex at the end of a blocking call -/

/-- C29, the code at the failing inputs, the lock being free at entry in each.
A blocking write of twelve bytes into sixteen bytes of capacity holding five,
whose wait times out with blocking still enabled, returns with the mutex held. A
blocking read of one byte from an empty buffer, whose wait times out after
another thread has ended blocking, calls the non-blocking read, which locks the
mutex that the caller still holds. After a normal wake-up by the end of
blocking, and after a clock error, the same read returns with the mutex free and
without having locked it twice. -/
theorem timeout_leaves_mutex_locked :
    (enter halfFull counting (some ⟨0, 100000000⟩)).lock = ⟨false, false⟩ ∧
    (∃ out, ringBufferBlockingWrite halfFull (some counting) 12 (some ⟨0, 100000000⟩)
        [timedOut] = some out ∧ out.st.rb.b_blocking = 1 ∧ out.st.lock.held = true) ∧
    (∃ out, ringBufferBlockingRead (fresh 4 1) (some zeros) 1 (some ⟨1, 0⟩)
        [timedOutAfterEnd] = some out ∧ out.st.rb.b_blocking = 0 ∧
        out.st.lock.misuse = true) ∧
    (∃ out, ringBufferBlockingRead (fresh 4 1) (some zeros) 1 (some ⟨1, 0⟩)
        [wokenByEnd] = some out ∧ out.st.lock = ⟨false, false⟩) ∧
    (∃ out, ringBufferBlockingRead (fresh 4 1) (some zeros) 1 (some ⟨1, 0⟩)
        [clockError] = some out ∧ out.st.lock = ⟨false, false⟩) :=
  ⟨rfl, ⟨_, rfl, by decide, by decide⟩, ⟨_, rfl, by decide, by decide⟩,
    ⟨_, rfl, by decide⟩, ⟨_, rfl, by decide⟩⟩


/-! ## Elements and the byte counts of the transfers -/

theorem sevenIn_reachable : Reachable sevenIn :=
  Reachable.step (fresh 4 2) sevenIn
    (.blockingWrite (some counting) 4 (some ⟨0, 100000000⟩) [timedOut])
    (Reachable.init 4 2 (some zeros) (fresh 4 2) rfl) rfl

/-- C30, the code at the failing input, with elements of two bytes and eight
bytes of capacity. A blocking write of four elements into the empty buffer
transfers a first chunk of `buffSize - 1 = 7` bytes, waits for the last byte and,
when the wait times out, returns 3 with the head index advanced by 7 bytes, not
by `3 * 2`: three elements and a half are in the buffer. From that state
`ringBufferRead` of four elements and a blocking read of four elements whose
wait times out both return 3 with the tail index advanced by 7 bytes. -/
theorem short_return_splits_element :
    (fresh 4 2).elementSize = 2 ∧ (fresh 4 2).buffSize = 8 ∧ (fresh 4 2).headIndex = 0 ∧
    (∃ out, ringBufferBlockingWrite (fresh 4 2) (some counting) 4 (some ⟨0, 100000000⟩)
        [timedOut] = some out ∧ out.ret = 3 ∧ out.st.rb.headIndex = 7 ∧
        out.st.rb.headIndex ≠ (0 + 3 * 2) % 8 ∧ out.st.rb = sevenIn) ∧
    Reachable sevenIn ∧ sevenIn.tailIndex = 0 ∧ readSize sevenIn = 7 ∧
    (∃ r, ringBufferRead sevenIn (some zeros) 4 = some r ∧ r.1 = 3 ∧
        r.2.1.tailIndex = 7 ∧ r.2.1.tailIndex ≠ (0 + 3 * 2) % 8) ∧
    (∃ out, ringBufferBlockingRead sevenIn (some zeros) 4 (some ⟨0, 100000000⟩)
        [timedOut] = some out ∧ out.ret = 3 ∧ out.st.rb.tailIndex = 7 ∧
        out.st.rb.tailIndex ≠ (0 + 3 * 2) % 8) :=
  ⟨by decide, by decide, by decide, ⟨_, rfl, by decide, by decide, by decide, rfl⟩,
    sevenIn_reachable, by decide, by decide,
    ⟨_, rfl, by decide, by decide, by decide⟩,
    ⟨_, rfl, by decide, by decide, by decide⟩⟩


/-! ## A reader released by the end of blocking -/

/-- An untimed wait of the only thread blocked on the condition returns exactly
when a signal is sent. -/
theorem soleWaiterReturn_untimed (env : List EnvOp) :
    (soleWaiterReturn false env = none ↔ env.any EnvOp.signals = false) ∧
    (soleWaiterReturn false env = some true ↔ env.any EnvOp.signals = true) := by
  unfold soleWaiterReturn
  cases env.any EnvOp.signals <;> simp

/-- C31, the code at the failing input, with elements of one byte and four bytes
of capacity. A blocking write of the five bytes `1, 2, 3, 4, 5` into the empty
buffer transfers `1, 2, 3` and waits; another thread reads the three bytes and
ends blocking; the non-blocking write that the call falls back to is handed the
start of the source block, so that the ring receives `1, 2` a second time and
never `4, 5`. A blocking read of five bytes from a buffer holding `1, 2, 3`
delivers them to `dst[0..3)` and waits; another thread writes `4, 5` and ends
blocking; the non-blocking read stores `4, 5` at `dst[0..2)`, over the bytes
delivered before. -/
theorem fallback_restarts_at_base :
    bytesOf counting 5 = [1, 2, 3, 4, 5] ∧ contents (fresh 4 1) = [] ∧
    (∃ out, ringBufferBlockingWrite (fresh 4 1) (some counting) 5 none [drainedThenEnded]
        = some out ∧
      out.ret = 2 ∧ contents out.st.rb = [1, 2] ∧ contents out.st.rb ≠ [4, 5]) ∧
    contents threeIn = [1, 2, 3] ∧
    (∃ out, ringBufferBlockingRead threeIn (some zeros) 5 none [filledThenEnded] = some out ∧
      out.ret = 2 ∧ out.st.rb.tailIndex = (threeIn.tailIndex + 5) % 4 ∧
      bytesOf out.st.buf 5 = [4, 5, 3, 0, 0] ∧ bytesOf out.st.buf 5 ≠ [1, 2, 3, 4, 5]) :=
  ⟨by decide, by decide, ⟨_, rfl, by decide, by decide, by decide⟩, by decide,
    ⟨_, rfl, by decide, by decide, by decide, by decide⟩⟩

end RingBuffer
